import Mathlib

/-!
The OSC codec of mchelper (`mchelper/trunk/source/Osc.cpp`), makecontroller.

A shallow embedding of the host-side OSC encoder and decoder.

Conventions of the embedding:

* a `QByteArray` is the list of its bytes, a `QString` the list of its
  character codes (both `List Nat`);
* the Qt library is not part of the repository; the few Qt operations the
  codec uses are modelled in the namespace `Qt` below, with the behaviour of
  the Qt 4 series the file was written for (big-endian `QDataStream`,
  single-precision floats written as their 4-byte IEEE-754 pattern,
  `QString::toAscii` acting as Latin-1);
* `Q_ASSERT` is a debug check that does not alter the computed value; the
  condition it tests is stated as a predicate next to the function;
* a `QByteArray::at` outside the array is recorded in an `inBounds` flag that
  the decoder threads through its results.
-/

set_option autoImplicit false

/-- A byte array, as the list of its bytes. -/
abbrev QByteArray := List Nat

/-- A string, as the list of its character codes. -/
abbrev QString := List Nat

namespace Qt

/-- Conversion `QString::toAscii`: without a C-string codec this is the Latin-1
conversion; a character outside Latin-1 is replaced by a question mark. -/
def toAscii (s : QString) : QByteArray :=
  s.map (fun c => if c < 256 then c else 63)

/-- Constructor `QString(const char*)`: the characters up to the first NUL. -/
def fromAscii (d : QByteArray) : QString :=
  d.takeWhile (fun c => c != 0)

/-- Big-endian bytes of a 32-bit unsigned quantity. -/
def be32 (n : Nat) : QByteArray :=
  [n / 16777216 % 256, n / 65536 % 256, n / 256 % 256, n % 256]

/-- Value of four big-endian bytes. -/
def fromBe32 (b0 b1 b2 b3 : Nat) : Nat :=
  b0 * 16777216 + b1 * 65536 + b2 * 256 + b3

/-- A `QDataStream` opened for writing on a byte array: the `QBuffer` keeps
the current contents and starts at position 0. -/
structure WStream where
  buf : QByteArray
  pos : Nat
deriving DecidableEq, Repr

/-- Open a write stream on an existing byte array (`QIODevice::WriteOnly`
keeps the contents of a `QBuffer`, position 0). -/
def WStream.openOn (ba : QByteArray) : WStream := ⟨ba, 0⟩

/-- A `QBuffer` write at the current position: overwrites what is there and
extends the array when the write runs past its end (a gap is zero filled). -/
def WStream.writeRawData (s : WStream) (bytes : QByteArray) : WStream :=
  ⟨s.buf.take s.pos ++ List.replicate (s.pos - s.buf.length) 0 ++ bytes
      ++ s.buf.drop (s.pos + bytes.length),
   s.pos + bytes.length⟩

/-- Stream operator `<<` on a 32-bit int: four bytes, big-endian, two-complement. -/
def WStream.writeInt32 (s : WStream) (i : Int) : WStream :=
  s.writeRawData (be32 (i % 4294967296).toNat)

/-- Stream operator `<<` on a float: the four bytes of its IEEE-754 single
pattern, big-endian. The float is carried as that 32-bit pattern. -/
def WStream.writeFloat (s : WStream) (bits : Nat) : WStream :=
  s.writeRawData (be32 (bits % 4294967296))

/-- Stream operator `<<` on a (non-null) `QByteArray`: the size as a 32-bit
quantity, then the raw bytes, nothing after them. -/
def WStream.writeByteArray (s : WStream) (ba : QByteArray) : WStream :=
  (s.writeRawData (be32 (ba.length % 4294967296))).writeRawData ba

/-- Function `QDataStream::skipRawData` on a random-access device: seek
forward, never past the end. -/
def WStream.skipRawData (s : WStream) (len : Nat) : WStream :=
  ⟨s.buf, if s.pos + len > s.buf.length then s.buf.length else s.pos + len⟩

/-- A `QDataStream` opened for reading: the bytes from the current position
to the end of the device, and whether the status is still `Ok`. -/
structure RStream where
  rest : QByteArray
  ok : Bool
deriving DecidableEq, Repr

/-- Open a read stream on a byte array. -/
def RStream.openOn (ba : QByteArray) : RStream := ⟨ba, true⟩

/-- Function `QDataStream::atEnd`. -/
def RStream.atEnd (s : RStream) : Bool := s.rest.isEmpty

/-- Function `QDataStream::skipRawData` on a random-access device: seek
forward, never past the end; the status is not touched. -/
def RStream.skipRawData (s : RStream) (len : Nat) : RStream :=
  ⟨s.rest.drop len, s.ok⟩

/-- Stream operator `>>` on a 32-bit unsigned quantity: four bytes,
big-endian. With fewer than four bytes left the device is drained, the value
is 0 and the status becomes `ReadPastEnd`. -/
def RStream.readUInt32 (s : RStream) : Nat × RStream :=
  match s.rest with
  | b0 :: b1 :: b2 :: b3 :: rest => (fromBe32 b0 b1 b2 b3, ⟨rest, s.ok⟩)
  | _ => (0, ⟨[], false⟩)

/-- Stream operator `>>` on a 32-bit int: the unsigned quantity read as
two-complement. -/
def RStream.readInt32 (s : RStream) : Int × RStream :=
  let r := s.readUInt32
  ((if r.1 < 2147483648 then (r.1 : Int) else (r.1 : Int) - 4294967296), r.2)

/-- Stream operator `>>` on a float, carried as its 32-bit pattern. -/
def RStream.readFloat (s : RStream) : Nat × RStream := s.readUInt32

/-- Stream operator `>>` on a `QByteArray`: a 32-bit size, then that many
bytes. The size `0xffffffff` stands for a null array. When the device holds
fewer bytes than announced the array is cleared and the status becomes
`ReadPastEnd`. -/
def RStream.readByteArray (s : RStream) : QByteArray × RStream :=
  let r := s.readUInt32
  if r.1 = 4294967295 then ([], r.2)
  else if r.2.rest.length < r.1 then ([], ⟨[], false⟩)
  else (r.2.rest.take r.1, ⟨r.2.rest.drop r.1, r.2.ok⟩)

/-- Function `QByteArray::startsWith`. -/
def startsWith (ba pre : QByteArray) : Bool := pre.isPrefixOf ba

/-- Function `QByteArray::remove(0, len)`: drops `len` leading bytes, or all
of them when the array is shorter. -/
def removeFront (ba : QByteArray) (len : Nat) : QByteArray := ba.drop len

end Qt

/-- The payload of one OSC argument (`OscData`): the variant and its value.
A float is carried as its IEEE-754 single pattern. -/
inductive OscData where
  | Int (i : Int)
  | Float (bits : Nat)
  | String (s : QString)
  | Blob (b : QByteArray)
deriving DecidableEq, Repr

/-- An OSC message (`OscMessage`): address pattern and argument list. -/
structure OscMessage where
  addressPattern : QString
  data : List OscData
deriving DecidableEq, Repr

namespace Osc

/-- Function `Osc::writePaddedString`: the string, a NUL terminator, then NUL
padding up to a multiple of four. -/
def writePaddedString (str : QString) : QByteArray :=
  let paddedString := Qt.toAscii str ++ [0]
  let pad := 4 - paddedString.length % 4
  if pad < 4 then paddedString ++ List.replicate pad 0 else paddedString

/-- Function `Osc::paddedLength`: total length of string plus padding. -/
def paddedLength (str : QString) : Nat :=
  let len := str.length + 1
  let pad := len % 4
  if pad ≠ 0 then len + (4 - pad) else len

/-- Function `Osc::writeTimetag`: two 32-bit ints through a data stream. -/
def writeTimetag (a b : Int) : QByteArray :=
  (((Qt.WStream.openOn []).writeInt32 a).writeInt32 b).buf

end Osc

namespace OscMessage

/-- One iteration of the `foreach` of `OscMessage::toByteArray`: the state is
the type tag built so far and the stream on the `args` array. -/
def toByteArrayStep (st : QString × Qt.WStream) (dataElement : OscData) :
    QString × Qt.WStream :=
  match dataElement with
  | OscData.String s => (st.1 ++ [115], st.2.writeRawData (Osc.writePaddedString s))
  | OscData.Blob b => (st.1 ++ [98], st.2.writeByteArray b)
  | OscData.Int i => (st.1 ++ [105], st.2.writeInt32 i)
  | OscData.Float f => (st.1 ++ [102], st.2.writeFloat f)

/-- Method `OscMessage::toByteArray`: padded address, padded type tag, then
the arguments assembled in the intermediate `args` array. -/
def toByteArray (m : OscMessage) : QByteArray :=
  let msg := Osc.writePaddedString m.addressPattern
  let st := m.data.foldl toByteArrayStep ([44], Qt.WStream.openOn [])
  msg ++ Osc.writePaddedString st.1 ++ st.2.buf

/-- The condition of the `Q_ASSERT` that ends `OscMessage::toByteArray`. -/
def toByteArrayAssert (m : OscMessage) : Bool :=
  (toByteArray m).length % 4 == 0

end OscMessage

namespace Osc

/-- The literal `#bundle`. -/
def bundleTag : QString := [35, 98, 117, 110, 100, 108, 101]

/-- Function `Osc::createPacket(const QList<OscMessage*>&)`. -/
def createPacket (msgs : List OscMessage) : QByteArray :=
  if msgs.length = 0 then []
  else if msgs.length = 1 then
    match msgs.head? with
    | some first => first.toByteArray
    | none => []
  else
    let bundle := writePaddedString bundleTag ++ writeTimetag 0 0
    let dstream := (Qt.WStream.openOn bundle).skipRawData bundle.length
    (msgs.foldl (fun ds msg => ds.writeByteArray msg.toByteArray) dstream).buf

/-- The condition of the `Q_ASSERT` that ends `Osc::createPacket`; the empty
list returns before reaching it. -/
def createPacketAssert (msgs : List OscMessage) : Bool :=
  msgs.length == 0 || (createPacket msgs).length % 4 == 0

end Osc

namespace Osc

/-- What `Osc::getTypeTag` leaves behind: the tag, the buffer after the tag was
removed, and whether every `at(0)` was made on a non-empty buffer. -/
structure TypeTagResult where
  tag : QString
  rest : QByteArray
  inBounds : Bool
deriving DecidableEq, Repr

/-- The `while` loop of `Osc::getTypeTag`: `msg->at(0)` is evaluated before
`msg->size()` is looked at, so the loop ends on an empty buffer only after
reading index 0 of it (which yields the terminator, not a comma). -/
def getTypeTagLoop : QByteArray → QByteArray × Bool
  | [] => ([], false)
  | c :: rest => if c != 44 then getTypeTagLoop rest else (c :: rest, true)

/-- Function `Osc::getTypeTag`. -/
def getTypeTag (msg : QByteArray) : TypeTagResult :=
  let r := getTypeTagLoop msg
  let tag := Qt.fromAscii r.1
  ⟨tag, Qt.removeFront r.1 (paddedLength tag), r.2⟩

/-- The inner `while` of the string case of `Osc::extractData`: characters
are pulled until a NUL was read or the stream is at its end. -/
def readOscString : QByteArray → QString × QByteArray
  | [] => ([], [])
  | c :: rest =>
    if c = 0 then ([], rest)
    else ((c :: (readOscString rest).1), (readOscString rest).2)

/-- The `while` loop of `Osc::extractData`, on the type tag characters from
`typeIdx` on: returns the value of the function and the arguments appended. -/
def extractDataLoop : QString → Qt.RStream → List OscData → Bool × List OscData
  | [], _, acc => (true, acc)
  | t :: ts, dstream, acc =>
    if dstream.atEnd then (true, acc)
    else
      let step : Qt.RStream × List OscData :=
        if t = 105 then
          ((dstream.readInt32).2, acc ++ [OscData.Int (dstream.readInt32).1])
        else if t = 102 then
          ((dstream.readFloat).2, acc ++ [OscData.Float (dstream.readFloat).1])
        else if t = 115 then
          let r := readOscString dstream.rest
          ((Qt.RStream.mk r.2 dstream.ok).skipRawData (paddedLength r.1 - r.1.length - 1),
            acc ++ [OscData.String r.1])
        else if t = 98 then
          ((dstream.readByteArray).2, acc ++ [OscData.Blob (dstream.readByteArray).1])
        else (dstream, acc)
      if step.1.ok = false then (false, step.2)
      else extractDataLoop ts step.1 step.2

/-- Function `Osc::extractData`: the loop starts after the comma. -/
def extractData (typetag : QString) (msg : QByteArray) (data : List OscData) :
    Bool × List OscData :=
  extractDataLoop (typetag.drop 1) (Qt.RStream.openOn msg) data

/-- What `Osc::receiveMessage` returns: the message, if any, and whether all
accesses stayed in bounds. -/
structure MessageResult where
  msg : Option OscMessage
  inBounds : Bool
deriving DecidableEq, Repr

/-- Function `Osc::receiveMessage`. -/
def receiveMessage (msg : QByteArray) : MessageResult :=
  let addressPattern := Qt.fromAscii msg
  let msg1 := Qt.removeFront msg (paddedLength addressPattern)
  let tt := getTypeTag msg1
  if tt.tag.isEmpty || !(Qt.startsWith tt.tag [44]) then ⟨none, tt.inBounds⟩
  else
    let r := extractData tt.tag tt.rest []
    if !r.1 || r.2.length ≠ tt.tag.length - 1 then ⟨none, tt.inBounds⟩
    else ⟨some ⟨addressPattern, r.2⟩, tt.inBounds⟩

/-- What `Osc::receivePacket` does: its return value, the messages it
appended to the output list, and whether all accesses stayed in bounds. -/
structure PacketResult where
  ok : Bool
  msgs : List OscMessage
  inBounds : Bool
deriving DecidableEq, Repr

mutual
/-- Function `Osc::receivePacket`, with a bound on the number of nested calls
and loop iterations still allowed; `none` when the bound is used up. -/
def receivePacketFuel : Nat → QByteArray → Option PacketResult
  | 0, _ => none
  | fuel + 1, pkt =>
    if Qt.startsWith pkt [47] then
      let r := receiveMessage pkt
      some ⟨true, r.msg.toList, r.inBounds⟩
    else if Qt.startsWith pkt bundleTag then
      receiveBundleLoop fuel ((Qt.RStream.openOn pkt).skipRawData 16)
    else some ⟨true, [], true⟩
/-- The `while` loop of the bundle branch of `Osc::receivePacket`. -/
def receiveBundleLoop : Nat → Qt.RStream → Option PacketResult
  | 0, _ => none
  | fuel + 1, dstream =>
    if !dstream.atEnd && dstream.ok then
      let r := dstream.readByteArray
      if r.1.length > 16384 || r.1.length ≤ 0 then some ⟨false, [], true⟩
      else
        match receivePacketFuel fuel r.1 with
        | none => none
        | some inner =>
          if !inner.ok then some ⟨false, inner.msgs, inner.inBounds⟩
          else
            match receiveBundleLoop fuel r.2 with
            | none => none
            | some later =>
              some ⟨later.ok, inner.msgs ++ later.msgs, inner.inBounds && later.inBounds⟩
    else some ⟨true, [], true⟩
end

/-- Function `Osc::receivePacket` on a whole packet: more nested calls and
iterations than the packet has bytes cannot occur. -/
def receivePacket (pkt : QByteArray) : Option PacketResult :=
  receivePacketFuel (pkt.length + 1) pkt

/-- What `Osc::processPacket` returns: the message list filled by
`receivePacket` (whose return value it drops), and the bounds flag. -/
structure Decoded where
  msgs : List OscMessage
  inBounds : Bool
deriving DecidableEq, Repr

/-- Function `Osc::processPacket`. -/
def processPacket (data : QByteArray) : Option Decoded :=
  (receivePacket data).map (fun r => ⟨r.msgs, r.inBounds⟩)

end Osc

/-! ## Auxiliary definitions used to state the layout -/

/-- The type tag character of an argument. -/
def OscData.tagChar : OscData → Nat
  | OscData.Int _ => 105
  | OscData.Float _ => 102
  | OscData.String _ => 115
  | OscData.Blob _ => 98

/-- The bytes one argument contributes to the `args` array. -/
def OscData.argBytes : OscData → QByteArray
  | OscData.Int i => Qt.be32 (i % 4294967296).toNat
  | OscData.Float f => Qt.be32 (f % 4294967296)
  | OscData.String s => Osc.writePaddedString s
  | OscData.Blob b => Qt.be32 (b.length % 4294967296) ++ b

/-- The bytes of an argument list, one argument after the other. -/
def OscData.argsBytes : List OscData → QByteArray
  | [] => []
  | d :: ds => d.argBytes ++ argsBytes ds

/-- The bundle elements as the layout describes them: for each message, in
list order, the size of its encoding as four big-endian bytes, then the
encoding itself. -/
def Osc.bundleElements : List OscMessage → QByteArray
  | [] => []
  | m :: ms => Qt.be32 m.toByteArray.length ++ m.toByteArray ++ bundleElements ms

/-- The 32-bit two-complement pattern of an int. -/
def twoComplement32 (i : Int) : Nat :=
  if 0 ≤ i then i.toNat else (i + 4294967296).toNat

/-- The type tag character the layout rule gives an argument. -/
def layoutTagChar : OscData → Nat
  | OscData.Int _ => 105
  | OscData.Float _ => 102
  | OscData.String _ => 115
  | OscData.Blob _ => 98

/-- The bytes the layout rule gives an Int32 or string argument: an int as
the four big-endian bytes of its two-complement pattern, a string through
`writePaddedString`. (The rule is stated for these two variants only.) -/
def layoutArgBytes : OscData → QByteArray
  | OscData.Int i =>
    [twoComplement32 i / 16777216 % 256, twoComplement32 i / 65536 % 256,
     twoComplement32 i / 256 % 256, twoComplement32 i % 256]
  | OscData.String s => Osc.writePaddedString s
  | _ => []

/-- The arguments laid out one after the other with nothing between them. -/
def layoutArgs : List OscData → QByteArray
  | [] => []
  | d :: ds => layoutArgBytes d ++ layoutArgs ds

/-- An argument that is an Int32 (in the 32-bit range) or a string. -/
def OscData.isIntOrString : OscData → Prop
  | OscData.Int i => -2147483648 ≤ i ∧ i < 2147483648
  | OscData.String _ => True
  | _ => False

instance (d : OscData) : Decidable d.isIntOrString := by
  cases d <;> simp only [OscData.isIntOrString] <;> infer_instance

/-- An argument a message can hold: a 32-bit int, a 32-bit float pattern, an
ASCII string without NUL, a blob of bytes whose size fits an `int`. -/
def OscData.wellFormed : OscData → Prop
  | OscData.Int i => -2147483648 ≤ i ∧ i < 2147483648
  | OscData.Float f => f < 4294967296
  | OscData.String s => ∀ c ∈ s, 0 < c ∧ c < 128
  | OscData.Blob b => (∀ x ∈ b, x < 256) ∧ b.length < 2147483648

instance (d : OscData) : Decidable d.wellFormed := by
  cases d <;> simp only [OscData.wellFormed] <;> infer_instance

/-- A message of the round trip: the address starts with a slash and is a
string of non-NUL bytes, and every argument is well formed. -/
def OscMessage.constructible (m : OscMessage) : Prop :=
  m.addressPattern.head? = some 47 ∧ (∀ c ∈ m.addressPattern, 0 < c ∧ c < 256)
    ∧ ∀ d ∈ m.data, d.wellFormed

instance (m : OscMessage) : Decidable m.constructible := by
  unfold OscMessage.constructible; infer_instance

/-! ## The analog inputs of the firmware (`firmware/trunk/core/makingthings/analogin.c`)

The OSC part of the file: the autosend mask with its sentinel byte, the
autosender and the two handlers. The ADC, the EEPROM driver and the OSC
output queue are outside the file; they appear as the sampled values, as one
stored word and as the list of messages handed to `oscCreateMessage`. -/

namespace Analogin

/-- The constant `ANALOGIN_CHANNELS`. -/
def ANALOGIN_CHANNELS : Nat := 8

/-- The constant `AIN_AUTOSEND_SAVED`, the mark of a saved mask. -/
def AIN_AUTOSEND_SAVED : Nat := 0xDF

/-- Modelled from the spec: the type tag of the firmware `OscData` (declared in
`osc.h`, which is not among the sources). -/
inductive OscType where
  | INT
  | FLOAT
  | STRING
  | BLOB
deriving DecidableEq, Repr

/-- Modelled from the spec: the firmware `OscData` (declared in `osc.h`, which
is not among the sources), a type tag and a value; this file only uses
the int member `value.i`. -/
structure OscData where
  type : OscType
  i : Int
deriving DecidableEq, Repr

/-- Modelled from the spec: one call `oscCreateMessage(ch, address, data, count)`
(defined in `osc.c`, which is not among the sources), recorded as the message
it queues: channel, address and arguments. -/
structure Created where
  ch : Nat
  address : List Nat
  data : List OscData
deriving DecidableEq, Repr

/-- The globals of the file and the word the EEPROM holds at
`EEPROM_ANALOGIN_AUTOSEND`. The array `analoginAutosendVals` is read and
written at the indices 0 to 7 only. -/
structure State where
  analoginAutosendVals : Nat → Int
  analoginAutosendChannels : Nat
  eeprom : Nat

/-- Modelled from the spec: `eepromRead(EEPROM_ANALOGIN_AUTOSEND)` (the EEPROM
driver is not among the sources) returns the word last written there. -/
def eepromRead (st : State) : Nat := st.eeprom

/-- Modelled from the spec: `eepromWrite(EEPROM_ANALOGIN_AUTOSEND, value)`
(the EEPROM driver is not among the sources) stores the word. -/
def eepromWrite (st : State) (value : Nat) : State := { st with eeprom := value }

/-- Function `analoginAutoSendInit`: the mask is read into the 16-bit global
and replaced by the bare sentinel when its high byte is not the sentinel. -/
def analoginAutoSendInit (st : State) : State :=
  let channels := eepromRead st % 65536
  if (channels >>> 8) &&& 0xFF ≠ AIN_AUTOSEND_SAVED then
    { st with analoginAutosendChannels := (AIN_AUTOSEND_SAVED <<< 8) % 65536 }
  else { st with analoginAutosendChannels := channels }

/-- The decimal text `%d` gives a `uint8_t`. -/
def decimal (n : Nat) : List Nat :=
  if n < 10 then [48 + n]
  else if n < 100 then [48 + n / 10, 48 + n % 10]
  else [48 + n / 100, 48 + n / 10 % 10, 48 + n % 10]

/-- The address `sniprintf(addr, sizeof(addr), "/analogin/%d/value", i)` leaves
in the 19-byte buffer: at most 18 characters before the terminator. -/
def autosendAddress (i : Nat) : List Nat :=
  ([47, 97, 110, 97, 108, 111, 103, 105, 110, 47] ++ decimal i
    ++ [47, 118, 97, 108, 117, 101]).take 18

/-- The body of the `for` loop of `analoginOscAutosender` for one `i`; the
value `analoginValue(i)` returns is `sample i`. -/
def analoginOscAutosenderStep (sample : Nat → Int) (ch : Nat)
    (acc : State × List Created) (i : Nat) : State × List Created :=
  if acc.1.analoginAutosendChannels &&& (1 <<< i) ≠ 0 then
    let d : OscData := ⟨OscType.INT, sample i⟩
    if acc.1.analoginAutosendVals i ≠ d.i then
      ({ acc.1 with analoginAutosendVals := Function.update acc.1.analoginAutosendVals i d.i },
        acc.2 ++ [⟨ch, autosendAddress i, [d]⟩])
    else acc
  else acc

/-- Function `analoginOscAutosender`: the new state and the messages created,
in order. -/
def analoginOscAutosender (sample : Nat → Int) (ch : Nat) (st : State) :
    State × List Created :=
  (List.range ANALOGIN_CHANNELS).foldl (analoginOscAutosenderStep sample ch) (st, [])

/-- Function `analoginAutosendHandler`: the new state and the messages created.
The complement `~(1 << idx)` is taken on a 32-bit int and the result is
stored back into the 16-bit global. -/
def analoginAutosendHandler (ch : Nat) (address : List Nat) (idx : Nat) (d : Nat → OscData)
    (datalen : Nat) (st : State) : State × List Created :=
  if datalen = 0 then
    let reply : OscData :=
      ⟨OscType.INT, if st.analoginAutosendChannels &&& (1 <<< idx) ≠ 0 then 1 else 0⟩
    (st, [⟨ch, address, [reply]⟩])
  else if datalen = 1 then
    let channels :=
      if (d 0).i ≠ 0 then (st.analoginAutosendChannels ||| (1 <<< idx)) % 65536
      else (st.analoginAutosendChannels &&& (4294967295 - (1 <<< idx))) % 65536
    (eepromWrite { st with analoginAutosendChannels := channels } channels, [])
  else (st, [])

/-- Function `analoginOscHandler`: the messages created; the value
`analoginValue(idx)` returns is `sample idx`. The function writes no global. -/
def analoginOscHandler (sample : Nat → Int) (ch : Nat) (address : List Nat) (idx : Nat)
    (_d : Nat → OscData) (datalen : Nat) : List Created :=
  if datalen = 0 then
    let d : OscData := ⟨OscType.INT, sample idx⟩
    [⟨ch, address, [d]⟩]
  else []

/-- One toggle request: the handler called with the single int argument `v`
for channel `idx`. -/
def toggle (st : State) (req : Nat × Int) : State :=
  (analoginAutosendHandler 0 [] req.1 (fun _ => ⟨OscType.INT, req.2⟩) 1 st).1

/-- The subscription bit of channel `i`, as the code tests it. -/
def subscribed (st : State) (i : Nat) : Bool :=
  st.analoginAutosendChannels &&& (1 <<< i) != 0

/-- The high byte of the mask, as the code extracts it. -/
def highByte (channels : Nat) : Nat := (channels >>> 8) &&& 0xFF

end Analogin

/-! ## The board LED (`firmware/trunk/core/makingthings/led.c`) -/

namespace Led

/-- Modelled from the spec: the pin `LED_IO` as one stored bit; `pinSetValue`
and `pinValue` (declared in `pin.h`, which is not among the sources) write and
read that bit. -/
structure Pin where
  level : Bool
deriving DecidableEq, Repr

/-- Modelled from the spec: `pinSetValue(LED_IO, value)` stores the bit. -/
def pinSetValue (_pin : Pin) (value : Bool) : Pin := ⟨value⟩

/-- Modelled from the spec: `pinValue(LED_IO)` reads the stored bit. -/
def pinValue (pin : Pin) : Bool := pin.level

/-- The constant `ON`. -/
def ON : Bool := true

/-- Function `ledSetValue`: the pin gets the inverted value. -/
def ledSetValue (pin : Pin) (setOn : Bool) : Pin := pinSetValue pin (!setOn)

/-- Function `ledValue`: the pin value, as it is. -/
def ledValue (pin : Pin) : Bool := pinValue pin

end Led

/-! ## The stepper motor timer callback
(`firmware/tags/firmware-v1.10.04/appboard/makingthings/stepper.c`) -/

namespace Stepper

/-- The fields of `StepperControl` that `Stepper_IRQCallback` and
`Stepper_SetDetails` read or write, and the list of coil output requests they
make (mode flags and position handed to the output routine). -/
structure StepperControl where
  bipolar : Bool
  halfStep : Bool
  speed : Int
  positionRequested : Int
  position : Int
  timerRunning : Bool
  outputs : List (Bool × Bool × Int)
deriving DecidableEq, Repr

/-- Function `Stepper_IRQCallback` on the control block of the stepper `id`. -/
def Stepper_IRQCallback (s : StepperControl) : StepperControl :=
  let s1 := if s.position < s.positionRequested then { s with position := s.position + 1 } else s
  let s2 :=
    if s1.position > s1.positionRequested then { s1 with position := s1.position - 1 } else s1
  let s3 := { s2 with outputs := s2.outputs ++ [(s2.bipolar, s2.halfStep, s2.position)] }
  if s3.position = s3.positionRequested then { s3 with timerRunning := false } else s3

/-- Function `Stepper_SetDetails`. -/
def Stepper_SetDetails (s : StepperControl) : StepperControl :=
  if !s.timerRunning && (s.position != s.positionRequested) && (s.speed != 0) then
    { s with timerRunning := true }
  else if s.timerRunning && ((s.position == s.positionRequested) || (s.speed == 0)) then
    { s with timerRunning := false }
  else s

/-- The callback run `n` times. -/
def callbacks : Nat → StepperControl → StepperControl
  | 0, s => s
  | n + 1, s => callbacks n (Stepper_IRQCallback s)

end Stepper

/-! ## Text commands of mchelper (`Osc::createMessage`) -/

namespace Osc

/-- Function `QString::split(" ")`: the parts between the spaces, empty parts
kept. -/
def splitSpace : QString → List QString
  | [] => [[]]
  | c :: cs =>
    if c = 32 then [] :: splitSpace cs
    else
      match splitSpace cs with
      | [] => [[c]]
      | t :: ts => (c :: t) :: ts

/-- Function `QString::endsWith` for one character. -/
def endsWithChar (s : QString) (c : Nat) : Bool := s.getLast? == some c

/-- The inner `while` of the quoted string case of `Osc::createMessage`: parts
are joined with a space until one ends with a quote or the list is used up. -/
def joinQuoted : QString → List QString → QString × List QString
  | elmnt, [] => (elmnt, [])
  | elmnt, t :: ts =>
    if endsWithChar (elmnt ++ 32 :: t) 34 then (elmnt ++ 32 :: t, ts)
    else joinQuoted (elmnt ++ 32 :: t) ts

/-- The outer `while` of `Osc::createMessage` with a bound on the number of
iterations; `toFloat` and `toInt` are the conversions of `QString` with their
`ok` result (`none` when `ok` is false). -/
def createMessageLoop (toFloat : QString → Option Nat) (toInt : QString → Option Int) :
    Nat → List QString → List OscData → List OscData
  | 0, _, data => data
  | _ + 1, [], data => data
  | fuel + 1, elmnt :: rest, data =>
    if Qt.startsWith elmnt [34] then
      let r := if !endsWithChar elmnt 34 then joinQuoted elmnt rest else (elmnt, rest)
      createMessageLoop toFloat toInt fuel r.2
        (data ++ [OscData.String (r.1.filter (fun c => c != 34))])
    else if Qt.startsWith elmnt [45] then
      if elmnt.contains 46 then
        match toFloat elmnt with
        | some f => createMessageLoop toFloat toInt fuel rest (data ++ [OscData.Float f])
        | none => createMessageLoop toFloat toInt fuel rest data
      else
        match toInt elmnt with
        | some i => createMessageLoop toFloat toInt fuel rest (data ++ [OscData.Int i])
        | none => createMessageLoop toFloat toInt fuel rest data
    else
      let fl := if elmnt.count 46 = 1 then toFloat elmnt else none
      match fl with
      | some f => createMessageLoop toFloat toInt fuel rest (data ++ [OscData.Float f])
      | none =>
        match toInt elmnt with
        | some i => createMessageLoop toFloat toInt fuel rest (data ++ [OscData.Int i])
        | none => createMessageLoop toFloat toInt fuel rest (data ++ [OscData.String elmnt])

/-- Function `Osc::createMessage`: `none` for the return value false, else the
message filled in. Each iteration takes at least one part, so as many
iterations as there are parts suffice. -/
def createMessage (toFloat : QString → Option Nat) (toInt : QString → Option Int)
    (msg : QString) : Option OscMessage :=
  if !Qt.startsWith msg [47] then none
  else
    match splitSpace msg with
    | [] => none
    | address :: msgElements =>
      some ⟨address, createMessageLoop toFloat toInt msgElements.length msgElements []⟩

/-- Function `Osc::createPacket(const QString&)`. -/
def createPacketText (toFloat : QString → Option Nat) (toInt : QString → Option Int)
    (msg : QString) : QByteArray :=
  match createMessage toFloat toInt msg with
  | some oscMsg => oscMsg.toByteArray
  | none => []

/-- The value of a string of decimal digits, `none` when a character is not a
digit or the string is empty. -/
def digitsValue : QString → Option Nat
  | [] => none
  | cs => cs.foldl (fun acc c =>
      match acc with
      | some v => if 48 ≤ c ∧ c ≤ 57 then some (v * 10 + (c - 48)) else none
      | none => none) (some 0)

/-- Modelled from the spec: `QString::toInt` (Qt, not among the sources) on
plain decimal text: an optional sign, decimal digits, a value in the 32-bit
range; everything else gives `ok == false`. -/
def toIntDecimal (s : QString) : Option Int :=
  match s with
  | 45 :: ds =>
    match digitsValue ds with
    | some v => if v ≤ 2147483648 then some (-(v : Int)) else none
    | none => none
  | 43 :: ds =>
    match digitsValue ds with
    | some v => if v < 2147483648 then some (v : Int) else none
    | none => none
  | ds =>
    match digitsValue ds with
    | some v => if v < 2147483648 then some (v : Int) else none
    | none => none

end Osc

/-- A packet wrapped `n` times in a bundle that holds it as its only element. -/
def Osc.nestBundle : Nat → QByteArray → QByteArray
  | 0, b => b
  | n + 1, b =>
    Osc.writePaddedString Osc.bundleTag ++ Osc.writeTimetag 0 0
      ++ (Qt.be32 (nestBundle n b).length ++ nestBundle n b)

/-! ## The JSON encoder of the firmware (`firmware/trunk/libraries/json/json.c`)

Every encoder function gets the state, the buffer position and the count of
bytes left, and returns the next buffer position or NULL. A call is modelled
by what it leaves behind: the state, the count, the bytes it put into the
buffer up to the position it returns, the returned advance (`none` for NULL)
and whether every access `state->steps[state->depth]` was inside the array.
When an access falls outside the array the call is flagged; a read outside
ends the modelled call, since the value read is not defined. -/

namespace Json

/-- The constant `JSON_MAX_DEPTH`. -/
def JSON_MAX_DEPTH : Int := 32

/-- The enum `JsonEncode_Step`. -/
inductive JsonEncode_Step where
  | JSON_START
  | JSON_OBJ_START
  | JSON_OBJ_KEY
  | JSON_OBJ_VALUE
  | JSON_ARRAY_START
  | JSON_IN_ARRAY
deriving DecidableEq, Repr

/-- The struct `JsonEncode_State`: the array `steps` has `JSON_MAX_DEPTH`
entries, at the indices 0 to 31. -/
structure JsonEncode_State where
  steps : Nat → JsonEncode_Step
  depth : Int

/-- What one encoder call leaves behind. -/
structure Encoded where
  state : JsonEncode_State
  remaining : Int
  written : List Nat
  ret : Option Nat
  inBounds : Bool

/-- Whether `state->depth` is an index of `state->steps`. -/
def inArray (depth : Int) : Bool := decide (0 ≤ depth) && decide (depth < JSON_MAX_DEPTH)

/-- Function `JsonEncode_Init`. -/
def JsonEncode_Init (state : JsonEncode_State) : JsonEncode_State :=
  { steps := Function.update state.steps 0 JsonEncode_Step.JSON_START, depth := 0 }

/-- The assignment `state->steps[state->depth] = step` for a depth inside the
array. -/
def setStep (state : JsonEncode_State) (step : JsonEncode_Step) : JsonEncode_State :=
  { state with steps := Function.update state.steps state.depth.toNat step }

/-- Function `JsonEncode_AppendedAtom`: the new state and whether the access
was inside the array. -/
def JsonEncode_AppendedAtom (state : JsonEncode_State) : JsonEncode_State × Bool :=
  if inArray state.depth then
    match state.steps state.depth.toNat with
    | JsonEncode_Step.JSON_OBJ_START => (setStep state JsonEncode_Step.JSON_OBJ_VALUE, true)
    | JsonEncode_Step.JSON_OBJ_KEY => (setStep state JsonEncode_Step.JSON_OBJ_VALUE, true)
    | JsonEncode_Step.JSON_ARRAY_START => (setStep state JsonEncode_Step.JSON_IN_ARRAY, true)
    | JsonEncode_Step.JSON_OBJ_VALUE => (setStep state JsonEncode_Step.JSON_OBJ_KEY, true)
    | _ => (state, true)
  else (state, false)

/-- The separator an opening bracket, a string, an int or a bool gets in
front, by the step of the current level; `none` where the `switch` has no
case for the step. -/
def separator (forOpen : Bool) (forInt : Bool) : JsonEncode_Step → Option (List Nat)
  | JsonEncode_Step.JSON_ARRAY_START => some []
  | JsonEncode_Step.JSON_OBJ_START => if forInt then none else some []
  | JsonEncode_Step.JSON_START => if forOpen then some [] else none
  | JsonEncode_Step.JSON_OBJ_KEY => if forInt then none else some [44]
  | JsonEncode_Step.JSON_IN_ARRAY => some [44]
  | JsonEncode_Step.JSON_OBJ_VALUE => some [58]

/-- The common body of `JsonEncode_ObjectOpen` and `JsonEncode_ArrayOpen`:
`bracket` is the character written, `start` the step given to the new level. -/
def encodeOpen (bracket : Nat) (start : JsonEncode_Step) (state : JsonEncode_State)
    (remaining : Int) : Encoded :=
  if inArray state.depth then
    match separator true false (state.steps state.depth.toNat) with
    | none => ⟨state, remaining, [], none, true⟩
    | some sep =>
      let len : Int := 1 + sep.length
      if remaining < len then ⟨state, remaining, [], none, true⟩
      else if state.depth + 1 > JSON_MAX_DEPTH then
        ⟨{ state with depth := state.depth + 1 }, remaining, sep ++ [bracket], none, true⟩
      else if inArray (state.depth + 1) then
        ⟨setStep { state with depth := state.depth + 1 } start,
          remaining - len, sep ++ [bracket], some len.toNat, true⟩
      else
        ⟨{ state with depth := state.depth + 1 }, remaining - len, sep ++ [bracket],
          some len.toNat, false⟩
  else ⟨state, remaining, [], none, false⟩

/-- Function `JsonEncode_ObjectOpen`. -/
def JsonEncode_ObjectOpen (state : JsonEncode_State) (remaining : Int) : Encoded :=
  encodeOpen 123 JsonEncode_Step.JSON_OBJ_START state remaining

/-- Function `JsonEncode_ArrayOpen`. -/
def JsonEncode_ArrayOpen (state : JsonEncode_State) (remaining : Int) : Encoded :=
  encodeOpen 91 JsonEncode_Step.JSON_ARRAY_START state remaining

/-- The common body of `JsonEncode_ObjectClose` and `JsonEncode_ArrayClose`. -/
def encodeClose (bracket : Nat) (state : JsonEncode_State) (remaining : Int) : Encoded :=
  if remaining < 1 then ⟨state, remaining, [], none, true⟩
  else
    let r := JsonEncode_AppendedAtom { state with depth := state.depth - 1 }
    ⟨r.1, remaining - 1, [bracket], some 1, r.2⟩

/-- Function `JsonEncode_ObjectClose`. -/
def JsonEncode_ObjectClose (state : JsonEncode_State) (remaining : Int) : Encoded :=
  encodeClose 125 state remaining

/-- Function `JsonEncode_ArrayClose`. -/
def JsonEncode_ArrayClose (state : JsonEncode_State) (remaining : Int) : Encoded :=
  encodeClose 93 state remaining

/-- Function `JsonEncode_String`; `string` is the C string without its
terminator. -/
def JsonEncode_String (state : JsonEncode_State) (string : List Nat) (remaining : Int) :
    Encoded :=
  if inArray state.depth then
    match separator false false (state.steps state.depth.toNat) with
    | none => ⟨state, remaining, [], none, true⟩
    | some sep =>
      let string_len : Int := string.length + 2 + sep.length
      if remaining < string_len then ⟨state, remaining, [], none, true⟩
      else
        let temp := (sep ++ [34] ++ string ++ [34]).take string_len.toNat
        let r := JsonEncode_AppendedAtom state
        ⟨r.1, remaining - string_len, temp, some string_len.toNat, r.2⟩
  else ⟨state, remaining, [], none, false⟩

/-- Function `JsonEncode_ObjectKey`. -/
def JsonEncode_ObjectKey (state : JsonEncode_State) (key : List Nat) (remaining : Int) :
    Encoded :=
  JsonEncode_String state key remaining

/-- The decimal digits of a natural number, most significant first; `fuel`
bounds the number of digits. -/
def natDigits : Nat → Nat → List Nat → List Nat
  | 0, _, acc => acc
  | fuel + 1, n, acc =>
    if n / 10 = 0 then (48 + n % 10) :: acc
    else natDigits fuel (n / 10) ((48 + n % 10) :: acc)

/-- The text `%d` gives a 32-bit int. -/
def decimalInt (value : Int) : List Nat :=
  if value < 0 then 45 :: natDigits 10 (-value).toNat [] else natDigits 10 value.toNat []

/-- Function `JsonEncode_Int`: `snprintf` cuts the text to the size of `temp`,
which is `int_len` characters, where `int_len` starts as 4 and grows by one
for the separator. The bytes counted are the length of what is in `temp`. -/
def JsonEncode_Int (state : JsonEncode_State) (value : Int) (remaining : Int) : Encoded :=
  if inArray state.depth then
    match separator false true (state.steps state.depth.toNat) with
    | none => ⟨state, remaining, [], none, true⟩
    | some sep =>
      let int_len : Int := 4 + sep.length
      if remaining < int_len then ⟨state, remaining, [], none, true⟩
      else
        let temp := (sep ++ decimalInt value).take int_len.toNat
        let r := JsonEncode_AppendedAtom state
        ⟨r.1, remaining - temp.length, temp, some temp.length, r.2⟩
  else ⟨state, remaining, [], none, false⟩

/-- Function `JsonEncode_Bool`. -/
def JsonEncode_Bool (state : JsonEncode_State) (value : Bool) (remaining : Int) : Encoded :=
  let boolval : List Nat := if value then [116, 114, 117, 101] else [102, 97, 108, 115, 101]
  if inArray state.depth then
    match separator false true (state.steps state.depth.toNat) with
    | none => ⟨state, remaining, [], none, true⟩
    | some sep =>
      let bool_len : Int := boolval.length + sep.length
      if remaining < bool_len then ⟨state, remaining, [], none, true⟩
      else
        let r := JsonEncode_AppendedAtom state
        ⟨r.1, remaining - bool_len, sep ++ boolval, some bool_len.toNat, r.2⟩
  else ⟨state, remaining, [], none, false⟩

/-- One call of the encoder API. -/
inductive Call where
  | ObjectOpen
  | ObjectKey (key : List Nat)
  | ObjectClose
  | ArrayOpen
  | ArrayClose
  | String (string : List Nat)
  | IntValue (value : Int)
  | BoolValue (value : Bool)
deriving DecidableEq, Repr

/-- An encode in progress, as in the documented use `p = JsonEncode_...(&s, p,
&remaining)`: the state, the buffer contents up to `p`, the count, whether a
call has returned NULL, and whether all accesses to `steps` were inside the
array. -/
structure Session where
  state : JsonEncode_State
  buf : List Nat
  remaining : Int
  gotNull : Bool
  inBounds : Bool

/-- The encoder function a call stands for. -/
def Call.apply (state : JsonEncode_State) (remaining : Int) : Call → Encoded
  | Call.ObjectOpen => JsonEncode_ObjectOpen state remaining
  | Call.ObjectKey key => JsonEncode_ObjectKey state key remaining
  | Call.ObjectClose => JsonEncode_ObjectClose state remaining
  | Call.ArrayOpen => JsonEncode_ArrayOpen state remaining
  | Call.ArrayClose => JsonEncode_ArrayClose state remaining
  | Call.String string => JsonEncode_String state string remaining
  | Call.IntValue value => JsonEncode_Int state value remaining
  | Call.BoolValue value => JsonEncode_Bool state value remaining

/-- One more call in a session; after a NULL the caller has no buffer
position left and the session stays as it is. -/
def Session.call (s : Session) (c : Call) : Session :=
  if s.gotNull then s
  else
    let r := c.apply s.state s.remaining
    match r.ret with
    | some _ => ⟨r.state, s.buf ++ r.written, r.remaining, false, s.inBounds && r.inBounds⟩
    | none => ⟨r.state, s.buf, r.remaining, true, s.inBounds && r.inBounds⟩

/-- A session right after `JsonEncode_Init`, with `remaining` bytes of room. -/
def Session.start (state : JsonEncode_State) (remaining : Int) : Session :=
  ⟨JsonEncode_Init state, [], remaining, false, true⟩

/-- A sequence of calls after `JsonEncode_Init`. -/
def encode (state : JsonEncode_State) (remaining : Int) (calls : List Call) : Session :=
  calls.foldl Session.call (Session.start state remaining)

end Json

namespace Json

/-- One object member as the text describes it: the key and the value between
quotes, a colon between them. -/
def renderPair (kv : List Nat × List Nat) : List Nat :=
  [34] ++ kv.1 ++ [34] ++ [58] ++ [34] ++ kv.2 ++ [34]

/-- The members joined by commas. -/
def renderPairs : List (List Nat × List Nat) → List Nat
  | [] => []
  | [kv] => renderPair kv
  | kv :: rest => renderPair kv ++ [44] ++ renderPairs rest

/-- The state between two members of the object opened first: depth 1, the
step of level 1, and level 0 still at its start. -/
def atMember (state : JsonEncode_State) (step : JsonEncode_Step) : Prop :=
  state.depth = 1 ∧ state.steps 1 = step ∧ state.steps 0 = JsonEncode_Step.JSON_START

/-- The calls that add the members: the key, then the value, through
`JsonEncode_String`. -/
def pairCalls : List (List Nat × List Nat) → List Call
  | [] => []
  | kv :: rest => Call.String kv.1 :: Call.String kv.2 :: pairCalls rest

end Json

/-! ## The JSON decoder of the firmware (`JsonDecode`)

The text is the list of its characters before the terminating NUL; reading
at its end yields the terminator. The callbacks are recorded as the list of
the calls made, in order. -/

namespace Json

/-- The enum `JsonDecode_Step`. -/
inductive JsonDecode_Step where
  | JSON_DECODE_OBJECT_START
  | JSON_DECODE_IN_OBJECT
  | JSON_DECODE_IN_ARRAY
deriving DecidableEq, Repr

/-- The enum `JsonDecode_Token`. -/
inductive JsonDecode_Token where
  | token_true
  | token_false
  | token_colon
  | token_comma
  | token_eof
  | token_error
  | token_left_brace
  | token_left_bracket
  | token_null
  | token_right_brace
  | token_right_bracket
  | token_number
  | token_maybe_negative
  | token_string
  | token_unknown
deriving DecidableEq, Repr

/-- One call of a callback, with its arguments: a string comes with its text
and its length, a float with the text handed to `atof`. -/
inductive Event where
  | null
  | bool (value : Bool)
  | int (value : Int)
  | float (text : List Nat)
  | string (text : List Nat) (len : Nat)
  | startObj
  | objKey (text : List Nat) (len : Nat)
  | endObj
  | startArray
  | endArray
deriving DecidableEq, Repr

/-- The callbacks registered in a `JsonDecode_State`: `none` for a null
function pointer, else the value the callback returns for its arguments. -/
structure Callbacks where
  null_callback : Option Bool
  bool_callback : Option (Bool → Bool)
  int_callback : Option (Int → Bool)
  float_callback : Option (List Nat → Bool)
  string_callback : Option (List Nat → Nat → Bool)
  start_obj_callback : Option Bool
  obj_key_callback : Option (List Nat → Nat → Bool)
  end_obj_callback : Option Bool
  start_array_callback : Option Bool
  end_array_callback : Option Bool

/-- What the callback for an event returns; `none` when it is not registered. -/
def Callbacks.invoke (cbs : Callbacks) : Event → Option Bool
  | Event.null => cbs.null_callback
  | Event.bool value => cbs.bool_callback.map (fun f => f value)
  | Event.int value => cbs.int_callback.map (fun f => f value)
  | Event.float text => cbs.float_callback.map (fun f => f text)
  | Event.string text len => cbs.string_callback.map (fun f => f text len)
  | Event.startObj => cbs.start_obj_callback
  | Event.objKey text len => cbs.obj_key_callback.map (fun f => f text len)
  | Event.endObj => cbs.end_obj_callback
  | Event.startArray => cbs.start_array_callback
  | Event.endArray => cbs.end_array_callback

/-- The struct `JsonDecode_State` without the callbacks: `p` is the text from
the current position on, `none` for the null pointer. -/
structure JsonDecode_State where
  steps : Nat → JsonDecode_Step
  depth : Int
  gotcomma : Bool
  p : Option (List Nat)
  len : Int

/-- Function `JsonDecode_Init`: `steps` is left as it is. -/
def JsonDecode_Init (state : JsonDecode_State) : JsonDecode_State :=
  { state with depth := 0, gotcomma := false, p := none, len := 0 }

/-- What `JsonDecode` leaves behind: its return value, the callbacks called,
the state, and whether all accesses were inside `steps` and inside the text. -/
structure DecodeResult where
  ok : Bool
  events : List Event
  state : JsonDecode_State
  inBounds : Bool

/-- Function `JsonDecode_GetToken`. -/
def JsonDecode_GetToken (text : List Nat) (len : Int) : JsonDecode_Token :=
  match text with
  | [] => JsonDecode_Token.token_eof
  | c :: _ =>
    if c = 58 then JsonDecode_Token.token_colon
    else if c = 44 then JsonDecode_Token.token_comma
    else if c = 123 then JsonDecode_Token.token_left_bracket
    else if c = 125 then JsonDecode_Token.token_right_bracket
    else if c = 91 then JsonDecode_Token.token_left_brace
    else if c = 93 then JsonDecode_Token.token_right_brace
    else if c = 34 then JsonDecode_Token.token_string
    else if 48 ≤ c ∧ c ≤ 57 then JsonDecode_Token.token_number
    else if c = 45 then JsonDecode_Token.token_maybe_negative
    else if c = 116 then
      if len < 4 then JsonDecode_Token.token_unknown
      else if text.take 4 = [116, 114, 117, 101] then JsonDecode_Token.token_true
      else JsonDecode_Token.token_unknown
    else if c = 102 then
      if len < 5 then JsonDecode_Token.token_unknown
      else if text.take 5 = [102, 97, 108, 115, 101] then JsonDecode_Token.token_false
      else JsonDecode_Token.token_unknown
    else if c = 110 then
      if len < 4 then JsonDecode_Token.token_unknown
      else if text.take 4 = [110, 117, 108, 108] then JsonDecode_Token.token_null
      else JsonDecode_Token.token_unknown
    else if c = 0 then JsonDecode_Token.token_eof
    else JsonDecode_Token.token_unknown

/-- The `do` loop of the number case: the count of characters passed and
whether a decimal point was met; `none` for the `return false` at a second
decimal point. -/
def scanNumber : List Nat → Bool → Option (Nat × Bool)
  | [], gotdecimal => some (0, gotdecimal)
  | c :: cs, gotdecimal =>
    if c = 46 then
      if gotdecimal then none
      else (scanNumber cs true).map (fun r => (r.1 + 1, r.2))
    else if ¬ (48 ≤ c ∧ c ≤ 57) then some (0, gotdecimal)
    else (scanNumber cs gotdecimal).map (fun r => (r.1 + 1, r.2))

/-- Function `atoi` on text that starts with a digit: the value of the run of
digits, as a 32-bit int. -/
def atoi (text : List Nat) : Int :=
  let v : Nat := (text.takeWhile (fun c => decide (48 ≤ c ∧ c ≤ 57))).foldl
    (fun acc c => acc * 10 + (c - 48)) 0
  let w := v % 4294967296
  if w < 2147483648 then (w : Int) else (w : Int) - 4294967296

/-- The `while` loop of the string case: the characters before the next
quote and the text after that quote; `none` when no quote comes before the
end of the text. -/
def scanString : List Nat → Option (List Nat × List Nat)
  | [] => none
  | c :: cs =>
    if c = 34 then some ([], cs)
    else (scanString cs).map (fun r => (c :: r.1, r.2))

/-- Whether `depth` is an index of the decoder array `steps`. -/
def inSteps (depth : Int) : Bool := decide (0 ≤ depth) && decide (depth < JSON_MAX_DEPTH)

/-- The outcome of one iteration of the `while` loop of `JsonDecode`. -/
inductive Iteration where
  | stop (result : DecodeResult)
  | next (state : JsonDecode_State) (events : List Event)

/-- The callback part of a case: the event is recorded when its callback is
registered, and the function returns false when the callback does; else the
case goes on with the state `after`. -/
def fire (cbs : Callbacks) (e : Event) (now after : JsonDecode_State) (events : List Event) :
    Iteration :=
  match cbs.invoke e with
  | some false => Iteration.stop ⟨false, events ++ [e], now, true⟩
  | some true => Iteration.next after (events ++ [e])
  | none => Iteration.next after events

/-- One iteration of the `while(state->len)` loop of `JsonDecode`. The spaces
eaten at its start move `p` only. In the string case the closing quote is
overwritten with a NUL, which makes the characters before it the string the
callback gets; `p` is moved past it, so the text ahead is as it was. -/
def decodeStep (cbs : Callbacks) (state : JsonDecode_State) (events : List Event) :
    Iteration :=
  let text := (state.p.getD []).dropWhile (fun c => c == 32)
  let st : JsonDecode_State := { state with p := some text }
  match JsonDecode_GetToken text state.len with
  | JsonDecode_Token.token_true =>
    fire cbs (Event.bool true) st
      { st with p := some (text.drop 4), len := state.len - 4 } events
  | JsonDecode_Token.token_false =>
    fire cbs (Event.bool false) st
      { st with p := some (text.drop 5), len := state.len - 5 } events
  | JsonDecode_Token.token_null =>
    fire cbs Event.null st { st with p := some (text.drop 4), len := state.len - 4 } events
  | JsonDecode_Token.token_comma =>
    Iteration.next
      { st with gotcomma := true, p := some (text.drop 1), len := state.len - 1 } events
  | JsonDecode_Token.token_colon =>
    Iteration.next { st with p := some (text.drop 1), len := state.len - 1 } events
  | JsonDecode_Token.token_left_bracket =>
    if inSteps (state.depth + 1) then
      let st1 : JsonDecode_State :=
        { st with steps := Function.update state.steps (state.depth + 1).toNat
                    JsonDecode_Step.JSON_DECODE_OBJECT_START,
                  depth := state.depth + 1 }
      fire cbs Event.startObj st1
        { st1 with p := some (text.drop 1), len := state.len - 1 } events
    else Iteration.stop ⟨false, events, { st with depth := state.depth + 1 }, false⟩
  | JsonDecode_Token.token_right_bracket =>
    let st1 : JsonDecode_State := { st with depth := state.depth - 1 }
    fire cbs Event.endObj st1 { st1 with p := some (text.drop 1), len := state.len - 1 } events
  | JsonDecode_Token.token_left_brace =>
    if inSteps (state.depth + 1) then
      let st1 : JsonDecode_State :=
        { st with steps := Function.update state.steps (state.depth + 1).toNat
                    JsonDecode_Step.JSON_DECODE_IN_ARRAY,
                  depth := state.depth + 1 }
      fire cbs Event.startArray st1
        { st1 with p := some (text.drop 1), len := state.len - 1 } events
    else Iteration.stop ⟨false, events, { st with depth := state.depth + 1 }, false⟩
  | JsonDecode_Token.token_right_brace =>
    let st1 : JsonDecode_State := { st with depth := state.depth - 1 }
    fire cbs Event.endArray st1
      { st1 with p := some (text.drop 1), len := state.len - 1 } events
  | JsonDecode_Token.token_number =>
    match scanNumber text false with
    | none => Iteration.stop ⟨false, events, st, true⟩
    | some (size, gotdecimal) =>
      fire cbs (if gotdecimal then Event.float (text.take size) else Event.int (atoi text)) st
        { st with p := some (text.drop size), len := state.len - size } events
  | JsonDecode_Token.token_string =>
    match scanString (text.drop 1) with
    | none => Iteration.stop ⟨false, events, st, false⟩
    | some (str, rest) =>
      if inSteps state.depth then
        let atStart : Bool :=
          state.steps state.depth.toNat == JsonDecode_Step.JSON_DECODE_OBJECT_START
        let steps1 :=
          if atStart then
            Function.update state.steps state.depth.toNat JsonDecode_Step.JSON_DECODE_IN_OBJECT
          else state.steps
        let afterComma : Bool :=
          state.gotcomma && (steps1 state.depth.toNat == JsonDecode_Step.JSON_DECODE_IN_OBJECT)
        let objkey : Bool := atStart || afterComma
        let st1 : JsonDecode_State :=
          { st with steps := steps1,
                    gotcomma := if afterComma then false else state.gotcomma,
                    p := some (text.drop 1), len := state.len - 1 }
        fire cbs (if objkey then Event.objKey str str.length else Event.string str str.length)
          st1 { st1 with p := some rest, len := state.len - 1 - (str.length + 1) } events
      else Iteration.stop ⟨false, events, st, false⟩
  | _ => Iteration.stop ⟨false, events, st, true⟩

/-- The `while(state->len)` loop of `JsonDecode`, with a bound on the number
of iterations; `none` when the bound is used up. -/
def decodeLoop (cbs : Callbacks) : Nat → JsonDecode_State → List Event → Option DecodeResult
  | 0, _, _ => none
  | fuel + 1, state, events =>
    if state.len = 0 then some ⟨true, events, state, true⟩
    else
      match decodeStep cbs state events with
      | Iteration.stop result => some result
      | Iteration.next state1 events1 => decodeLoop cbs fuel state1 events1

/-- Function `JsonDecode`. An iteration that goes on has passed at least one
character, so one more iteration than the text has characters is enough. -/
def JsonDecode (cbs : Callbacks) (state : JsonDecode_State) (text : List Nat) (len : Int) :
    Option DecodeResult :=
  let p := match state.p with
    | none => text
    | some q => q
  let st : JsonDecode_State :=
    { state with p := some p, len := if state.len = 0 then len else state.len }
  decodeLoop cbs (p.length + 1) st []

/-- Callbacks that are all registered and all return true. -/
def Callbacks.allTrue : Callbacks :=
  ⟨some true, some (fun _ => true), some (fun _ => true), some (fun _ => true),
   some (fun _ _ => true), some true, some (fun _ _ => true), some true, some true, some true⟩

end Json

namespace Json

/-- The loop started on `state` with `events` does what it does started on
`state1` with `events1`, whatever the bound, as long as the bound exceeds the
characters left. -/
def Reaches (cbs : Callbacks) (state : JsonDecode_State) (events : List Event)
    (state1 : JsonDecode_State) (events1 : List Event) : Prop :=
  ∀ fuel, (state.p.getD []).length < fuel →
    ∃ fuel1, (state1.p.getD []).length < fuel1 ∧
      decodeLoop cbs fuel state events = decodeLoop cbs fuel1 state1 events1

/-- The calls of a list that reach a registered callback. -/
def emitted (cbs : Callbacks) (events : List Event) : List Event :=
  events.filter (fun e => (cbs.invoke e).isSome)

/-- Text at which the scan of a number stops: its end, or a character that is
neither a digit nor a decimal point. -/
def stopsNumber (rest : List Nat) : Prop :=
  ∀ c, rest.head? = some c → ¬ (48 ≤ c ∧ c ≤ 57) ∧ c ≠ 46

mutual
/-- The JSON values of the decoder contract, as the specification names them:
strings, non-negative integers, true, false, arrays and objects. -/
inductive JVal where
  | str (s : List Nat)
  | num (n : Nat)
  | tru
  | fls
  | arr (xs : JElems)
  | obj (ms : JMembers)
/-- The elements of an array, in order. -/
inductive JElems where
  | nil
  | cons (v : JVal) (rest : JElems)
/-- The members of an object, in order: a name and a value each. -/
inductive JMembers where
  | nil
  | cons (key : List Nat) (v : JVal) (rest : JMembers)
end

mutual
/-- The JSON text of a value, without spaces and without escapes; a number
is written in decimal. -/
def JVal.render : JVal → List Nat
  | JVal.str s => 34 :: (s ++ [34])
  | JVal.num n => natDigits (n + 1) n []
  | JVal.tru => [116, 114, 117, 101]
  | JVal.fls => [102, 97, 108, 115, 101]
  | JVal.arr xs => 91 :: (xs.render ++ [93])
  | JVal.obj ms => 123 :: (ms.render ++ [125])
/-- The text of the elements of an array, commas between them. -/
def JElems.render : JElems → List Nat
  | JElems.nil => []
  | JElems.cons v rest => v.render ++ rest.renderTail
/-- The text of further elements of an array, a comma before each. -/
def JElems.renderTail : JElems → List Nat
  | JElems.nil => []
  | JElems.cons v rest => 44 :: (v.render ++ rest.renderTail)
/-- The text of the members of an object, commas between them. -/
def JMembers.render : JMembers → List Nat
  | JMembers.nil => []
  | JMembers.cons key v rest => 34 :: (key ++ 34 :: 58 :: (v.render ++ rest.renderTail))
/-- The text of further members of an object, a comma before each. -/
def JMembers.renderTail : JMembers → List Nat
  | JMembers.nil => []
  | JMembers.cons key v rest =>
    44 :: 34 :: (key ++ 34 :: 58 :: (v.render ++ rest.renderTail))
end

mutual
/-- The callbacks of a value in document order: a string in value or element
position goes to the string callback, a member name to the key callback,
each with its text and length. -/
def JVal.expected : JVal → List Event
  | JVal.str s => [Event.string s s.length]
  | JVal.num n => [Event.int n]
  | JVal.tru => [Event.bool true]
  | JVal.fls => [Event.bool false]
  | JVal.arr xs => Event.startArray :: (xs.expected ++ [Event.endArray])
  | JVal.obj ms => Event.startObj :: (ms.expected ++ [Event.endObj])
/-- The callbacks of the elements of an array. -/
def JElems.expected : JElems → List Event
  | JElems.nil => []
  | JElems.cons v rest => v.expected ++ rest.expected
/-- The callbacks of the members of an object. -/
def JMembers.expected : JMembers → List Event
  | JMembers.nil => []
  | JMembers.cons key v rest => Event.objKey key key.length :: (v.expected ++ rest.expected)
end

mutual
/-- How deep the arrays and objects of a value are nested. -/
def JVal.depth : JVal → Nat
  | JVal.str _ => 0
  | JVal.num _ => 0
  | JVal.tru => 0
  | JVal.fls => 0
  | JVal.arr xs => xs.depth + 1
  | JVal.obj ms => ms.depth + 1
/-- The deepest nesting among the elements of an array. -/
def JElems.depth : JElems → Nat
  | JElems.nil => 0
  | JElems.cons v rest => max v.depth rest.depth
/-- The deepest nesting among the member values of an object. -/
def JMembers.depth : JMembers → Nat
  | JMembers.nil => 0
  | JMembers.cons _ v rest => max v.depth rest.depth
end

/-- A string the text can hold as it is: no quote and no NUL in it. -/
def plainString (s : List Nat) : Bool := s.all (fun c => c != 34 && c != 0)

mutual
/-- The values of the contract: strings and member names are plain and every
number fits a 32-bit int. -/
def JVal.wellFormed : JVal → Bool
  | JVal.str s => plainString s
  | JVal.num n => decide (n < 2147483648)
  | JVal.tru => true
  | JVal.fls => true
  | JVal.arr xs => xs.wellFormed
  | JVal.obj ms => ms.wellFormed
/-- All elements are values of the contract. -/
def JElems.wellFormed : JElems → Bool
  | JElems.nil => true
  | JElems.cons v rest => v.wellFormed && rest.wellFormed
/-- All names are plain and all member values are values of the contract. -/
def JMembers.wellFormed : JMembers → Bool
  | JMembers.nil => true
  | JMembers.cons key v rest => plainString key && v.wellFormed && rest.wellFormed
end

end Json

/-! ## Lemmas on the Qt model -/

namespace Qt

theorem toAscii_length (s : QString) : (toAscii s).length = s.length := by
  simp [toAscii]

theorem toAscii_latin1 (s : QString) (h : ∀ c ∈ s, c < 256) : toAscii s = s := by
  induction s with
  | nil => rfl
  | cons c cs ih =>
    have hc : c < 256 := h c (List.mem_cons_self c cs)
    have hcs : ∀ x ∈ cs, x < 256 := fun x hx => h x (List.mem_cons_of_mem c hx)
    have ih2 := ih hcs
    simp only [toAscii] at ih2 ⊢
    simp [hc, ih2]

theorem be32_length (n : Nat) : (be32 n).length = 4 := rfl

theorem WStream.writeRawData_atEnd (s : WStream) (bytes : QByteArray)
    (h : s.pos = s.buf.length) :
    s.writeRawData bytes = ⟨s.buf ++ bytes, (s.buf ++ bytes).length⟩ := by
  simp [WStream.writeRawData, h]

theorem WStream.writeByteArray_atEnd (s : WStream) (ba : QByteArray)
    (h : s.pos = s.buf.length) :
    s.writeByteArray ba
      = ⟨s.buf ++ (be32 (ba.length % 4294967296) ++ ba),
         (s.buf ++ (be32 (ba.length % 4294967296) ++ ba)).length⟩ := by
  unfold WStream.writeByteArray
  rw [WStream.writeRawData_atEnd s _ h, WStream.writeRawData_atEnd _ _ rfl]
  simp

theorem fromBe32_be32 (n : Nat) (h : n < 4294967296) :
    fromBe32 (n / 16777216 % 256) (n / 65536 % 256) (n / 256 % 256) (n % 256) = n := by
  unfold fromBe32
  omega

end Qt

/-! ## Lemmas on the encoder -/

namespace Osc

theorem writePaddedString_eq (s : QString) :
    writePaddedString s = Qt.toAscii s ++ List.replicate (4 - s.length % 4) 0 := by
  unfold writePaddedString
  have hl : (Qt.toAscii s ++ [0]).length = s.length + 1 := by
    simp [Qt.toAscii_length]
  simp only [hl]
  have hcases : s.length % 4 = 0 ∨ s.length % 4 = 1 ∨ s.length % 4 = 2 ∨ s.length % 4 = 3 := by
    omega
  rcases hcases with h | h | h | h
  · have h1 : (s.length + 1) % 4 = 1 := by omega
    simp [h, h1, List.replicate]
  · have h1 : (s.length + 1) % 4 = 2 := by omega
    simp [h, h1, List.replicate]
  · have h1 : (s.length + 1) % 4 = 3 := by omega
    simp [h, h1, List.replicate]
  · have h1 : (s.length + 1) % 4 = 0 := by omega
    simp [h, h1, List.replicate]

theorem writePaddedString_length (s : QString) :
    (writePaddedString s).length = s.length + (4 - s.length % 4) := by
  rw [writePaddedString_eq]
  simp [Qt.toAscii_length]

theorem paddedLength_eq (s : QString) :
    paddedLength s = s.length + (4 - s.length % 4) := by
  unfold paddedLength
  simp only
  split <;> omega

theorem writePaddedString_length_mod (s : QString) :
    (writePaddedString s).length % 4 = 0 := by
  rw [writePaddedString_length]
  omega

end Osc

namespace OscMessage

theorem foldl_toByteArrayStep (data : List OscData) (tag : QString) (buf : QByteArray) :
    data.foldl toByteArrayStep (tag, ⟨buf, buf.length⟩)
      = (tag ++ data.map OscData.tagChar,
         ⟨buf ++ OscData.argsBytes data, (buf ++ OscData.argsBytes data).length⟩) := by
  induction data generalizing tag buf with
  | nil => simp [OscData.argsBytes]
  | cons d ds ih =>
    rw [List.foldl_cons]
    have hstep : toByteArrayStep (tag, ⟨buf, buf.length⟩) d
        = (tag ++ [d.tagChar], ⟨buf ++ d.argBytes, (buf ++ d.argBytes).length⟩) := by
      cases d with
      | Int i =>
        simp only [toByteArrayStep, Qt.WStream.writeInt32, OscData.tagChar, OscData.argBytes]
        rw [Qt.WStream.writeRawData_atEnd _ _ rfl]
      | Float f =>
        simp only [toByteArrayStep, Qt.WStream.writeFloat, OscData.tagChar, OscData.argBytes]
        rw [Qt.WStream.writeRawData_atEnd _ _ rfl]
      | String s =>
        simp only [toByteArrayStep, OscData.tagChar, OscData.argBytes]
        rw [Qt.WStream.writeRawData_atEnd _ _ rfl]
      | Blob b =>
        simp only [toByteArrayStep, OscData.tagChar, OscData.argBytes]
        rw [Qt.WStream.writeByteArray_atEnd _ _ rfl]
    rw [hstep, ih]
    simp [OscData.argsBytes]

theorem toByteArray_eq (m : OscMessage) :
    m.toByteArray = Osc.writePaddedString m.addressPattern
      ++ Osc.writePaddedString (44 :: m.data.map OscData.tagChar)
      ++ OscData.argsBytes m.data := by
  unfold toByteArray
  have h := foldl_toByteArrayStep m.data [44] []
  simp only [Qt.WStream.openOn]
  have h0 : (⟨[], 0⟩ : Qt.WStream) = ⟨[], ([] : QByteArray).length⟩ := rfl
  rw [h0, h]
  simp

end OscMessage


namespace Osc

theorem writeTimetag_zero : writeTimetag 0 0 = [0, 0, 0, 0, 0, 0, 0, 0] := by decide

theorem bundleHeader_length : (writePaddedString bundleTag ++ writeTimetag 0 0).length = 16 := by
  decide

theorem be32_mod (n : Nat) : Qt.be32 (n % 4294967296) = Qt.be32 n := by
  unfold Qt.be32
  have h1 : n % 4294967296 / 16777216 % 256 = n / 16777216 % 256 := by omega
  have h2 : n % 4294967296 / 65536 % 256 = n / 65536 % 256 := by omega
  have h3 : n % 4294967296 / 256 % 256 = n / 256 % 256 := by omega
  have h4 : n % 4294967296 % 256 = n % 256 := by omega
  rw [h1, h2, h3, h4]

theorem foldl_writeByteArray (msgs : List OscMessage) (buf : QByteArray) :
    (msgs.foldl (fun ds msg => Qt.WStream.writeByteArray ds msg.toByteArray)
        ⟨buf, buf.length⟩).buf
      = buf ++ bundleElements msgs := by
  induction msgs generalizing buf with
  | nil => simp [bundleElements]
  | cons m ms ih =>
    rw [List.foldl_cons, Qt.WStream.writeByteArray_atEnd _ _ rfl, ih, be32_mod]
    simp [bundleElements]

theorem createPacket_bundle (msgs : List OscMessage) (h : 2 ≤ msgs.length) :
    createPacket msgs
      = writePaddedString bundleTag ++ writeTimetag 0 0 ++ bundleElements msgs := by
  unfold createPacket
  have h0 : ¬ msgs.length = 0 := by omega
  have h1 : ¬ msgs.length = 1 := by omega
  simp only [h0, h1, if_false]
  have hs : (Qt.WStream.openOn (writePaddedString bundleTag ++ writeTimetag 0 0)).skipRawData
        (writePaddedString bundleTag ++ writeTimetag 0 0).length
      = ⟨writePaddedString bundleTag ++ writeTimetag 0 0,
          (writePaddedString bundleTag ++ writeTimetag 0 0).length⟩ := by
    simp [Qt.WStream.openOn, Qt.WStream.skipRawData]
  rw [hs, foldl_writeByteArray]

end Osc

theorem twoComplement32_eq (i : Int) (h : -2147483648 ≤ i ∧ i < 2147483648) :
    (i % 4294967296).toNat = twoComplement32 i := by
  unfold twoComplement32
  split <;> omega

theorem argsBytes_eq_layoutArgs (data : List OscData) (h : ∀ d ∈ data, d.isIntOrString) :
    OscData.argsBytes data = layoutArgs data := by
  induction data with
  | nil => rfl
  | cons d ds ih =>
    have hd := h d (List.mem_cons_self d ds)
    have hds : ∀ x ∈ ds, x.isIntOrString := fun x hx => h x (List.mem_cons_of_mem d hx)
    simp only [OscData.argsBytes, layoutArgs, ih hds]
    cases d with
    | Int i =>
      simp only [OscData.isIntOrString] at hd
      simp only [OscData.argBytes, layoutArgBytes, Qt.be32, twoComplement32_eq i hd]
    | Float f => simp [OscData.isIntOrString] at hd
    | String s => rfl
    | Blob b => simp [OscData.isIntOrString] at hd

theorem tagChar_eq_layoutTagChar (d : OscData) : d.tagChar = layoutTagChar d := by
  cases d <;> rfl

/-! ## Lemmas on the decoder -/

theorem Qt.fromAscii_append_nul (s rest : QByteArray) (h : ∀ c ∈ s, 0 < c) :
    Qt.fromAscii (s ++ 0 :: rest) = s := by
  induction s with
  | nil => simp [Qt.fromAscii]
  | cons c cs ih =>
    have hc : 0 < c := h c (List.mem_cons_self c cs)
    have hcs : ∀ x ∈ cs, 0 < x := fun x hx => h x (List.mem_cons_of_mem c hx)
    have hne : (c != 0) = true := by simp; omega
    have ih2 := ih hcs
    simp only [Qt.fromAscii] at ih2 ⊢
    simp [List.takeWhile, hne, ih2]

theorem Osc.writePaddedString_latin1 (s : QString) (h : ∀ c ∈ s, c < 256) :
    Osc.writePaddedString s = s ++ 0 :: List.replicate (3 - s.length % 4) 0 := by
  rw [Osc.writePaddedString_eq, Qt.toAscii_latin1 s h]
  have hk : 4 - s.length % 4 = (3 - s.length % 4) + 1 := by omega
  rw [hk, List.replicate_succ]

theorem Osc.drop_paddedLength (s : QString) (rest : QByteArray) :
    (Osc.writePaddedString s ++ rest).drop (Osc.paddedLength s) = rest := by
  have hl : Osc.paddedLength s = (Osc.writePaddedString s).length := by
    rw [Osc.writePaddedString_length, Osc.paddedLength_eq]
  rw [hl, List.drop_left]

theorem Osc.readOscString_append_nul (s rest : QByteArray) (h : ∀ c ∈ s, 0 < c) :
    Osc.readOscString (s ++ 0 :: rest) = (s, rest) := by
  induction s with
  | nil => simp [Osc.readOscString]
  | cons c cs ih =>
    have hc : 0 < c := h c (List.mem_cons_self c cs)
    have hcs : ∀ x ∈ cs, 0 < x := fun x hx => h x (List.mem_cons_of_mem c hx)
    have hne : ¬ c = 0 := by omega
    simp [Osc.readOscString, hne, ih hcs]

theorem Qt.readUInt32_be32 (n : Nat) (rest : QByteArray) (ok : Bool) (h : n < 4294967296) :
    Qt.RStream.readUInt32 ⟨Qt.be32 n ++ rest, ok⟩ = (n, ⟨rest, ok⟩) := by
  simp only [Qt.RStream.readUInt32, Qt.be32, List.cons_append, List.nil_append]
  rw [Qt.fromBe32_be32 n h]

theorem Qt.readInt32_be32 (i : Int) (rest : QByteArray) (ok : Bool)
    (h : -2147483648 ≤ i ∧ i < 2147483648) :
    Qt.RStream.readInt32 ⟨Qt.be32 (i % 4294967296).toNat ++ rest, ok⟩ = (i, ⟨rest, ok⟩) := by
  have hlt : (i % 4294967296).toNat < 4294967296 := by omega
  simp only [Qt.RStream.readInt32, Qt.readUInt32_be32 _ rest ok hlt]
  congr 1
  split <;> omega

theorem Qt.readByteArray_be32 (b rest : QByteArray) (ok : Bool) (h : b.length < 2147483648) :
    Qt.RStream.readByteArray ⟨Qt.be32 (b.length % 4294967296) ++ b ++ rest, ok⟩
      = (b, ⟨rest, ok⟩) := by
  have hmod : b.length % 4294967296 = b.length := Nat.mod_eq_of_lt (by omega)
  have hlt : b.length < 4294967296 := by omega
  rw [hmod, List.append_assoc]
  simp only [Qt.RStream.readByteArray, Qt.readUInt32_be32 _ (b ++ rest) ok hlt]
  have h1 : ¬ b.length = 4294967295 := by omega
  have h2 : ¬ (b ++ rest).length < b.length := by simp
  simp [h1, h2]

theorem OscData.argBytes_ne_nil (d : OscData) : d.argBytes ≠ [] := by
  cases d with
  | Int i => simp [OscData.argBytes, Qt.be32]
  | Float f => simp [OscData.argBytes, Qt.be32]
  | String s => simp [OscData.argBytes, Osc.writePaddedString_eq]; omega
  | Blob b => simp [OscData.argBytes, Qt.be32]

theorem Osc.extractDataLoop_step (d : OscData) (hd : d.wellFormed) (ts : QString)
    (rest : QByteArray) (acc : List OscData) :
    Osc.extractDataLoop (d.tagChar :: ts) ⟨d.argBytes ++ rest, true⟩ acc
      = Osc.extractDataLoop ts ⟨rest, true⟩ (acc ++ [d]) := by
  have hne : (Qt.RStream.mk (d.argBytes ++ rest) true).atEnd = false := by
    have := OscData.argBytes_ne_nil d
    cases hb : d.argBytes with
    | nil => exact absurd hb this
    | cons x xs => simp [Qt.RStream.atEnd]
  rw [Osc.extractDataLoop]
  simp only [hne]
  cases d with
  | Int i =>
    simp only [OscData.wellFormed] at hd
    simp [OscData.tagChar, OscData.argBytes, Qt.readInt32_be32 i rest true hd]
  | Float f =>
    simp only [OscData.wellFormed] at hd
    have hmod : f % 4294967296 = f := Nat.mod_eq_of_lt hd
    simp [OscData.tagChar, OscData.argBytes, Qt.RStream.readFloat, hmod,
      Qt.readUInt32_be32 f rest true hd]
  | String s =>
    simp only [OscData.wellFormed] at hd
    have hlat : ∀ c ∈ s, c < 256 := fun c hc => by have := (hd c hc).2; omega
    have hpos : ∀ c ∈ s, 0 < c := fun c hc => (hd c hc).1
    have hbytes : Osc.writePaddedString s ++ rest
        = s ++ 0 :: (List.replicate (3 - s.length % 4) 0 ++ rest) := by
      rw [Osc.writePaddedString_latin1 s hlat]; simp
    have hskip : Osc.paddedLength s - s.length - 1 = 3 - s.length % 4 := by
      rw [Osc.paddedLength_eq]; omega
    simp [OscData.tagChar, OscData.argBytes, hbytes, Osc.readOscString_append_nul _ _ hpos,
      Qt.RStream.skipRawData, hskip]
  | Blob b =>
    simp only [OscData.wellFormed] at hd
    have hb := Qt.readByteArray_be32 b rest true hd.2
    rw [List.append_assoc] at hb
    simp [OscData.tagChar, OscData.argBytes, hb]

theorem Osc.extractDataLoop_argsBytes (data : List OscData) (h : ∀ d ∈ data, d.wellFormed)
    (acc : List OscData) :
    Osc.extractDataLoop (data.map OscData.tagChar) ⟨OscData.argsBytes data, true⟩ acc
      = (true, acc ++ data) := by
  induction data generalizing acc with
  | nil => simp [Osc.extractDataLoop]
  | cons d ds ih =>
    have hd := h d (List.mem_cons_self d ds)
    have hds : ∀ x ∈ ds, x.wellFormed := fun x hx => h x (List.mem_cons_of_mem d hx)
    simp only [List.map_cons, OscData.argsBytes]
    rw [Osc.extractDataLoop_step d hd, ih hds]
    simp

theorem OscData.tagChar_pos_lt (d : OscData) : 0 < d.tagChar ∧ d.tagChar < 256 := by
  cases d <;> simp [OscData.tagChar]

theorem Osc.typeTag_bounds (data : List OscData) :
    ∀ c ∈ (44 :: data.map OscData.tagChar), 0 < c ∧ c < 256 := by
  intro c hc
  rcases List.mem_cons.mp hc with h | h
  · subst h; omega
  · obtain ⟨d, _, hd⟩ := List.mem_map.mp h
    rw [← hd]
    exact OscData.tagChar_pos_lt d

theorem Osc.getTypeTag_typeTag (data : List OscData) (rest : QByteArray) :
    Osc.getTypeTag (Osc.writePaddedString (44 :: data.map OscData.tagChar) ++ rest)
      = ⟨44 :: data.map OscData.tagChar, rest, true⟩ := by
  have hb := Osc.typeTag_bounds data
  have hlat : ∀ c ∈ (44 :: data.map OscData.tagChar), c < 256 := fun c hc => (hb c hc).2
  have hpos : ∀ c ∈ (44 :: data.map OscData.tagChar), 0 < c := fun c hc => (hb c hc).1
  have hloop : Osc.getTypeTagLoop
        (Osc.writePaddedString (44 :: data.map OscData.tagChar) ++ rest)
      = (Osc.writePaddedString (44 :: data.map OscData.tagChar) ++ rest, true) := by
    rw [Osc.writePaddedString_latin1 _ hlat]
    simp [Osc.getTypeTagLoop]
  have hfrom : Qt.fromAscii (Osc.writePaddedString (44 :: data.map OscData.tagChar) ++ rest)
      = 44 :: data.map OscData.tagChar := by
    rw [Osc.writePaddedString_latin1 _ hlat, List.append_assoc, List.cons_append]
    exact Qt.fromAscii_append_nul _ _ hpos
  unfold Osc.getTypeTag
  simp only [hloop, hfrom, Qt.removeFront, Osc.drop_paddedLength]

theorem Osc.receiveMessage_toByteArray (m : OscMessage) (h : m.constructible) :
    Osc.receiveMessage m.toByteArray = ⟨some m, true⟩ := by
  obtain ⟨_, haddr, hdata⟩ := h
  have hlat : ∀ c ∈ m.addressPattern, c < 256 := fun c hc => (haddr c hc).2
  have hpos : ∀ c ∈ m.addressPattern, 0 < c := fun c hc => (haddr c hc).1
  have hbytes := OscMessage.toByteArray_eq m
  have hfrom : Qt.fromAscii m.toByteArray = m.addressPattern := by
    rw [hbytes, Osc.writePaddedString_latin1 _ hlat]
    simp only [List.append_assoc, List.cons_append]
    exact Qt.fromAscii_append_nul _ _ hpos
  have hrem : Qt.removeFront m.toByteArray (Osc.paddedLength m.addressPattern)
      = Osc.writePaddedString (44 :: m.data.map OscData.tagChar) ++ OscData.argsBytes m.data := by
    rw [hbytes, List.append_assoc]
    exact Osc.drop_paddedLength _ _
  unfold Osc.receiveMessage
  simp only [hfrom, hrem, Osc.getTypeTag_typeTag]
  have hex : Osc.extractData (44 :: m.data.map OscData.tagChar) (OscData.argsBytes m.data) []
      = (true, m.data) := by
    unfold Osc.extractData
    simp only [List.drop_succ_cons, List.drop_zero, Qt.RStream.openOn]
    rw [Osc.extractDataLoop_argsBytes m.data hdata []]
    simp
  simp [hex, Qt.startsWith]

theorem OscMessage.toByteArray_startsWith_slash (m : OscMessage) (h : m.constructible) :
    Qt.startsWith m.toByteArray [47] = true := by
  obtain ⟨hhead, haddr, _⟩ := h
  have hlat : ∀ c ∈ m.addressPattern, c < 256 := fun c hc => (haddr c hc).2
  rw [OscMessage.toByteArray_eq, Osc.writePaddedString_latin1 _ hlat]
  cases ha : m.addressPattern with
  | nil => rw [ha] at hhead; simp at hhead
  | cons c cs =>
    rw [ha] at hhead
    simp only [List.head?_cons, Option.some.injEq] at hhead
    subst hhead
    simp [Qt.startsWith]

theorem Osc.receivePacketFuel_toByteArray (m : OscMessage) (h : m.constructible) (fuel : Nat) :
    Osc.receivePacketFuel (fuel + 1) m.toByteArray = some ⟨true, [m], true⟩ := by
  rw [Osc.receivePacketFuel]
  simp [OscMessage.toByteArray_startsWith_slash m h, Osc.receiveMessage_toByteArray m h]

theorem OscMessage.toByteArray_length_pos (m : OscMessage) : 0 < m.toByteArray.length := by
  rw [OscMessage.toByteArray_eq]
  simp only [List.length_append, Osc.writePaddedString_length]
  omega

theorem Osc.receiveBundleLoop_bundleElements (msgs : List OscMessage)
    (h : ∀ m ∈ msgs, m.constructible ∧ m.toByteArray.length ≤ 16384) (fuel : Nat)
    (hfuel : msgs.length < fuel) :
    Osc.receiveBundleLoop fuel ⟨Osc.bundleElements msgs, true⟩ = some ⟨true, msgs, true⟩ := by
  induction msgs generalizing fuel with
  | nil =>
    obtain ⟨f, rfl⟩ : ∃ f, fuel = f + 1 := ⟨fuel - 1, by simp at hfuel; omega⟩
    simp [Osc.receiveBundleLoop, Osc.bundleElements, Qt.RStream.atEnd]
  | cons m ms ih =>
    have hm := h m (List.mem_cons_self m ms)
    have hms : ∀ x ∈ ms, x.constructible ∧ x.toByteArray.length ≤ 16384 :=
      fun x hx => h x (List.mem_cons_of_mem m hx)
    simp only [List.length_cons] at hfuel
    obtain ⟨f, rfl⟩ : ∃ f, fuel = f + 2 := ⟨fuel - 2, by omega⟩
    have hpos := OscMessage.toByteArray_length_pos m
    have hread : Qt.RStream.readByteArray ⟨Osc.bundleElements (m :: ms), true⟩
        = (m.toByteArray, ⟨Osc.bundleElements ms, true⟩) := by
      simp only [Osc.bundleElements]
      rw [← Osc.be32_mod]
      exact Qt.readByteArray_be32 _ _ true (by omega)
    have hne : (Qt.RStream.mk (Osc.bundleElements (m :: ms)) true).atEnd = false := by
      simp [Osc.bundleElements, Qt.RStream.atEnd, Qt.be32]
    rw [Osc.receiveBundleLoop]
    simp only [hne, hread, Osc.receivePacketFuel_toByteArray m hm.1 f,
      ih hms (f + 1) (by omega)]
    have h1 : ¬ (16384 < m.toByteArray.length) := by omega
    have h2 : ¬ (m.toByteArray.length = 0) := by omega
    simp [h1, h2]

theorem Osc.bundleElements_length (msgs : List OscMessage) :
    msgs.length ≤ (Osc.bundleElements msgs).length := by
  induction msgs with
  | nil => simp
  | cons m ms ih =>
    simp only [Osc.bundleElements, List.length_append, List.length_cons, Qt.be32_length]
    omega

theorem Osc.receivePacket_createPacket (msgs : List OscMessage) (hlen : 2 ≤ msgs.length)
    (h : ∀ m ∈ msgs, m.constructible ∧ m.toByteArray.length ≤ 16384) :
    Osc.receivePacket (Osc.createPacket msgs) = some ⟨true, msgs, true⟩ := by
  have hpkt : Osc.createPacket msgs
      = [35, 98, 117, 110, 100, 108, 101, 0, 0, 0, 0, 0, 0, 0, 0, 0] ++ Osc.bundleElements msgs := by
    rw [Osc.createPacket_bundle msgs hlen]
    rfl
  have hel := Osc.bundleElements_length msgs
  unfold Osc.receivePacket
  rw [hpkt]
  simp only [List.length_append, List.length_cons, List.length_nil]
  rw [Osc.receivePacketFuel]
  have hskip : (Qt.RStream.openOn
        ([35, 98, 117, 110, 100, 108, 101, 0, 0, 0, 0, 0, 0, 0, 0, 0]
          ++ Osc.bundleElements msgs)).skipRawData 16
      = ⟨Osc.bundleElements msgs, true⟩ := by
    simp [Qt.RStream.openOn, Qt.RStream.skipRawData]
  simp only [hskip]
  rw [Osc.receiveBundleLoop_bundleElements msgs h _ (by omega)]
  simp [Qt.startsWith, Osc.bundleTag]

/-! ## Where the padding invariant does hold -/

theorem OscData.argsBytes_length_mod (data : List OscData)
    (h : ∀ d ∈ data, ∀ b, d = OscData.Blob b → b.length % 4 = 0) :
    (OscData.argsBytes data).length % 4 = 0 := by
  induction data with
  | nil => rfl
  | cons d ds ih =>
    have hds : ∀ x ∈ ds, ∀ b, x = OscData.Blob b → b.length % 4 = 0 :=
      fun x hx => h x (List.mem_cons_of_mem d hx)
    have ih2 := ih hds
    have hd : d.argBytes.length % 4 = 0 := by
      cases d with
      | Int i => simp [OscData.argBytes, Qt.be32]
      | Float f => simp [OscData.argBytes, Qt.be32]
      | String s => exact Osc.writePaddedString_length_mod s
      | Blob b =>
        have hb := h (OscData.Blob b) (List.mem_cons_self _ ds) b rfl
        simp only [OscData.argBytes, List.length_append, Qt.be32_length]
        omega
    simp only [OscData.argsBytes, List.length_append]
    omega

theorem OscMessage.toByteArray_length_mod (m : OscMessage)
    (h : ∀ d ∈ m.data, ∀ b, d = OscData.Blob b → b.length % 4 = 0) :
    m.toByteArray.length % 4 = 0 := by
  rw [OscMessage.toByteArray_eq]
  have h1 := Osc.writePaddedString_length_mod m.addressPattern
  have h2 := Osc.writePaddedString_length_mod (44 :: m.data.map OscData.tagChar)
  have h3 := OscData.argsBytes_length_mod m.data h
  simp only [List.length_append]
  omega

/-! ## Lemmas for the rejection claims -/

theorem Osc.getTypeTagLoop_no_comma (l : QByteArray) (h : 44 ∉ l) :
    Osc.getTypeTagLoop l = ([], false) := by
  induction l with
  | nil => rfl
  | cons c cs ih =>
    have hc : ¬ c = 44 := fun e => h (e ▸ List.mem_cons_self _ _)
    have hcs : 44 ∉ cs := fun e => h (List.mem_cons_of_mem _ e)
    simp [Osc.getTypeTagLoop, hc, ih hcs]

theorem Osc.extractDataLoop_shape (ts : QString) (s : Qt.RStream) (acc : List OscData) :
    ∃ new, (Osc.extractDataLoop ts s acc).2 = acc ++ new ∧ new.length ≤ ts.length
      ∧ (new.length = ts.length → new.map OscData.tagChar = ts) := by
  induction ts generalizing s acc with
  | nil => exact ⟨[], by simp [Osc.extractDataLoop]⟩
  | cons t ts ih =>
    have key : ∀ (d : OscData) (s1 : Qt.RStream), d.tagChar = t →
        ∃ new, (if s1.ok = false then (false, acc ++ [d])
            else Osc.extractDataLoop ts s1 (acc ++ [d])).2 = acc ++ new
          ∧ new.length ≤ (t :: ts).length
          ∧ (new.length = (t :: ts).length → new.map OscData.tagChar = t :: ts) := by
      intro d s1 hd
      by_cases hok : s1.ok = false
      · refine ⟨[d], by simp [hok], by simp, ?_⟩
        intro hlen
        simp only [List.length_cons, List.length_nil] at hlen
        have hts : ts = [] := List.length_eq_zero.mp (by omega)
        simp [hts, hd]
      · obtain ⟨new, h1, h2, h3⟩ := ih s1 (acc ++ [d])
        refine ⟨d :: new, by simp [hok, h1], by simp; omega, ?_⟩
        intro hlen
        simp only [List.length_cons] at hlen
        have := h3 (by omega)
        simp [hd, this]
    rw [Osc.extractDataLoop]
    by_cases hend : s.atEnd = true
    · exact ⟨[], by simp [hend], by simp, by simp⟩
    · simp only [hend]
      by_cases h1 : t = 105
      · simpa [h1] using key (OscData.Int (s.readInt32).1) (s.readInt32).2 (by simp [OscData.tagChar, h1])
      · by_cases h2 : t = 102
        · simpa [h2] using
            key (OscData.Float (s.readFloat).1) (s.readFloat).2 (by simp [OscData.tagChar, h2])
        · by_cases h3 : t = 115
          · simpa [h3] using
              key (OscData.String (Osc.readOscString s.rest).1)
                ((Qt.RStream.mk (Osc.readOscString s.rest).2 s.ok).skipRawData
                  (Osc.paddedLength (Osc.readOscString s.rest).1
                    - (Osc.readOscString s.rest).1.length - 1))
                (by simp [OscData.tagChar, h3])
          · by_cases h4 : t = 98
            · simpa [h4] using
                key (OscData.Blob (s.readByteArray).1) (s.readByteArray).2
                  (by simp [OscData.tagChar, h4])
            · simp only [h1, h2, h3, h4, if_false]
              by_cases hok : s.ok = false
              · exact ⟨[], by simp [hok], by simp, by simp⟩
              · obtain ⟨new, e1, e2, e3⟩ := ih s acc
                refine ⟨new, by simp [hok, e1], by simp; omega, ?_⟩
                intro hlen
                simp only [List.length_cons] at hlen
                omega

theorem Osc.extractDataLoop_args_then (pre : List OscData) (h : ∀ d ∈ pre, d.wellFormed)
    (ts : QString) (rest : QByteArray) (acc : List OscData) :
    Osc.extractDataLoop (pre.map OscData.tagChar ++ ts) ⟨OscData.argsBytes pre ++ rest, true⟩ acc
      = Osc.extractDataLoop ts ⟨rest, true⟩ (acc ++ pre) := by
  induction pre generalizing acc with
  | nil => simp [OscData.argsBytes]
  | cons d ds ih =>
    have hd := h d (List.mem_cons_self d ds)
    have hds : ∀ x ∈ ds, x.wellFormed := fun x hx => h x (List.mem_cons_of_mem d hx)
    simp only [List.map_cons, OscData.argsBytes, List.cons_append, List.append_assoc]
    rw [Osc.extractDataLoop_step d hd, ih hds]
    simp

theorem Osc.receiveMessage_short_data (addr : QString) (pre post : List OscData)
    (haddr : ∀ c ∈ addr, 0 < c ∧ c < 256) (hpre : ∀ d ∈ pre, d.wellFormed) (hpost : post ≠ []) :
    Osc.receiveMessage (Osc.writePaddedString addr
        ++ Osc.writePaddedString (44 :: (pre ++ post).map OscData.tagChar)
        ++ OscData.argsBytes pre) = ⟨none, true⟩ := by
  have hlat : ∀ c ∈ addr, c < 256 := fun c hc => (haddr c hc).2
  have hpos : ∀ c ∈ addr, 0 < c := fun c hc => (haddr c hc).1
  have hfrom : Qt.fromAscii (Osc.writePaddedString addr
        ++ Osc.writePaddedString (44 :: (pre ++ post).map OscData.tagChar)
        ++ OscData.argsBytes pre) = addr := by
    rw [Osc.writePaddedString_latin1 _ hlat]
    simp only [List.append_assoc, List.cons_append]
    exact Qt.fromAscii_append_nul _ _ hpos
  have hrem : Qt.removeFront (Osc.writePaddedString addr
        ++ Osc.writePaddedString (44 :: (pre ++ post).map OscData.tagChar)
        ++ OscData.argsBytes pre) (Osc.paddedLength addr)
      = Osc.writePaddedString (44 :: (pre ++ post).map OscData.tagChar)
          ++ OscData.argsBytes pre := by
    rw [List.append_assoc]
    exact Osc.drop_paddedLength _ _
  have hloop : Osc.extractDataLoop ((pre ++ post).map OscData.tagChar)
      ⟨OscData.argsBytes pre, true⟩ [] = (true, pre) := by
    have h1 := Osc.extractDataLoop_args_then pre hpre (post.map OscData.tagChar) [] []
    simp only [List.append_nil, List.nil_append] at h1
    rw [List.map_append, h1]
    cases post with
    | nil => exact absurd rfl hpost
    | cons q qs => simp [Osc.extractDataLoop, Qt.RStream.atEnd]
  have hcons : post.length ≠ 0 := fun e => hpost (List.length_eq_zero.mp e)
  unfold Osc.receiveMessage
  simp only [hfrom, hrem, Osc.getTypeTag_typeTag, Osc.extractData, List.drop_succ_cons,
    List.drop_zero, Qt.RStream.openOn, hloop]
  simp [Qt.startsWith]
  exact hpost

theorem Qt.readByteArray_bad_length (b0 b1 b2 b3 : Nat) (rest : QByteArray) (ok : Bool)
    (h : Qt.fromBe32 b0 b1 b2 b3 = 0 ∨ 16384 < Qt.fromBe32 b0 b1 b2 b3
      ∨ rest.length < Qt.fromBe32 b0 b1 b2 b3) :
    16384 < (Qt.RStream.readByteArray ⟨b0 :: b1 :: b2 :: b3 :: rest, ok⟩).1.length
      ∨ (Qt.RStream.readByteArray ⟨b0 :: b1 :: b2 :: b3 :: rest, ok⟩).1.length = 0 := by
  simp only [Qt.RStream.readByteArray, Qt.RStream.readUInt32]
  by_cases h1 : Qt.fromBe32 b0 b1 b2 b3 = 4294967295
  · simp [h1]
  · by_cases h2 : rest.length < Qt.fromBe32 b0 b1 b2 b3
    · simp [h1, h2]
    · simp only [h1, h2, if_false, List.length_take]
      omega

theorem Osc.receiveBundleLoop_bad_element (pre : List OscMessage)
    (hpre : ∀ m ∈ pre, m.constructible ∧ m.toByteArray.length ≤ 16384)
    (b0 b1 b2 b3 : Nat) (rest : QByteArray)
    (hbad : Qt.fromBe32 b0 b1 b2 b3 = 0 ∨ 16384 < Qt.fromBe32 b0 b1 b2 b3
      ∨ rest.length < Qt.fromBe32 b0 b1 b2 b3)
    (fuel : Nat) (hfuel : pre.length < fuel) :
    Osc.receiveBundleLoop fuel ⟨Osc.bundleElements pre ++ b0 :: b1 :: b2 :: b3 :: rest, true⟩
      = some ⟨false, pre, true⟩ := by
  induction pre generalizing fuel with
  | nil =>
    obtain ⟨f, rfl⟩ : ∃ f, fuel = f + 1 := ⟨fuel - 1, by simp at hfuel; omega⟩
    have hb := Qt.readByteArray_bad_length b0 b1 b2 b3 rest true hbad
    rw [Osc.receiveBundleLoop]
    simp only [Osc.bundleElements, List.nil_append, Qt.RStream.atEnd, List.isEmpty_cons]
    rcases hb with hb | hb
    · simp [hb]
    · simp [hb]
  | cons m ms ih =>
    have hm := hpre m (List.mem_cons_self m ms)
    have hms : ∀ x ∈ ms, x.constructible ∧ x.toByteArray.length ≤ 16384 :=
      fun x hx => hpre x (List.mem_cons_of_mem m hx)
    simp only [List.length_cons] at hfuel
    obtain ⟨f, rfl⟩ : ∃ f, fuel = f + 2 := ⟨fuel - 2, by omega⟩
    have hpos := OscMessage.toByteArray_length_pos m
    have hread : Qt.RStream.readByteArray
          ⟨Osc.bundleElements (m :: ms) ++ b0 :: b1 :: b2 :: b3 :: rest, true⟩
        = (m.toByteArray, ⟨Osc.bundleElements ms ++ b0 :: b1 :: b2 :: b3 :: rest, true⟩) := by
      simp only [Osc.bundleElements, List.append_assoc]
      rw [← Osc.be32_mod, ← List.append_assoc]
      exact Qt.readByteArray_be32 _ _ true (by omega)
    have hne : (Qt.RStream.mk
          (Osc.bundleElements (m :: ms) ++ b0 :: b1 :: b2 :: b3 :: rest) true).atEnd = false := by
      simp [Osc.bundleElements, Qt.RStream.atEnd, Qt.be32]
    rw [Osc.receiveBundleLoop]
    simp only [hne, hread, Osc.receivePacketFuel_toByteArray m hm.1 f,
      ih hms (f + 1) (by omega)]
    have h1 : ¬ (16384 < m.toByteArray.length) := by omega
    have h2 : ¬ (m.toByteArray.length = 0) := by omega
    simp [h1, h2]

theorem Osc.receivePacket_bad_element (tt : QByteArray) (pre : List OscMessage)
    (b0 b1 b2 b3 : Nat) (rest : QByteArray) (htt : tt.length = 8)
    (hpre : ∀ m ∈ pre, m.constructible ∧ m.toByteArray.length ≤ 16384)
    (hbad : Qt.fromBe32 b0 b1 b2 b3 = 0 ∨ 16384 < Qt.fromBe32 b0 b1 b2 b3
      ∨ rest.length < Qt.fromBe32 b0 b1 b2 b3) :
    Osc.receivePacket (Osc.writePaddedString Osc.bundleTag ++ tt
        ++ Osc.bundleElements pre ++ b0 :: b1 :: b2 :: b3 :: rest)
      = some ⟨false, pre, true⟩ := by
  have hhead : Osc.writePaddedString Osc.bundleTag = [35, 98, 117, 110, 100, 108, 101, 0] := by
    decide
  have hel := Osc.bundleElements_length pre
  have hskip : (Qt.RStream.openOn ([35, 98, 117, 110, 100, 108, 101, 0] ++ tt
        ++ Osc.bundleElements pre ++ b0 :: b1 :: b2 :: b3 :: rest)).skipRawData 16
      = ⟨Osc.bundleElements pre ++ b0 :: b1 :: b2 :: b3 :: rest, true⟩ := by
    have h16 : 16 = ([35, 98, 117, 110, 100, 108, 101, 0] ++ tt).length := by simp [htt]
    simp only [Qt.RStream.openOn, Qt.RStream.skipRawData, List.append_assoc]
    rw [← List.append_assoc, h16, List.drop_left]
  unfold Osc.receivePacket
  rw [hhead]
  simp only [List.length_append, List.length_cons, List.length_nil]
  rw [Osc.receivePacketFuel]
  simp only [hskip]
  rw [Osc.receiveBundleLoop_bad_element pre hpre b0 b1 b2 b3 rest hbad _ (by omega)]
  simp [Qt.startsWith, Osc.bundleTag]

/-! ## Data that ends inside an argument -/

theorem Osc.receiveMessage_tagged (addr : QString) (data : List OscData) (bytes : QByteArray)
    (haddr : ∀ c ∈ addr, 0 < c ∧ c < 256) :
    Osc.receiveMessage (Osc.writePaddedString addr
        ++ Osc.writePaddedString (44 :: data.map OscData.tagChar) ++ bytes)
      = if !(Osc.extractDataLoop (data.map OscData.tagChar) ⟨bytes, true⟩ []).1
            || (Osc.extractDataLoop (data.map OscData.tagChar) ⟨bytes, true⟩ []).2.length
                ≠ data.length
        then ⟨none, true⟩
        else ⟨some ⟨addr, (Osc.extractDataLoop (data.map OscData.tagChar) ⟨bytes, true⟩ []).2⟩,
              true⟩ := by
  have hlat : ∀ c ∈ addr, c < 256 := fun c hc => (haddr c hc).2
  have hpos : ∀ c ∈ addr, 0 < c := fun c hc => (haddr c hc).1
  have hfrom : Qt.fromAscii (Osc.writePaddedString addr
        ++ Osc.writePaddedString (44 :: data.map OscData.tagChar) ++ bytes) = addr := by
    rw [Osc.writePaddedString_latin1 _ hlat]
    simp only [List.append_assoc, List.cons_append]
    exact Qt.fromAscii_append_nul _ _ hpos
  have hrem : Qt.removeFront (Osc.writePaddedString addr
        ++ Osc.writePaddedString (44 :: data.map OscData.tagChar) ++ bytes)
        (Osc.paddedLength addr)
      = Osc.writePaddedString (44 :: data.map OscData.tagChar) ++ bytes := by
    rw [List.append_assoc]
    exact Osc.drop_paddedLength _ _
  unfold Osc.receiveMessage
  simp only [hfrom, hrem, Osc.getTypeTag_typeTag, Osc.extractData, List.drop_succ_cons,
    List.drop_zero, Qt.RStream.openOn]
  simp [Qt.startsWith]

theorem Qt.readUInt32_short (l : QByteArray) (ok : Bool) (h : l.length < 4) :
    Qt.RStream.readUInt32 ⟨l, ok⟩ = (0, ⟨[], false⟩) := by
  match l, h with
  | [], _ => rfl
  | [_], _ => rfl
  | [_, _], _ => rfl
  | [_, _, _], _ => rfl
  | _ :: _ :: _ :: _ :: _, h => simp at h; omega

theorem Qt.readByteArray_short (l : QByteArray) (ok : Bool) (h : l.length < 4) :
    (Qt.RStream.readByteArray ⟨l, ok⟩).2.ok = false := by
  simp [Qt.RStream.readByteArray, Qt.readUInt32_short l ok h]

theorem Qt.readByteArray_truncated (b part : QByteArray) (ok : Bool)
    (hb : b.length < 2147483648) (hpart : part.length < b.length) :
    (Qt.RStream.readByteArray ⟨Qt.be32 (b.length % 4294967296) ++ part, ok⟩).2.ok = false := by
  have hmod : b.length % 4294967296 = b.length := Nat.mod_eq_of_lt (by omega)
  have hlt : b.length < 4294967296 := by omega
  rw [hmod]
  simp only [Qt.RStream.readByteArray, Qt.readUInt32_be32 _ part ok hlt]
  have h1 : ¬ b.length = 4294967295 := by omega
  simp [h1, hpart]

theorem Osc.extractDataLoop_truncated (d : OscData) (hd : d.wellFormed)
    (hns : ∀ s, d ≠ OscData.String s) (part suffix : QByteArray) (hsuf : suffix ≠ [])
    (hpart : part ++ suffix = d.argBytes) (ts : QString) (acc : List OscData) :
    (Osc.extractDataLoop (d.tagChar :: ts) ⟨part, true⟩ acc).1 = false
      ∨ (Osc.extractDataLoop (d.tagChar :: ts) ⟨part, true⟩ acc).2 = acc := by
  have hsl : 0 < suffix.length := List.length_pos.mpr hsuf
  have hlen : part.length + suffix.length = d.argBytes.length := by
    rw [← hpart, List.length_append]
  rw [Osc.extractDataLoop]
  by_cases hend : (Qt.RStream.mk part true).atEnd = true
  · right; simp [hend]
  · left
    simp only [hend]
    cases d with
    | Int i =>
      have h4 : part.length < 4 := by
        simp only [OscData.argBytes, Qt.be32_length] at hlen; omega
      simp [OscData.tagChar, Qt.RStream.readInt32, Qt.readUInt32_short part true h4]
    | Float f =>
      have h4 : part.length < 4 := by
        simp only [OscData.argBytes, Qt.be32_length] at hlen; omega
      simp [OscData.tagChar, Qt.RStream.readFloat, Qt.readUInt32_short part true h4]
    | String s => exact absurd rfl (hns s)
    | Blob b =>
      simp only [OscData.wellFormed] at hd
      have hfail : (Qt.RStream.readByteArray ⟨part, true⟩).2.ok = false := by
        simp only [OscData.argBytes] at hpart
        rcases List.append_eq_append_iff.mp hpart with ⟨a, ha, hb⟩ | ⟨c, hc, hb⟩
        · by_cases h4 : part.length < 4
          · exact Qt.readByteArray_short part true h4
          · have hal : part.length + a.length = 4 := by
              have := congrArg List.length ha
              simp only [Qt.be32_length, List.length_append] at this
              omega
            have ha0 : a = [] := List.length_eq_zero.mp (by omega)
            subst ha0
            simp only [List.append_nil] at ha
            simp only [List.nil_append] at hb
            subst hb
            have := Qt.readByteArray_truncated suffix [] true hd.2 (by simpa using hsl)
            rw [List.append_nil, ha] at this
            exact this
        · rw [hc]
          apply Qt.readByteArray_truncated b c true hd.2
          have := congrArg List.length hb
          simp only [List.length_append] at this
          omega
      simp [OscData.tagChar, hfail]

theorem Osc.receiveMessage_truncated_arg (addr : QString) (pre post : List OscData)
    (d : OscData) (part suffix : QByteArray) (haddr : ∀ c ∈ addr, 0 < c ∧ c < 256)
    (hpre : ∀ x ∈ pre, x.wellFormed) (hd : d.wellFormed) (hns : ∀ s, d ≠ OscData.String s)
    (hsuf : suffix ≠ []) (hpart : part ++ suffix = d.argBytes) :
    Osc.receiveMessage (Osc.writePaddedString addr
        ++ Osc.writePaddedString (44 :: (pre ++ d :: post).map OscData.tagChar)
        ++ (OscData.argsBytes pre ++ part)) = ⟨none, true⟩ := by
  rw [Osc.receiveMessage_tagged addr (pre ++ d :: post) _ haddr]
  have h1 := Osc.extractDataLoop_args_then pre hpre (d.tagChar :: post.map OscData.tagChar)
    part []
  simp only [List.nil_append] at h1
  have hmap : (pre ++ d :: post).map OscData.tagChar
      = pre.map OscData.tagChar ++ d.tagChar :: post.map OscData.tagChar := by simp
  rw [hmap, h1]
  rcases Osc.extractDataLoop_truncated d hd hns part suffix hsuf hpart
    (post.map OscData.tagChar) pre with h | h
  · simp [h]
  · have hlen : (Osc.extractDataLoop (d.tagChar :: post.map OscData.tagChar)
        ⟨part, true⟩ pre).2.length ≠ (pre ++ d :: post).length := by
      rw [h]; simp
    rw [if_pos (by simp only [Bool.or_eq_true, decide_eq_true_eq]; exact Or.inr hlen)]

/-! ## Lemmas on the analog input module -/

namespace Analogin

theorem and_one_shiftLeft_eq_zero_iff (x i : Nat) :
    x &&& (1 <<< i) = 0 ↔ x.testBit i = false := by
  rw [Nat.one_shiftLeft]
  constructor
  · intro h
    have h2 : (x &&& 2 ^ i).testBit i = false := by rw [h]; exact Nat.zero_testBit i
    rw [Nat.testBit_and, Nat.testBit_two_pow_self, Bool.and_true] at h2
    exact h2
  · intro h
    apply Nat.eq_of_testBit_eq
    intro j
    rw [Nat.testBit_and, Nat.testBit_two_pow, Nat.zero_testBit]
    by_cases hij : i = j
    · subst hij; simp [h]
    · simp [hij]

theorem and_one_shiftLeft_ne_zero_iff (x i : Nat) :
    x &&& (1 <<< i) ≠ 0 ↔ x.testBit i = true := by
  rw [Ne, and_one_shiftLeft_eq_zero_iff]
  simp

theorem testBit_of_lt_65536 (x j : Nat) (hx : x < 65536) (hj : 16 ≤ j) :
    x.testBit j = false := by
  apply Nat.testBit_lt_two_pow
  calc x < 2 ^ 16 := hx
    _ ≤ 2 ^ j := Nat.pow_le_pow_right (by decide) hj

theorem testBit_set (x idx j : Nat) (hx : x < 65536) (hidx : idx < 16) :
    ((x ||| (1 <<< idx)) % 65536).testBit j = (x.testBit j || decide (idx = j)) := by
  rw [show (65536 : Nat) = 2 ^ 16 from rfl, Nat.testBit_mod_two_pow, Nat.testBit_or,
    Nat.one_shiftLeft, Nat.testBit_two_pow]
  by_cases hj : j < 16
  · simp [hj]
  · have h1 := testBit_of_lt_65536 x j hx (by omega)
    have h2 : ¬ idx = j := by omega
    simp [hj, h1, h2]

theorem testBit_clear (x idx j : Nat) (hx : x < 65536) (hidx : idx < 16) :
    ((x &&& (4294967295 - (1 <<< idx))) % 65536).testBit j
      = (x.testBit j && !decide (idx = j)) := by
  have hpow : 2 ^ idx < 2 ^ 32 := Nat.pow_lt_pow_right (by decide) (by omega)
  have hsub : 4294967295 - 1 <<< idx = 2 ^ 32 - (2 ^ idx + 1) := by
    rw [Nat.one_shiftLeft]
    have : (2 : Nat) ^ 32 = 4294967296 := by decide
    omega
  rw [show (65536 : Nat) = 2 ^ 16 from rfl, Nat.testBit_mod_two_pow, Nat.testBit_and, hsub,
    Nat.testBit_two_pow_sub_succ hpow, Nat.testBit_two_pow]
  by_cases hj : j < 16
  · have hj32 : j < 32 := by omega
    simp [hj, hj32]
  · have h1 := testBit_of_lt_65536 x j hx (by omega)
    simp [hj, h1]

theorem highByte_eq (c : Nat) : highByte c = c / 256 % 256 := by
  unfold highByte
  rw [show (0xFF : Nat) = 2 ^ 8 - 1 from rfl, Nat.and_pow_two_sub_one_eq_mod,
    Nat.shiftRight_eq_div_pow]

theorem init_channels (st : State) :
    (analoginAutoSendInit st).analoginAutosendChannels
      = if st.eeprom % 65536 / 256 = 223 then st.eeprom % 65536 else 57088 := by
  have hb := highByte_eq (st.eeprom % 65536)
  unfold highByte at hb
  have hlt : st.eeprom % 65536 / 256 < 256 := by omega
  unfold analoginAutoSendInit eepromRead AIN_AUTOSEND_SAVED
  simp only [hb, Nat.mod_eq_of_lt hlt]
  by_cases h : st.eeprom % 65536 / 256 = 223
  · simp [h]
  · simp [h]

theorem handler_one_channels (ch : Nat) (address : List Nat) (idx : Nat) (d : Nat → OscData)
    (st : State) :
    (analoginAutosendHandler ch address idx d 1 st).1.analoginAutosendChannels
      = (if (d 0).i ≠ 0 then (st.analoginAutosendChannels ||| (1 <<< idx)) % 65536
          else (st.analoginAutosendChannels &&& (4294967295 - (1 <<< idx))) % 65536)
    ∧ (analoginAutosendHandler ch address idx d 1 st).1.eeprom
      = (analoginAutosendHandler ch address idx d 1 st).1.analoginAutosendChannels
    ∧ (analoginAutosendHandler ch address idx d 1 st).1.analoginAutosendVals
      = st.analoginAutosendVals
    ∧ (analoginAutosendHandler ch address idx d 1 st).2 = [] := by
  simp [analoginAutosendHandler, eepromWrite]

theorem handler_one_testBit (ch : Nat) (address : List Nat) (idx : Nat) (d : Nat → OscData)
    (st : State) (hx : st.analoginAutosendChannels < 65536) (hidx : idx < 8) (j : Nat) :
    (analoginAutosendHandler ch address idx d 1 st).1.analoginAutosendChannels.testBit j
      = if idx = j then decide ((d 0).i ≠ 0) else st.analoginAutosendChannels.testBit j := by
  rw [(handler_one_channels ch address idx d st).1]
  by_cases hv : (d 0).i ≠ 0
  · rw [if_pos hv, testBit_set _ _ _ hx (by omega)]
    by_cases hij : idx = j
    · simp [hij, hv]
    · simp [hij]
  · rw [if_neg hv, testBit_clear _ _ _ hx (by omega)]
    by_cases hij : idx = j
    · simp [hij, hv]
    · simp [hij]

theorem handler_one_lt (ch : Nat) (address : List Nat) (idx : Nat) (d : Nat → OscData)
    (st : State) :
    (analoginAutosendHandler ch address idx d 1 st).1.analoginAutosendChannels < 65536 := by
  rw [(handler_one_channels ch address idx d st).1]
  split <;> exact Nat.mod_lt _ (by decide)

theorem handler_one_high (ch : Nat) (address : List Nat) (idx : Nat) (d : Nat → OscData)
    (st : State) (hx : st.analoginAutosendChannels < 65536) (hidx : idx < 8) :
    (analoginAutosendHandler ch address idx d 1 st).1.analoginAutosendChannels / 256
      = st.analoginAutosendChannels / 256 := by
  have h : (analoginAutosendHandler ch address idx d 1 st).1.analoginAutosendChannels >>> 8
      = st.analoginAutosendChannels >>> 8 := by
    apply Nat.eq_of_testBit_eq
    intro j
    rw [Nat.testBit_shiftRight, Nat.testBit_shiftRight,
      handler_one_testBit ch address idx d st hx hidx]
    have : ¬ idx = 8 + j := by omega
    simp [this]
  simpa [Nat.shiftRight_eq_div_pow] using h

end Analogin

namespace Analogin

theorem autosendAddress_small (i : Nat) (hi : i < 10) :
    autosendAddress i
      = [47, 97, 110, 97, 108, 111, 103, 105, 110, 47, 48 + i, 47, 118, 97, 108, 117, 101] := by
  simp [autosendAddress, decimal, hi]

theorem autosendAddress_inj (i j : Nat) (hi : i < 10) (hj : j < 10)
    (h : autosendAddress i = autosendAddress j) : i = j := by
  rw [autosendAddress_small i hi, autosendAddress_small j hj] at h
  simp at h
  exact h

theorem step_eq (sample : Nat → Int) (ch : Nat) (acc : State × List Created) (x : Nat) :
    analoginOscAutosenderStep sample ch acc x
      = if acc.1.analoginAutosendChannels &&& (1 <<< x) ≠ 0 then
          (if acc.1.analoginAutosendVals x ≠ sample x then
            ({ acc.1 with
                analoginAutosendVals := Function.update acc.1.analoginAutosendVals x (sample x) },
              acc.2 ++ [⟨ch, autosendAddress x, [⟨OscType.INT, sample x⟩]⟩])
          else acc)
        else acc := rfl

theorem step_channels (sample : Nat → Int) (ch : Nat) (acc : State × List Created) (x : Nat) :
    (analoginOscAutosenderStep sample ch acc x).1.analoginAutosendChannels
      = acc.1.analoginAutosendChannels := by
  rw [step_eq]
  split
  · split <;> rfl
  · rfl

theorem step_vals (sample : Nat → Int) (ch : Nat) (acc : State × List Created) (x j : Nat) :
    (analoginOscAutosenderStep sample ch acc x).1.analoginAutosendVals j
      = if x = j ∧ acc.1.analoginAutosendChannels &&& (1 <<< x) ≠ 0 then sample j
        else acc.1.analoginAutosendVals j := by
  rw [step_eq]
  by_cases hbit : acc.1.analoginAutosendChannels &&& (1 <<< x) ≠ 0
  · rw [if_pos hbit]
    by_cases hne : acc.1.analoginAutosendVals x ≠ sample x
    · rw [if_pos hne]
      by_cases hxj : x = j
      · subst hxj; simp [hbit]
      · have hjx : j ≠ x := fun e => hxj e.symm
        simp [hxj, Function.update_noteq hjx]
    · rw [if_neg hne]
      by_cases hxj : x = j
      · subst hxj
        simp only [true_and, if_pos hbit]
        exact Decidable.not_not.mp hne
      · simp [hxj]
  · rw [if_neg hbit]
    simp [hbit]

theorem step_out (sample : Nat → Int) (ch : Nat) (acc : State × List Created) (x j : Nat)
    (hx : x < 10) (hj : j < 10) :
    (analoginOscAutosenderStep sample ch acc x).2.filter
        (fun c => decide (c.address = autosendAddress j))
      = acc.2.filter (fun c => decide (c.address = autosendAddress j))
        ++ (if x = j ∧ acc.1.analoginAutosendChannels &&& (1 <<< x) ≠ 0
              ∧ acc.1.analoginAutosendVals j ≠ sample j
            then [⟨ch, autosendAddress j, [⟨OscType.INT, sample j⟩]⟩] else []) := by
  rw [step_eq]
  by_cases hbit : acc.1.analoginAutosendChannels &&& (1 <<< x) ≠ 0
  · rw [if_pos hbit]
    by_cases hne : acc.1.analoginAutosendVals x ≠ sample x
    · rw [if_pos hne]
      by_cases hxj : x = j
      · subst hxj
        simp [List.filter_append, hne, hbit]
      · have haddr : ¬ autosendAddress x = autosendAddress j :=
          fun e => hxj (autosendAddress_inj x j hx hj e)
        simp [List.filter_append, hxj, haddr]
    · rw [if_neg hne]
      by_cases hxj : x = j
      · subst hxj; simp [hne]
      · simp [hxj]
  · rw [if_neg hbit]
    simp [hbit]

theorem fold_spec (sample : Nat → Int) (ch : Nat) (j : Nat) (hj : j < 10) (l : List Nat)
    (hnd : l.Nodup) (hl : ∀ x ∈ l, x < 10) (acc : State × List Created) :
    (l.foldl (analoginOscAutosenderStep sample ch) acc).1.analoginAutosendChannels
        = acc.1.analoginAutosendChannels
    ∧ (l.foldl (analoginOscAutosenderStep sample ch) acc).1.analoginAutosendVals j
        = (if j ∈ l ∧ acc.1.analoginAutosendChannels &&& (1 <<< j) ≠ 0 then sample j
            else acc.1.analoginAutosendVals j)
    ∧ (l.foldl (analoginOscAutosenderStep sample ch) acc).2.filter
          (fun c => decide (c.address = autosendAddress j))
        = acc.2.filter (fun c => decide (c.address = autosendAddress j))
          ++ (if j ∈ l ∧ acc.1.analoginAutosendChannels &&& (1 <<< j) ≠ 0
                ∧ acc.1.analoginAutosendVals j ≠ sample j
              then [⟨ch, autosendAddress j, [⟨OscType.INT, sample j⟩]⟩] else []) := by
  induction l generalizing acc with
  | nil => simp
  | cons x xs ih =>
    have hx : x < 10 := hl x (List.mem_cons_self x xs)
    have hxs : ∀ y ∈ xs, y < 10 := fun y hy => hl y (List.mem_cons_of_mem x hy)
    obtain ⟨hxnot, hnd2⟩ := List.nodup_cons.mp hnd
    obtain ⟨e1, e2, e3⟩ := ih hnd2 hxs (analoginOscAutosenderStep sample ch acc x)
    rw [List.foldl_cons]
    have hc := step_channels sample ch acc x
    have hv := step_vals sample ch acc x j
    have ho := step_out sample ch acc x j hx hj
    refine ⟨by rw [e1, hc], ?_, ?_⟩
    · rw [e2, hc, hv]
      by_cases hxj : x = j
      · subst hxj
        by_cases hbit : acc.1.analoginAutosendChannels &&& (1 <<< x) ≠ 0
        · simp [hxnot, hbit]
        · simp [hxnot, hbit]
      · have hjx : ¬ j = x := fun e => hxj e.symm
        simp [hxj, hjx]
    · rw [e3, hc, hv, ho]
      by_cases hxj : x = j
      · subst hxj
        by_cases hbit : acc.1.analoginAutosendChannels &&& (1 <<< x) ≠ 0
        · by_cases hne : acc.1.analoginAutosendVals x ≠ sample x
          · simp [hxnot, hbit, hne]
          · simp [hxnot, hbit, hne]
        · simp [hxnot, hbit]
      · have hjx : ¬ j = x := fun e => hxj e.symm
        simp [hxj, hjx]

theorem autosender_spec (sample : Nat → Int) (ch : Nat) (st : State) (i : Nat) (hi : i < 8) :
    (analoginOscAutosender sample ch st).1.analoginAutosendVals i
        = (if st.analoginAutosendChannels &&& (1 <<< i) ≠ 0 then sample i
            else st.analoginAutosendVals i)
    ∧ (analoginOscAutosender sample ch st).2.filter
          (fun c => decide (c.address = autosendAddress i))
        = (if st.analoginAutosendChannels &&& (1 <<< i) ≠ 0
                ∧ st.analoginAutosendVals i ≠ sample i
            then [⟨ch, autosendAddress i, [⟨OscType.INT, sample i⟩]⟩] else []) := by
  have hmem : i ∈ List.range ANALOGIN_CHANNELS := List.mem_range.mpr hi
  have hl : ∀ x ∈ List.range ANALOGIN_CHANNELS, x < 10 := fun x hx => by
    have := List.mem_range.mp hx
    unfold ANALOGIN_CHANNELS at this
    omega
  obtain ⟨_, e2, e3⟩ := fold_spec sample ch i (by omega) (List.range ANALOGIN_CHANNELS)
    (List.nodup_range _) hl (st, [])
  unfold analoginOscAutosender
  refine ⟨?_, ?_⟩
  · rw [e2]; simp [hmem]
  · rw [e3]; simp [hmem]

end Analogin

namespace Analogin

theorem handler_zero (ch : Nat) (address : List Nat) (idx : Nat) (d : Nat → OscData)
    (st : State) :
    analoginAutosendHandler ch address idx d 0 st
      = (st, [⟨ch, address,
          [⟨OscType.INT, if st.analoginAutosendChannels &&& (1 <<< idx) ≠ 0 then 1 else 0⟩]⟩]) := by
  simp [analoginAutosendHandler]

theorem toggle_eq (st : State) (req : Nat × Int) :
    toggle st req
      = (analoginAutosendHandler 0 [] req.1 (fun _ => ⟨OscType.INT, req.2⟩) 1 st).1 := rfl

theorem foldl_toggle_inv (reqs : List (Nat × Int)) (hreq : ∀ r ∈ reqs, r.1 < 8) (st : State)
    (hlt : st.analoginAutosendChannels < 65536) (hhi : st.analoginAutosendChannels / 256 = 223) :
    (reqs.foldl toggle st).analoginAutosendChannels < 65536
    ∧ (reqs.foldl toggle st).analoginAutosendChannels / 256 = 223
    ∧ ((st.eeprom = st.analoginAutosendChannels ∨ reqs ≠ []) →
        (reqs.foldl toggle st).eeprom = (reqs.foldl toggle st).analoginAutosendChannels) := by
  induction reqs generalizing st with
  | nil =>
    refine ⟨hlt, hhi, ?_⟩
    intro h
    rcases h with h | h
    · exact h
    · exact absurd rfl h
  | cons r rs ih =>
    have hr : r.1 < 8 := hreq r (List.mem_cons_self r rs)
    have hrs : ∀ x ∈ rs, x.1 < 8 := fun x hx => hreq x (List.mem_cons_of_mem r hx)
    have h1 : (toggle st r).analoginAutosendChannels < 65536 := by
      rw [toggle_eq]; exact handler_one_lt _ _ _ _ _
    have h2 : (toggle st r).analoginAutosendChannels / 256 = 223 := by
      rw [toggle_eq, handler_one_high _ _ _ _ _ hlt hr]; exact hhi
    have h3 : (toggle st r).eeprom = (toggle st r).analoginAutosendChannels := by
      rw [toggle_eq]; exact (handler_one_channels _ _ _ _ _).2.1
    obtain ⟨e1, e2, e3⟩ := ih hrs (toggle st r) h1 h2
    rw [List.foldl_cons]
    exact ⟨e1, e2, fun _ => e3 (Or.inl h3)⟩

theorem init_inv (st : State) :
    (analoginAutoSendInit st).analoginAutosendChannels < 65536
    ∧ (analoginAutoSendInit st).analoginAutosendChannels / 256 = 223 := by
  rw [init_channels]
  split
  · rename_i h
    exact ⟨Nat.mod_lt _ (by decide), h⟩
  · exact ⟨by decide, by decide⟩

theorem init_of_saved (st : State) (c : Nat) (he : st.eeprom = c) (hlt : c < 65536)
    (hhi : c / 256 = 223) : (analoginAutoSendInit st).analoginAutosendChannels = c := by
  rw [init_channels, he, Nat.mod_eq_of_lt hlt, if_pos hhi]

end Analogin

/-! ## Lemmas on the stepper callback -/

namespace Stepper

theorem irq_position (s : StepperControl) :
    (Stepper_IRQCallback s).position
      = if s.position < s.positionRequested then s.position + 1
        else if s.position > s.positionRequested then s.position - 1 else s.position := by
  unfold Stepper_IRQCallback
  by_cases h1 : s.position < s.positionRequested
  · have h2 : ¬ (s.position + 1 > s.positionRequested) := by omega
    simp only [h1, if_true, h2, if_false]
    split <;> rfl
  · by_cases h2 : s.position > s.positionRequested
    · simp only [h1, if_false, h2, if_true]
      split <;> rfl
    · simp only [h1, if_false, h2]
      split <;> rfl

theorem irq_positionRequested (s : StepperControl) :
    (Stepper_IRQCallback s).positionRequested = s.positionRequested := by
  unfold Stepper_IRQCallback
  simp only
  split <;> split <;> split <;> rfl

theorem irq_timerRunning (s : StepperControl) :
    (Stepper_IRQCallback s).timerRunning
      = if (Stepper_IRQCallback s).position = s.positionRequested then false
        else s.timerRunning := by
  have hp := irq_position s
  unfold Stepper_IRQCallback at hp ⊢
  by_cases h1 : s.position < s.positionRequested
  · have h2 : ¬ (s.position + 1 > s.positionRequested) := by omega
    simp only [h1, if_true, h2, if_false] at hp ⊢
    by_cases h3 : s.position + 1 = s.positionRequested
    · simp [h3]
    · simp [h3]
  · by_cases h2 : s.position > s.positionRequested
    · simp only [h1, if_false, h2, if_true] at hp ⊢
      by_cases h3 : s.position - 1 = s.positionRequested
      · simp [h3]
      · simp [h3]
    · simp only [h1, if_false, h2] at hp ⊢
      by_cases h3 : s.position = s.positionRequested
      · simp [h3]
      · simp [h3]

theorem callbacks_positionRequested (n : Nat) (s : StepperControl) :
    (callbacks n s).positionRequested = s.positionRequested := by
  induction n generalizing s with
  | zero => rfl
  | succ n ih => rw [callbacks, ih, irq_positionRequested]

theorem callbacks_converge (n : Nat) (s : StepperControl)
    (h : (s.positionRequested - s.position).natAbs = n) :
    (callbacks n s).position = s.positionRequested
    ∧ (1 ≤ n ∨ s.timerRunning = false → (callbacks n s).timerRunning = false) := by
  induction n generalizing s with
  | zero =>
    have heq : s.position = s.positionRequested := by omega
    refine ⟨heq, ?_⟩
    intro h0
    rcases h0 with h0 | h0
    · omega
    · exact h0
  | succ n ih =>
    have hp := irq_position s
    have hr := irq_positionRequested s
    have ht := irq_timerRunning s
    have hne : s.position ≠ s.positionRequested := by omega
    have hdist : ((Stepper_IRQCallback s).positionRequested
        - (Stepper_IRQCallback s).position).natAbs = n := by
      rw [hr, hp]
      split
      · omega
      · split <;> omega
    obtain ⟨e1, e2⟩ := ih (Stepper_IRQCallback s) hdist
    rw [callbacks]
    refine ⟨by rw [e1, hr], ?_⟩
    intro _
    apply e2
    by_cases hn : 1 ≤ n
    · exact Or.inl hn
    · right
      have hn0 : n = 0 := by omega
      have hreach : (Stepper_IRQCallback s).position = s.positionRequested := by
        rw [hn0, hr] at hdist
        omega
      rw [ht, if_pos hreach]

theorem setDetails_fields (s : StepperControl) :
    (Stepper_SetDetails s).position = s.position
    ∧ (Stepper_SetDetails s).positionRequested = s.positionRequested
    ∧ (s.position = s.positionRequested → (Stepper_SetDetails s).timerRunning = false) := by
  unfold Stepper_SetDetails
  refine ⟨?_, ?_, ?_⟩
  · split
    · rfl
    · split <;> rfl
  · split
    · rfl
    · split <;> rfl
  · intro heq
    cases ht : s.timerRunning <;> simp [heq, ht]

end Stepper

/-! ## Termination of the packet decoder -/

theorem Qt.readByteArray_length (s : Qt.RStream) :
    (s.readByteArray).1 = []
      ∨ (s.readByteArray).1.length + (s.readByteArray).2.rest.length + 4 = s.rest.length := by
  unfold Qt.RStream.readByteArray Qt.RStream.readUInt32
  match hs : s.rest with
  | [] => left; simp
  | [_] => left; simp
  | [_, _] => left; simp
  | [_, _, _] => left; simp
  | b0 :: b1 :: b2 :: b3 :: rest =>
    simp only
    by_cases h1 : Qt.fromBe32 b0 b1 b2 b3 = 4294967295
    · left; simp [h1]
    · by_cases h2 : rest.length < Qt.fromBe32 b0 b1 b2 b3
      · left; simp [h1, h2]
      · right
        simp only [h1, h2, if_false, List.length_take, List.length_drop, List.length_cons]
        omega

theorem Qt.startsWith_ne_nil (ba pre : QByteArray) (hpre : pre ≠ [])
    (h : Qt.startsWith ba pre = true) : ba ≠ [] := by
  intro hba
  subst hba
  cases pre with
  | nil => exact hpre rfl
  | cons c cs => simp [Qt.startsWith, List.isPrefixOf] at h

theorem Osc.fuel_sufficient (fuel : Nat) :
    (∀ pkt : QByteArray, pkt.length < fuel → ∃ r, Osc.receivePacketFuel fuel pkt = some r)
    ∧ (∀ s : Qt.RStream, s.rest.length < fuel → ∃ r, Osc.receiveBundleLoop fuel s = some r) := by
  induction fuel with
  | zero => exact ⟨fun _ h => absurd h (Nat.not_lt_zero _), fun _ h => absurd h (Nat.not_lt_zero _)⟩
  | succ f ih =>
    obtain ⟨ihp, ihl⟩ := ih
    constructor
    · intro pkt hlen
      rw [Osc.receivePacketFuel]
      by_cases h1 : Qt.startsWith pkt [47] = true
      · simp [h1]
      · by_cases h2 : Qt.startsWith pkt Osc.bundleTag = true
        · have hne := Qt.startsWith_ne_nil pkt Osc.bundleTag (by decide) h2
          have hpos : 0 < pkt.length := List.length_pos.mpr hne
          have hs : ((Qt.RStream.openOn pkt).skipRawData 16).rest.length < f := by
            simp only [Qt.RStream.openOn, Qt.RStream.skipRawData, List.length_drop]
            omega
          obtain ⟨r, hr⟩ := ihl _ hs
          exact ⟨r, by simp [h1, h2, hr]⟩
        · simp only [h1, h2]
          exact ⟨_, rfl⟩
    · intro s hlen
      rw [Osc.receiveBundleLoop]
      by_cases hc : (!s.atEnd && s.ok) = true
      · simp only [hc, if_true]
        by_cases hbad : (decide ((s.readByteArray).1.length > 16384)
            || decide ((s.readByteArray).1.length ≤ 0)) = true
        · simp only [hbad, if_true]
          exact ⟨_, rfl⟩
        · simp only [hbad]
          have hnil : (s.readByteArray).1 ≠ [] := by
            intro e
            apply hbad
            simp [e]
          rcases Qt.readByteArray_length s with h0 | h0
          · exact absurd h0 hnil
          · have hl1 : (s.readByteArray).1.length < f := by omega
            have hl2 : (s.readByteArray).2.rest.length < f := by omega
            obtain ⟨inner, hinner⟩ := ihp _ hl1
            obtain ⟨later, hlater⟩ := ihl _ hl2
            simp only [hinner, hlater]
            by_cases hok : inner.ok = true
            · simp only [hok, Bool.not_true]
              exact ⟨_, rfl⟩
            · have hok2 : inner.ok = false := by simpa using hok
              simp only [hok2, Bool.not_false, if_true]
              exact ⟨_, rfl⟩
      · simp only [hc]
        exact ⟨_, rfl⟩

theorem Osc.nestBundle_length (n : Nat) (b : QByteArray) :
    (Osc.nestBundle n b).length = b.length + 20 * n := by
  induction n with
  | zero => simp [Osc.nestBundle]
  | succ n ih =>
    have hh := Osc.bundleHeader_length
    simp only [Osc.nestBundle, List.length_append, Qt.be32_length, ih] at hh ⊢
    omega

theorem Osc.receivePacketFuel_nestBundle (m : OscMessage) (hm : m.constructible) (n : Nat)
    (hsize : m.toByteArray.length + 20 * n ≤ 16384) (fuel : Nat) (hfuel : 2 * n + 1 ≤ fuel) :
    Osc.receivePacketFuel fuel (Osc.nestBundle n m.toByteArray) = some ⟨true, [m], true⟩ := by
  induction n generalizing fuel with
  | zero =>
    obtain ⟨f, rfl⟩ : ∃ f, fuel = f + 1 := ⟨fuel - 1, by omega⟩
    exact Osc.receivePacketFuel_toByteArray m hm f
  | succ n ih =>
    obtain ⟨f, rfl⟩ : ∃ f, fuel = f + 3 := ⟨fuel - 3, by omega⟩
    have hlen := Osc.nestBundle_length n m.toByteArray
    have hpos := OscMessage.toByteArray_length_pos m
    have hinner := ih (by omega) (f + 1) (by omega)
    have hhead : Osc.writePaddedString Osc.bundleTag ++ Osc.writeTimetag 0 0
        = [35, 98, 117, 110, 100, 108, 101, 0, 0, 0, 0, 0, 0, 0, 0, 0] := by decide
    have hread : Qt.RStream.readByteArray
          ⟨Qt.be32 (Osc.nestBundle n m.toByteArray).length ++ Osc.nestBundle n m.toByteArray,
            true⟩
        = (Osc.nestBundle n m.toByteArray, ⟨[], true⟩) := by
      have h := Qt.readByteArray_be32 (Osc.nestBundle n m.toByteArray) [] true (by omega)
      rw [Osc.be32_mod, List.append_nil] at h
      exact h
    have hne : (Qt.RStream.mk
          (Qt.be32 (Osc.nestBundle n m.toByteArray).length ++ Osc.nestBundle n m.toByteArray)
          true).atEnd = false := by
      simp [Qt.RStream.atEnd, Qt.be32]
    rw [Osc.nestBundle, hhead, Osc.receivePacketFuel]
    have hskip : (Qt.RStream.openOn
          ([35, 98, 117, 110, 100, 108, 101, 0, 0, 0, 0, 0, 0, 0, 0, 0]
            ++ (Qt.be32 (Osc.nestBundle n m.toByteArray).length
              ++ Osc.nestBundle n m.toByteArray))).skipRawData 16
        = ⟨Qt.be32 (Osc.nestBundle n m.toByteArray).length ++ Osc.nestBundle n m.toByteArray,
            true⟩ := by
      simp [Qt.RStream.openOn, Qt.RStream.skipRawData]
    have hloop : Osc.receiveBundleLoop (f + 2)
          ⟨Qt.be32 (Osc.nestBundle n m.toByteArray).length ++ Osc.nestBundle n m.toByteArray,
            true⟩
        = some ⟨true, [m], true⟩ := by
      rw [Osc.receiveBundleLoop]
      simp only [hne, hread, hinner]
      have h1 : ¬ (16384 < (Osc.nestBundle n m.toByteArray).length) := by omega
      have h2 : ¬ ((Osc.nestBundle n m.toByteArray).length = 0) := by omega
      have hend : Osc.receiveBundleLoop (f + 1) ⟨[], true⟩ = some ⟨true, [], true⟩ := by
        rw [Osc.receiveBundleLoop]; simp [Qt.RStream.atEnd]
      simp [h1, h2, hend]
    simp only [hskip, hloop]
    simp [Qt.startsWith, Osc.bundleTag]

/-! ## Lemmas on the JSON encoder -/

namespace Json

theorem call_string (s : Session) (str sep : List Nat) (hnull : s.gotNull = false)
    (hin : inArray s.state.depth = true)
    (hsep : separator false false (s.state.steps s.state.depth.toNat) = some sep)
    (hrem : (str.length : Int) + 2 + sep.length ≤ s.remaining) :
    (s.call (Call.String str)).state = (JsonEncode_AppendedAtom s.state).1
    ∧ (s.call (Call.String str)).buf = s.buf ++ (sep ++ [34] ++ str ++ [34])
    ∧ (s.call (Call.String str)).remaining = s.remaining - ((str.length : Int) + 2 + sep.length)
    ∧ (s.call (Call.String str)).gotNull = false
    ∧ (s.call (Call.String str)).inBounds
        = (s.inBounds && (JsonEncode_AppendedAtom s.state).2) := by
  have hlt : ¬ s.remaining < (str.length : Int) + 2 + sep.length := by omega
  have htake : (sep ++ [34] ++ str ++ [34]).take ((str.length : Int) + 2 + sep.length).toNat
      = sep ++ [34] ++ str ++ [34] := by
    apply List.take_of_length_le
    simp only [List.length_append, List.length_cons, List.length_nil]
    omega
  simp only [Session.call, hnull, Call.apply, JsonEncode_String, hin, hsep, hlt, htake]
  simp

theorem appendedAtom_at (state : JsonEncode_State) (hin : inArray state.depth = true) :
    (JsonEncode_AppendedAtom state).2 = true
    ∧ (JsonEncode_AppendedAtom state).1.depth = state.depth
    ∧ (∀ j, j ≠ state.depth.toNat →
        (JsonEncode_AppendedAtom state).1.steps j = state.steps j)
    ∧ (state.steps state.depth.toNat = JsonEncode_Step.JSON_OBJ_START
        ∨ state.steps state.depth.toNat = JsonEncode_Step.JSON_OBJ_KEY →
        (JsonEncode_AppendedAtom state).1.steps state.depth.toNat
          = JsonEncode_Step.JSON_OBJ_VALUE)
    ∧ (state.steps state.depth.toNat = JsonEncode_Step.JSON_OBJ_VALUE →
        (JsonEncode_AppendedAtom state).1.steps state.depth.toNat
          = JsonEncode_Step.JSON_OBJ_KEY)
    ∧ (state.steps state.depth.toNat = JsonEncode_Step.JSON_START →
        (JsonEncode_AppendedAtom state).1.steps state.depth.toNat
          = JsonEncode_Step.JSON_START) := by
  unfold JsonEncode_AppendedAtom
  simp only [hin, if_true]
  cases hstep : state.steps state.depth.toNat <;>
    simp [setStep, hstep] <;>
    intro j hj <;>
    exact Function.update_noteq hj _ _

theorem call_pair (s : Session) (kv : List Nat × List Nat) (step : JsonEncode_Step)
    (sep : List Nat)
    (hstep : (step = JsonEncode_Step.JSON_OBJ_START ∧ sep = [])
      ∨ (step = JsonEncode_Step.JSON_OBJ_KEY ∧ sep = [44]))
    (hat : atMember s.state step) (hnull : s.gotNull = false) (hb : s.inBounds = true)
    (hrem : ((sep ++ renderPair kv).length : Int) ≤ s.remaining) :
    atMember ((s.call (Call.String kv.1)).call (Call.String kv.2)).state
        JsonEncode_Step.JSON_OBJ_KEY
    ∧ ((s.call (Call.String kv.1)).call (Call.String kv.2)).buf
        = s.buf ++ (sep ++ renderPair kv)
    ∧ ((s.call (Call.String kv.1)).call (Call.String kv.2)).remaining
        = s.remaining - ((sep ++ renderPair kv).length : Int)
    ∧ ((s.call (Call.String kv.1)).call (Call.String kv.2)).gotNull = false
    ∧ ((s.call (Call.String kv.1)).call (Call.String kv.2)).inBounds = true := by
  obtain ⟨hd, hs1, hs0⟩ := hat
  have hin : inArray s.state.depth = true := by rw [hd]; decide
  have hidx : s.state.depth.toNat = 1 := by rw [hd]; rfl
  have hlen : ((sep ++ renderPair kv).length : Int)
      = sep.length + (kv.1.length + kv.2.length + 5) := by
    simp only [renderPair, List.length_append, List.length_cons, List.length_nil]
    push_cast
    omega
  have hsep1 : separator false false (s.state.steps s.state.depth.toNat) = some sep := by
    rw [hidx, hs1]
    rcases hstep with ⟨h1, h2⟩ | ⟨h1, h2⟩ <;> subst h1 <;> subst h2 <;> rfl
  obtain ⟨a1, a2, a3, a4, a5⟩ := call_string s kv.1 sep hnull hin hsep1 (by omega)
  obtain ⟨b1, b2, b3, b4, b5, _⟩ := appendedAtom_at s.state hin
  have hval : (s.call (Call.String kv.1)).state.steps 1 = JsonEncode_Step.JSON_OBJ_VALUE := by
    rw [a1]
    have := b4 (by
      rw [hidx, hs1]
      rcases hstep with ⟨h1, _⟩ | ⟨h1, _⟩
      · exact Or.inl h1
      · exact Or.inr h1)
    rw [hidx] at this
    exact this
  have hd1 : (s.call (Call.String kv.1)).state.depth = 1 := by rw [a1, b2, hd]
  have hin1 : inArray (s.call (Call.String kv.1)).state.depth = true := by rw [hd1]; decide
  have hidx1 : (s.call (Call.String kv.1)).state.depth.toNat = 1 := by rw [hd1]; rfl
  have hsep2 : separator false false
      ((s.call (Call.String kv.1)).state.steps (s.call (Call.String kv.1)).state.depth.toNat)
      = some [58] := by
    rw [hidx1, hval]; rfl
  obtain ⟨c1, c2, c3, c4, c5⟩ := call_string (s.call (Call.String kv.1)) kv.2 [58] a4 hin1
    hsep2 (by rw [a3]; simp only [List.length_cons, List.length_nil]; omega)
  obtain ⟨e1, e2, e3, _, e5, _⟩ := appendedAtom_at (s.call (Call.String kv.1)).state hin1
  refine ⟨⟨?_, ?_, ?_⟩, ?_, ?_, c4, ?_⟩
  · rw [c1, e2, hd1]
  · rw [c1]
    have := e5 (by rw [hidx1, hval])
    rw [hidx1] at this
    exact this
  · rw [c1, e3 0 (by rw [hidx1]; decide), a1, b3 0 (by rw [hidx]; decide), hs0]
  · rw [c2, a2]
    simp [renderPair]
  · rw [c3, a3, hlen]
    simp only [List.length_cons, List.length_nil]
    push_cast
    omega
  · rw [c5, a5, hb, b1, e1]
    rfl

theorem foldl_pairCalls (pairs : List (List Nat × List Nat)) (hne : pairs ≠ []) (s : Session)
    (step : JsonEncode_Step) (sep : List Nat)
    (hstep : (step = JsonEncode_Step.JSON_OBJ_START ∧ sep = [])
      ∨ (step = JsonEncode_Step.JSON_OBJ_KEY ∧ sep = [44]))
    (hat : atMember s.state step) (hnull : s.gotNull = false) (hb : s.inBounds = true)
    (hrem : ((sep ++ renderPairs pairs).length : Int) ≤ s.remaining) :
    atMember ((pairCalls pairs).foldl Session.call s).state JsonEncode_Step.JSON_OBJ_KEY
    ∧ ((pairCalls pairs).foldl Session.call s).buf = s.buf ++ (sep ++ renderPairs pairs)
    ∧ ((pairCalls pairs).foldl Session.call s).remaining
        = s.remaining - ((sep ++ renderPairs pairs).length : Int)
    ∧ ((pairCalls pairs).foldl Session.call s).gotNull = false
    ∧ ((pairCalls pairs).foldl Session.call s).inBounds = true := by
  induction pairs generalizing s step sep with
  | nil => exact absurd rfl hne
  | cons kv rest ih =>
    cases rest with
    | nil =>
      simp only [pairCalls, List.foldl_cons, List.foldl_nil, renderPairs] at hrem ⊢
      exact call_pair s kv step sep hstep hat hnull hb hrem
    | cons kv2 rest2 =>
      have hr : renderPairs (kv :: kv2 :: rest2)
          = renderPair kv ++ [44] ++ renderPairs (kv2 :: rest2) := rfl
      rw [hr] at hrem ⊢
      have hrem1 : ((sep ++ renderPair kv).length : Int) ≤ s.remaining := by
        simp only [List.length_append, List.length_cons, List.length_nil] at hrem ⊢
        push_cast at hrem ⊢
        omega
      obtain ⟨p1, p2, p3, p4, p5⟩ := call_pair s kv step sep hstep hat hnull hb hrem1
      have hrem2 : ((([44] : List Nat) ++ renderPairs (kv2 :: rest2)).length : Int)
          ≤ ((s.call (Call.String kv.1)).call (Call.String kv.2)).remaining := by
        rw [p3]
        simp only [List.length_append, List.length_cons, List.length_nil] at hrem ⊢
        push_cast at hrem ⊢
        omega
      obtain ⟨q1, q2, q3, q4, q5⟩ := ih (by simp)
        ((s.call (Call.String kv.1)).call (Call.String kv.2)) JsonEncode_Step.JSON_OBJ_KEY [44]
        (Or.inr ⟨rfl, rfl⟩) p1 p4 p5 hrem2
      have hfold : (pairCalls (kv :: kv2 :: rest2)).foldl Session.call s
          = (pairCalls (kv2 :: rest2)).foldl Session.call
              ((s.call (Call.String kv.1)).call (Call.String kv.2)) := rfl
      rw [hfold]
      refine ⟨q1, ?_, ?_, q4, q5⟩
      · rw [q2, p2]; simp
      · rw [q3, p3]
        simp only [List.length_append, List.length_cons, List.length_nil]
        push_cast
        omega

end Json

namespace Json

theorem start_objectOpen (state : JsonEncode_State) (remaining : Int) (hrem : 1 ≤ remaining) :
    atMember ((Session.start state remaining).call Call.ObjectOpen).state
        JsonEncode_Step.JSON_OBJ_START
    ∧ ((Session.start state remaining).call Call.ObjectOpen).buf = [123]
    ∧ ((Session.start state remaining).call Call.ObjectOpen).remaining = remaining - 1
    ∧ ((Session.start state remaining).call Call.ObjectOpen).gotNull = false
    ∧ ((Session.start state remaining).call Call.ObjectOpen).inBounds = true := by
  have hlt : ¬ remaining < 1 := by omega
  have h0 : inArray 0 = true := by decide
  have h1 : inArray (0 + 1) = true := by decide
  have h2 : ¬ ((0 : Int) + 1 > JSON_MAX_DEPTH) := by decide
  have hcall : (Session.start state remaining).call Call.ObjectOpen
      = ⟨setStep ⟨Function.update state.steps 0 JsonEncode_Step.JSON_START, 0 + 1⟩
          JsonEncode_Step.JSON_OBJ_START, [123], remaining - 1, false, true⟩ := by
    simp only [Session.start, Session.call, Call.apply, JsonEncode_ObjectOpen, encodeOpen,
      JsonEncode_Init, h0, if_true, Int.toNat_zero, Function.update_same, separator,
      List.length_nil, Nat.cast_zero, Int.add_zero, hlt, if_false, h2, h1]
    simp
  rw [hcall]
  refine ⟨⟨rfl, ?_, ?_⟩, rfl, rfl, rfl, rfl⟩
  · simp [setStep]
  · simp [setStep]

theorem call_objectClose (s : Session) (hat : atMember s.state JsonEncode_Step.JSON_OBJ_KEY)
    (hnull : s.gotNull = false) (hb : s.inBounds = true) (hrem : 1 ≤ s.remaining) :
    (s.call Call.ObjectClose).buf = s.buf ++ [125]
    ∧ (s.call Call.ObjectClose).remaining = s.remaining - 1
    ∧ (s.call Call.ObjectClose).gotNull = false
    ∧ (s.call Call.ObjectClose).inBounds = true
    ∧ (s.call Call.ObjectClose).state.depth = 0 := by
  obtain ⟨hd, _, hs0⟩ := hat
  have hlt : ¬ s.remaining < 1 := by omega
  have hin : inArray (JsonEncode_State.mk s.state.steps 0).depth = true := by
    show inArray 0 = true
    decide
  obtain ⟨b1, b2, _, _, _, _⟩ := appendedAtom_at ⟨s.state.steps, 0⟩ hin
  have hcall : s.call Call.ObjectClose
      = ⟨(JsonEncode_AppendedAtom ⟨s.state.steps, 0⟩).1, s.buf ++ [125], s.remaining - 1, false,
          s.inBounds && (JsonEncode_AppendedAtom ⟨s.state.steps, 0⟩).2⟩ := by
    simp only [Session.call, hnull, Call.apply, JsonEncode_ObjectClose, encodeClose, hlt, hd]
    simp
  rw [hcall]
  refine ⟨rfl, rfl, rfl, ?_, ?_⟩
  · simp [hb, b1]
  · simp [b2]

end Json

/-! ## Lemmas on the JSON decoder -/

namespace Json

theorem fire_true {cbs : Callbacks} (hcb : ∀ e, cbs.invoke e ≠ some false) (e : Event)
    (now after : JsonDecode_State) (ev : List Event) :
    fire cbs e now after ev = Iteration.next after (ev ++ emitted cbs [e]) := by
  unfold fire emitted
  cases h : cbs.invoke e with
  | none => simp [h]
  | some b =>
    cases b with
    | false => exact absurd h (hcb e)
    | true => simp [h]

theorem emitted_append (cbs : Callbacks) (a b : List Event) :
    emitted cbs (a ++ b) = emitted cbs a ++ emitted cbs b := by
  simp [emitted]

theorem Reaches.refl (cbs : Callbacks) (st : JsonDecode_State) (ev : List Event) :
    Reaches cbs st ev st ev := fun fuel h => ⟨fuel, h, rfl⟩

theorem Reaches.trans {cbs : Callbacks} {a b c : JsonDecode_State} {ea eb ec : List Event}
    (h1 : Reaches cbs a ea b eb) (h2 : Reaches cbs b eb c ec) : Reaches cbs a ea c ec := by
  intro fuel hf
  obtain ⟨f1, hf1, e1⟩ := h1 fuel hf
  obtain ⟨f2, hf2, e2⟩ := h2 f1 hf1
  exact ⟨f2, hf2, e1.trans e2⟩

theorem reaches_step {cbs : Callbacks} {st st1 : JsonDecode_State} {ev ev1 : List Event}
    (hlen : st.len ≠ 0) (hstep : decodeStep cbs st ev = Iteration.next st1 ev1)
    (hshort : (st1.p.getD []).length < (st.p.getD []).length) : Reaches cbs st ev st1 ev1 := by
  intro fuel hf
  cases fuel with
  | zero => omega
  | succ f =>
    refine ⟨f, by omega, ?_⟩
    simp [decodeLoop, hlen, hstep]

theorem reaches_comma (cbs : Callbacks) (steps : Nat → JsonDecode_Step) (d : Int) (g : Bool)
    (t : List Nat) (ev : List Event) (L : Int) (hL : L = ((44 :: t).length : Int)) :
    Reaches cbs ⟨steps, d, g, some (44 :: t), L⟩ ev ⟨steps, d, true, some t, (t.length : Int)⟩ ev := by
  apply reaches_step
  · simp [hL]; omega
  · simp [decodeStep, JsonDecode_GetToken, hL]
  · simp

theorem reaches_colon (cbs : Callbacks) (steps : Nat → JsonDecode_Step) (d : Int) (g : Bool)
    (t : List Nat) (ev : List Event) (L : Int) (hL : L = ((58 :: t).length : Int)) :
    Reaches cbs ⟨steps, d, g, some (58 :: t), L⟩ ev ⟨steps, d, g, some t, (t.length : Int)⟩ ev := by
  apply reaches_step
  · simp [hL]; omega
  · simp [decodeStep, JsonDecode_GetToken, hL]
  · simp

end Json

namespace Json

theorem inSteps_natCast (k : Nat) (hk : k < 32) : inSteps (k : Int) = true := by
  simp [inSteps, JSON_MAX_DEPTH]; omega

theorem reaches_arrayOpen {cbs : Callbacks} (hcb : ∀ e, cbs.invoke e ≠ some false)
    (steps : Nat → JsonDecode_Step) (k : Nat) (hk : k + 1 < 32) (g : Bool)
    (t : List Nat) (ev : List Event) (L : Int) (hL : L = ((91 :: t).length : Int)) :
    Reaches cbs ⟨steps, (k : Int), g, some (91 :: t), L⟩ ev
      ⟨Function.update steps (k + 1) JsonDecode_Step.JSON_DECODE_IN_ARRAY, ((k + 1 : Nat) : Int),
        g, some t, (t.length : Int)⟩ (ev ++ emitted cbs [Event.startArray]) := by
  have h1 : inSteps ((k : Int) + 1) = true := by
    have := inSteps_natCast (k + 1) hk
    simpa using this
  have h2 : ((k : Int) + 1).toNat = k + 1 := by omega
  apply reaches_step
  · simp [hL]; omega
  · simp [decodeStep, JsonDecode_GetToken, hL, h1, h2, fire_true hcb]
  · simp

theorem reaches_objectOpen {cbs : Callbacks} (hcb : ∀ e, cbs.invoke e ≠ some false)
    (steps : Nat → JsonDecode_Step) (k : Nat) (hk : k + 1 < 32) (g : Bool)
    (t : List Nat) (ev : List Event) (L : Int) (hL : L = ((123 :: t).length : Int)) :
    Reaches cbs ⟨steps, (k : Int), g, some (123 :: t), L⟩ ev
      ⟨Function.update steps (k + 1) JsonDecode_Step.JSON_DECODE_OBJECT_START,
        ((k + 1 : Nat) : Int), g, some t, (t.length : Int)⟩
      (ev ++ emitted cbs [Event.startObj]) := by
  have h1 : inSteps ((k : Int) + 1) = true := by
    have := inSteps_natCast (k + 1) hk
    simpa using this
  have h2 : ((k : Int) + 1).toNat = k + 1 := by omega
  apply reaches_step
  · simp [hL]; omega
  · simp [decodeStep, JsonDecode_GetToken, hL, h1, h2, fire_true hcb]
  · simp

theorem reaches_arrayClose {cbs : Callbacks} (hcb : ∀ e, cbs.invoke e ≠ some false)
    (steps : Nat → JsonDecode_Step) (k : Nat) (g : Bool)
    (t : List Nat) (ev : List Event) (L : Int) (hL : L = ((93 :: t).length : Int)) :
    Reaches cbs ⟨steps, ((k + 1 : Nat) : Int), g, some (93 :: t), L⟩ ev
      ⟨steps, (k : Int), g, some t, (t.length : Int)⟩ (ev ++ emitted cbs [Event.endArray]) := by
  apply reaches_step
  · simp [hL]; omega
  · simp [decodeStep, JsonDecode_GetToken, hL, fire_true hcb]
  · simp

theorem reaches_objectClose {cbs : Callbacks} (hcb : ∀ e, cbs.invoke e ≠ some false)
    (steps : Nat → JsonDecode_Step) (k : Nat) (g : Bool)
    (t : List Nat) (ev : List Event) (L : Int) (hL : L = ((125 :: t).length : Int)) :
    Reaches cbs ⟨steps, ((k + 1 : Nat) : Int), g, some (125 :: t), L⟩ ev
      ⟨steps, (k : Int), g, some t, (t.length : Int)⟩ (ev ++ emitted cbs [Event.endObj]) := by
  apply reaches_step
  · simp [hL]; omega
  · simp [decodeStep, JsonDecode_GetToken, hL, fire_true hcb]
  · simp

theorem reaches_true {cbs : Callbacks} (hcb : ∀ e, cbs.invoke e ≠ some false)
    (steps : Nat → JsonDecode_Step) (d : Int) (g : Bool)
    (t : List Nat) (ev : List Event) (L : Int)
    (hL : L = (([116, 114, 117, 101] ++ t).length : Int)) :
    Reaches cbs ⟨steps, d, g, some ([116, 114, 117, 101] ++ t), L⟩ ev
      ⟨steps, d, g, some t, (t.length : Int)⟩ (ev ++ emitted cbs [Event.bool true]) := by
  have hL1 : L = (t.length : Int) + 4 := by
    rw [hL, List.length_append]
    push_cast
    simp
    omega
  have h4 : ¬ ((t.length : Int) + 4 < 4) := by omega
  have h0 : ((t.length : Int) + 4 - 4) = t.length := by omega
  apply reaches_step
  · simp only [hL1]; omega
  · simp [decodeStep, JsonDecode_GetToken, hL1, fire_true hcb, h4, h0]
  · simp only [Option.getD_some, List.length_append, List.length_cons, List.length_nil]
    omega

theorem reaches_false {cbs : Callbacks} (hcb : ∀ e, cbs.invoke e ≠ some false)
    (steps : Nat → JsonDecode_Step) (d : Int) (g : Bool)
    (t : List Nat) (ev : List Event) (L : Int)
    (hL : L = (([102, 97, 108, 115, 101] ++ t).length : Int)) :
    Reaches cbs ⟨steps, d, g, some ([102, 97, 108, 115, 101] ++ t), L⟩ ev
      ⟨steps, d, g, some t, (t.length : Int)⟩ (ev ++ emitted cbs [Event.bool false]) := by
  have hL1 : L = (t.length : Int) + 5 := by
    rw [hL, List.length_append]
    push_cast
    simp
    omega
  have h4 : ¬ ((t.length : Int) + 5 < 5) := by omega
  have h0 : ((t.length : Int) + 5 - 5) = t.length := by omega
  apply reaches_step
  · simp only [hL1]; omega
  · simp [decodeStep, JsonDecode_GetToken, hL1, fire_true hcb, h4, h0]
  · simp only [Option.getD_some, List.length_append, List.length_cons, List.length_nil]
    omega

theorem scanString_plain (s rest : List Nat) (hs : plainString s = true) :
    scanString (s ++ 34 :: rest) = some (s, rest) := by
  induction s with
  | nil => simp [scanString]
  | cons c cs ih =>
    simp only [plainString, List.all_cons, Bool.and_eq_true, bne_iff_ne, ne_eq] at hs
    have hcs : plainString cs = true := by
      simp only [plainString, List.all_eq_true, Bool.and_eq_true, bne_iff_ne, ne_eq]
      simpa using hs.2
    simp [scanString, hs.1.1, ih hcs]

theorem natDigits_spec (fuel : Nat) : ∀ (n : Nat) (acc : List Nat), 0 < fuel → n < 10 ^ fuel →
    ∃ ds, natDigits fuel n acc = ds ++ acc ∧ ds ≠ [] ∧ (∀ c ∈ ds, 48 ≤ c ∧ c ≤ 57) ∧
      ds.foldl (fun a c => a * 10 + (c - 48)) 0 = n := by
  induction fuel with
  | zero => intro n acc h; omega
  | succ f ih =>
    intro n acc _ hn
    unfold natDigits
    by_cases h0 : n / 10 = 0
    · rw [if_pos h0]
      refine ⟨[48 + n % 10], rfl, by simp, ?_, ?_⟩
      · intro c hc
        simp at hc
        omega
      · simp
        omega
    · rw [if_neg h0]
      have hf : 0 < f := by
        rcases Nat.eq_zero_or_pos f with h | h
        · subst h
          simp at hn
          omega
        · exact h
      have hn10 : n / 10 < 10 ^ f := by
        rw [pow_succ] at hn
        omega
      obtain ⟨ds, hds, _, hdig, hval⟩ := ih (n / 10) ((48 + n % 10) :: acc) hf hn10
      refine ⟨ds ++ [48 + n % 10], by rw [hds]; simp, by simp, ?_, ?_⟩
      · intro c hc
        rcases List.mem_append.1 hc with h | h
        · exact hdig c h
        · simp at h
          omega
      · rw [List.foldl_append, hval]
        simp
        omega

theorem scanNumber_digits (ds rest : List Nat) (g : Bool) (hdig : ∀ c ∈ ds, 48 ≤ c ∧ c ≤ 57)
    (hrest : stopsNumber rest) : scanNumber (ds ++ rest) g = some (ds.length, g) := by
  induction ds with
  | nil =>
    cases rest with
    | nil => simp [scanNumber]
    | cons c cs =>
      have h := hrest c (by simp)
      simp [scanNumber, h.2, h.1]
  | cons c cs ih =>
    have hc := hdig c (by simp)
    have h46 : c ≠ 46 := by omega
    have ih1 := ih (fun x hx => hdig x (by simp [hx]))
    simp [scanNumber, h46, hc.1, hc.2, ih1]

theorem takeWhile_digits (ds rest : List Nat) (hdig : ∀ c ∈ ds, 48 ≤ c ∧ c ≤ 57)
    (hrest : stopsNumber rest) :
    (ds ++ rest).takeWhile (fun c => decide (48 ≤ c ∧ c ≤ 57)) = ds := by
  induction ds with
  | nil =>
    cases rest with
    | nil => simp
    | cons c cs =>
      have h := hrest c (by simp)
      simp [List.takeWhile_cons, h.1]
  | cons c cs ih =>
    have hc := hdig c (by simp)
    have ih1 := ih (fun x hx => hdig x (by simp [hx]))
    rw [List.cons_append, List.takeWhile_cons, if_pos (by simpa using hc), ih1]

theorem atoi_digits (ds rest : List Nat) (n : Nat) (hdig : ∀ c ∈ ds, 48 ≤ c ∧ c ≤ 57)
    (hrest : stopsNumber rest) (hval : ds.foldl (fun a c => a * 10 + (c - 48)) 0 = n)
    (hn : n < 2147483648) : atoi (ds ++ rest) = (n : Int) := by
  unfold atoi
  simp only [takeWhile_digits ds rest hdig hrest, hval]
  have h1 : n % 4294967296 = n := Nat.mod_eq_of_lt (by omega)
  rw [h1, if_pos hn]

theorem GetToken_digit (c : Nat) (t : List Nat) (len : Int) (hc : 48 ≤ c ∧ c ≤ 57) :
    JsonDecode_GetToken (c :: t) len = JsonDecode_Token.token_number := by
  unfold JsonDecode_GetToken
  simp only []
  rw [if_neg (by omega), if_neg (by omega), if_neg (by omega), if_neg (by omega),
    if_neg (by omega), if_neg (by omega), if_neg (by omega), if_pos hc]

end Json

namespace Json

theorem reaches_number {cbs : Callbacks} (hcb : ∀ e, cbs.invoke e ≠ some false)
    (steps : Nat → JsonDecode_Step) (d : Int) (g : Bool) (n : Nat) (hn : n < 2147483648)
    (rest : List Nat) (hrest : stopsNumber rest) (ev : List Event) (L : Int)
    (hL : L = ((natDigits (n + 1) n [] ++ rest).length : Int)) :
    Reaches cbs ⟨steps, d, g, some (natDigits (n + 1) n [] ++ rest), L⟩ ev
      ⟨steps, d, g, some rest, (rest.length : Int)⟩ (ev ++ emitted cbs [Event.int n]) := by
  have hpow : n < 10 ^ (n + 1) :=
    Nat.lt_of_lt_of_le (Nat.lt_pow_self (by norm_num) n)
      (Nat.pow_le_pow_right (by norm_num) (Nat.le_succ n))
  obtain ⟨ds, hds, hne, hdig, hval⟩ := natDigits_spec (n + 1) n [] (by omega) hpow
  rw [List.append_nil] at hds
  rw [hds] at hL ⊢
  cases ds with
  | nil => exact absurd rfl hne
  | cons c cs =>
    have hc := hdig c (by simp)
    have hc32 : c ≠ 32 := by omega
    have htok := GetToken_digit c (cs ++ rest) L hc
    have hscan : scanNumber (c :: (cs ++ rest)) false = some (cs.length + 1, false) := by
      simpa using scanNumber_digits (c :: cs) rest false hdig hrest
    have hatoi : atoi (c :: (cs ++ rest)) = (n : Int) := by
      simpa using atoi_digits (c :: cs) rest n hdig hrest hval hn
    have hL1 : L = (rest.length : Int) + (cs.length + 1) := by
      rw [hL]
      simp only [List.length_append, List.length_cons]
      push_cast
      omega
    have hL2 : L - ((cs.length : Int) + 1) = rest.length := by omega
    apply reaches_step
    · simp only [hL1]; omega
    · simp [decodeStep, hc32, htok, hscan, hatoi, fire_true hcb, hL2]
    · simp only [Option.getD_some, List.length_append, List.length_cons]
      omega

theorem reaches_string {cbs : Callbacks} (hcb : ∀ e, cbs.invoke e ≠ some false)
    (steps : Nat → JsonDecode_Step) (k : Nat) (hk : k < 32) (g : Bool) (s : List Nat)
    (hs : plainString s = true) (rest : List Nat) (ev : List Event) (L : Int)
    (hL : L = ((34 :: (s ++ 34 :: rest)).length : Int))
    (hctx : steps k = JsonDecode_Step.JSON_DECODE_IN_ARRAY ∨
      (steps k = JsonDecode_Step.JSON_DECODE_IN_OBJECT ∧ g = false)) :
    Reaches cbs ⟨steps, (k : Int), g, some (34 :: (s ++ 34 :: rest)), L⟩ ev
      ⟨steps, (k : Int), g, some rest, (rest.length : Int)⟩
      (ev ++ emitted cbs [Event.string s s.length]) := by
  have hscan := scanString_plain s rest hs
  have hin := inSteps_natCast k hk
  have hL1 : L = (rest.length : Int) + (s.length + 2) := by
    rw [hL]
    simp only [List.length_append, List.length_cons]
    push_cast
    omega
  have hL2 : L - 1 - ((s.length : Int) + 1) = rest.length := by omega
  apply reaches_step
  · simp only [hL1]; omega
  · rcases hctx with h | ⟨h, hg⟩
    · simp [decodeStep, JsonDecode_GetToken, hscan, hin, h, fire_true hcb, hL2]
    · subst hg
      simp [decodeStep, JsonDecode_GetToken, hscan, hin, h, fire_true hcb, hL2]
  · simp only [Option.getD_some, List.length_append, List.length_cons]
    omega

theorem reaches_firstKey {cbs : Callbacks} (hcb : ∀ e, cbs.invoke e ≠ some false)
    (steps : Nat → JsonDecode_Step) (k : Nat) (hk : k < 32) (g : Bool) (s : List Nat)
    (hs : plainString s = true) (rest : List Nat) (ev : List Event) (L : Int)
    (hL : L = ((34 :: (s ++ 34 :: rest)).length : Int))
    (hctx : steps k = JsonDecode_Step.JSON_DECODE_OBJECT_START) :
    Reaches cbs ⟨steps, (k : Int), g, some (34 :: (s ++ 34 :: rest)), L⟩ ev
      ⟨Function.update steps k JsonDecode_Step.JSON_DECODE_IN_OBJECT, (k : Int), false,
        some rest, (rest.length : Int)⟩
      (ev ++ emitted cbs [Event.objKey s s.length]) := by
  have hscan := scanString_plain s rest hs
  have hin := inSteps_natCast k hk
  have hL1 : L = (rest.length : Int) + (s.length + 2) := by
    rw [hL]
    simp only [List.length_append, List.length_cons]
    push_cast
    omega
  have hL2 : L - 1 - ((s.length : Int) + 1) = rest.length := by omega
  apply reaches_step
  · simp only [hL1]; omega
  · cases g <;>
      simp [decodeStep, JsonDecode_GetToken, hscan, hin, hctx, fire_true hcb, hL2]
  · simp only [Option.getD_some, List.length_append, List.length_cons]
    omega

theorem reaches_nextKey {cbs : Callbacks} (hcb : ∀ e, cbs.invoke e ≠ some false)
    (steps : Nat → JsonDecode_Step) (k : Nat) (hk : k < 32) (s : List Nat)
    (hs : plainString s = true) (rest : List Nat) (ev : List Event) (L : Int)
    (hL : L = ((34 :: (s ++ 34 :: rest)).length : Int))
    (hctx : steps k = JsonDecode_Step.JSON_DECODE_IN_OBJECT) :
    Reaches cbs ⟨steps, (k : Int), true, some (34 :: (s ++ 34 :: rest)), L⟩ ev
      ⟨steps, (k : Int), false, some rest, (rest.length : Int)⟩
      (ev ++ emitted cbs [Event.objKey s s.length]) := by
  have hscan := scanString_plain s rest hs
  have hin := inSteps_natCast k hk
  have hL1 : L = (rest.length : Int) + (s.length + 2) := by
    rw [hL]
    simp only [List.length_append, List.length_cons]
    push_cast
    omega
  have hL2 : L - 1 - ((s.length : Int) + 1) = rest.length := by omega
  apply reaches_step
  · simp only [hL1]; omega
  · simp [decodeStep, JsonDecode_GetToken, hscan, hin, hctx, fire_true hcb, hL2]
  · simp only [Option.getD_some, List.length_append, List.length_cons]
    omega

end Json

namespace Json

theorem stopsNumber_comma (t : List Nat) : stopsNumber (44 :: t) := by
  intro c h
  simp at h
  omega

theorem stopsNumber_arrayClose (t : List Nat) : stopsNumber (93 :: t) := by
  intro c h
  simp at h
  omega

theorem stopsNumber_objectClose (t : List Nat) : stopsNumber (125 :: t) := by
  intro c h
  simp at h
  omega

theorem stopsNumber_elems (xs : JElems) (rest : List Nat) (h : stopsNumber rest) :
    stopsNumber (xs.renderTail ++ rest) := by
  cases xs with
  | nil => simpa [JElems.renderTail] using h
  | cons v r =>
    simp only [JElems.renderTail, List.cons_append]
    exact stopsNumber_comma _

theorem stopsNumber_members (ms : JMembers) (rest : List Nat) (h : stopsNumber rest) :
    stopsNumber (ms.renderTail ++ rest) := by
  cases ms with
  | nil => simpa [JMembers.renderTail] using h
  | cons key v r =>
    simp only [JMembers.renderTail, List.cons_append]
    exact stopsNumber_comma _

mutual
theorem sim_value {cbs : Callbacks} (hcb : ∀ e, cbs.invoke e ≠ some false) :
    (v : JVal) → ∀ (steps : Nat → JsonDecode_Step) (k : Nat) (g : Bool) (rest : List Nat)
      (ev : List Event) (L : Int), v.wellFormed = true → k + v.depth ≤ 31 → stopsNumber rest →
      L = ((v.render ++ rest).length : Int) →
      (∀ s, v = JVal.str s → steps k = JsonDecode_Step.JSON_DECODE_IN_ARRAY ∨
        (steps k = JsonDecode_Step.JSON_DECODE_IN_OBJECT ∧ g = false)) →
      ∃ steps1 g1, Reaches cbs ⟨steps, (k : Int), g, some (v.render ++ rest), L⟩ ev
          ⟨steps1, (k : Int), g1, some rest, (rest.length : Int)⟩
          (ev ++ emitted cbs v.expected) ∧ ∀ j, j ≤ k → steps1 j = steps j
  | JVal.str s => by
    intro steps k g rest ev L hwf hd _ hL hctx
    have hr : (JVal.str s).render ++ rest = 34 :: (s ++ 34 :: rest) := by simp [JVal.render]
    rw [hr] at hL ⊢
    simp only [JVal.wellFormed] at hwf
    exact ⟨steps, g, reaches_string hcb steps k (by omega) g s hwf rest ev L hL (hctx s rfl),
      fun _ _ => rfl⟩
  | JVal.num n => by
    intro steps k g rest ev L hwf _ hrest hL _
    simp only [JVal.wellFormed, decide_eq_true_eq] at hwf
    exact ⟨steps, g, reaches_number hcb steps k g n hwf rest hrest ev L hL, fun _ _ => rfl⟩
  | JVal.tru => by
    intro steps k g rest ev L _ _ _ hL _
    exact ⟨steps, g, reaches_true hcb steps k g rest ev L hL, fun _ _ => rfl⟩
  | JVal.fls => by
    intro steps k g rest ev L _ _ _ hL _
    exact ⟨steps, g, reaches_false hcb steps k g rest ev L hL, fun _ _ => rfl⟩
  | JVal.arr xs => by
    intro steps k g rest ev L hwf hd _ hL _
    have hr : (JVal.arr xs).render ++ rest = 91 :: (xs.render ++ 93 :: rest) := by
      simp [JVal.render]
    have he : (JVal.arr xs).expected = [Event.startArray] ++ (xs.expected ++ [Event.endArray]) := by
      simp [JVal.expected]
    rw [hr] at hL ⊢
    simp only [JVal.wellFormed] at hwf
    simp only [JVal.depth] at hd
    have r1 := reaches_arrayOpen hcb steps k (by omega) g (xs.render ++ 93 :: rest) ev L hL
    obtain ⟨steps2, g2, r2, p2⟩ := sim_first_elems hcb xs
      (Function.update steps (k + 1) JsonDecode_Step.JSON_DECODE_IN_ARRAY) (k + 1) g
      (93 :: rest) (ev ++ emitted cbs [Event.startArray]) _ hwf (by omega)
      (stopsNumber_arrayClose rest) rfl (by simp)
    have r3 := reaches_arrayClose hcb steps2 k g2 rest
      (ev ++ emitted cbs [Event.startArray] ++ emitted cbs xs.expected) _ rfl
    refine ⟨steps2, g2, ?_, ?_⟩
    · rw [he, emitted_append, emitted_append]
      simp only [← List.append_assoc]
      exact r1.trans (r2.trans r3)
    · intro j hj
      rw [p2 j (by omega), Function.update_noteq (by omega)]
  | JVal.obj ms => by
    intro steps k g rest ev L hwf hd _ hL _
    have hr : (JVal.obj ms).render ++ rest = 123 :: (ms.render ++ 125 :: rest) := by
      simp [JVal.render]
    have he : (JVal.obj ms).expected = [Event.startObj] ++ (ms.expected ++ [Event.endObj]) := by
      simp [JVal.expected]
    rw [hr] at hL ⊢
    simp only [JVal.wellFormed] at hwf
    simp only [JVal.depth] at hd
    have r1 := reaches_objectOpen hcb steps k (by omega) g (ms.render ++ 125 :: rest) ev L hL
    obtain ⟨steps2, g2, r2, p2⟩ := sim_first_members hcb ms
      (Function.update steps (k + 1) JsonDecode_Step.JSON_DECODE_OBJECT_START) (k + 1) g
      (125 :: rest) (ev ++ emitted cbs [Event.startObj]) _ hwf (by omega)
      (stopsNumber_objectClose rest) rfl (by simp)
    have r3 := reaches_objectClose hcb steps2 k g2 rest
      (ev ++ emitted cbs [Event.startObj] ++ emitted cbs ms.expected) _ rfl
    refine ⟨steps2, g2, ?_, ?_⟩
    · rw [he, emitted_append, emitted_append]
      simp only [← List.append_assoc]
      exact r1.trans (r2.trans r3)
    · intro j hj
      rw [p2 j (by omega), Function.update_noteq (by omega)]

theorem sim_first_elems {cbs : Callbacks} (hcb : ∀ e, cbs.invoke e ≠ some false) :
    (xs : JElems) → ∀ (steps : Nat → JsonDecode_Step) (k : Nat) (g : Bool) (rest : List Nat)
      (ev : List Event) (L : Int), xs.wellFormed = true → k + xs.depth ≤ 31 → stopsNumber rest →
      L = ((xs.render ++ rest).length : Int) →
      steps k = JsonDecode_Step.JSON_DECODE_IN_ARRAY →
      ∃ steps1 g1, Reaches cbs ⟨steps, (k : Int), g, some (xs.render ++ rest), L⟩ ev
          ⟨steps1, (k : Int), g1, some rest, (rest.length : Int)⟩
          (ev ++ emitted cbs xs.expected) ∧ ∀ j, j ≤ k → steps1 j = steps j
  | JElems.nil => by
    intro steps k g rest ev L _ _ _ hL _
    simp only [JElems.render, List.nil_append] at hL ⊢
    subst hL
    refine ⟨steps, g, ?_, fun _ _ => rfl⟩
    simp only [JElems.expected, emitted, List.filter_nil, List.append_nil]
    exact Reaches.refl _ _ _
  | JElems.cons v xs => by
    intro steps k g rest ev L hwf hd hrest hL hctx
    have hr : (JElems.cons v xs).render ++ rest = v.render ++ (xs.renderTail ++ rest) := by
      simp [JElems.render]
    rw [hr] at hL ⊢
    simp only [JElems.wellFormed, Bool.and_eq_true] at hwf
    simp only [JElems.depth] at hd
    obtain ⟨steps1, g1, r1, p1⟩ := sim_value hcb v steps k g (xs.renderTail ++ rest) ev L
      hwf.1 (by omega) (stopsNumber_elems xs rest hrest) hL (fun _ _ => Or.inl hctx)
    obtain ⟨steps2, g2, r2, p2⟩ := sim_tail_elems hcb xs steps1 k g1 rest
      (ev ++ emitted cbs v.expected) _ hwf.2 (by omega) hrest rfl
      (by rw [p1 k (le_refl k)]; exact hctx)
    refine ⟨steps2, g2, ?_, ?_⟩
    · have hev : ev ++ emitted cbs (JElems.cons v xs).expected =
          ev ++ emitted cbs v.expected ++ emitted cbs xs.expected := by
        simp only [JElems.expected, emitted_append, List.append_assoc]
      rw [hev]
      exact r1.trans r2
    · intro j hj
      rw [p2 j hj, p1 j hj]

theorem sim_tail_elems {cbs : Callbacks} (hcb : ∀ e, cbs.invoke e ≠ some false) :
    (xs : JElems) → ∀ (steps : Nat → JsonDecode_Step) (k : Nat) (g : Bool) (rest : List Nat)
      (ev : List Event) (L : Int), xs.wellFormed = true → k + xs.depth ≤ 31 → stopsNumber rest →
      L = ((xs.renderTail ++ rest).length : Int) →
      steps k = JsonDecode_Step.JSON_DECODE_IN_ARRAY →
      ∃ steps1 g1, Reaches cbs ⟨steps, (k : Int), g, some (xs.renderTail ++ rest), L⟩ ev
          ⟨steps1, (k : Int), g1, some rest, (rest.length : Int)⟩
          (ev ++ emitted cbs xs.expected) ∧ ∀ j, j ≤ k → steps1 j = steps j
  | JElems.nil => by
    intro steps k g rest ev L _ _ _ hL _
    simp only [JElems.renderTail, List.nil_append] at hL ⊢
    subst hL
    refine ⟨steps, g, ?_, fun _ _ => rfl⟩
    simp only [JElems.expected, emitted, List.filter_nil, List.append_nil]
    exact Reaches.refl _ _ _
  | JElems.cons v xs => by
    intro steps k g rest ev L hwf hd hrest hL hctx
    have hr : (JElems.cons v xs).renderTail ++ rest =
        44 :: (v.render ++ (xs.renderTail ++ rest)) := by
      simp [JElems.renderTail]
    rw [hr] at hL ⊢
    simp only [JElems.wellFormed, Bool.and_eq_true] at hwf
    simp only [JElems.depth] at hd
    have r0 := reaches_comma cbs steps k g (v.render ++ (xs.renderTail ++ rest)) ev L hL
    obtain ⟨steps1, g1, r1, p1⟩ := sim_value hcb v steps k true (xs.renderTail ++ rest) ev _
      hwf.1 (by omega) (stopsNumber_elems xs rest hrest) rfl (fun _ _ => Or.inl hctx)
    obtain ⟨steps2, g2, r2, p2⟩ := sim_tail_elems hcb xs steps1 k g1 rest
      (ev ++ emitted cbs v.expected) _ hwf.2 (by omega) hrest rfl
      (by rw [p1 k (le_refl k)]; exact hctx)
    refine ⟨steps2, g2, ?_, ?_⟩
    · have hev : ev ++ emitted cbs (JElems.cons v xs).expected =
          ev ++ emitted cbs v.expected ++ emitted cbs xs.expected := by
        simp only [JElems.expected, emitted_append, List.append_assoc]
      rw [hev]
      exact r0.trans (r1.trans r2)
    · intro j hj
      rw [p2 j hj, p1 j hj]

theorem sim_first_members {cbs : Callbacks} (hcb : ∀ e, cbs.invoke e ≠ some false) :
    (ms : JMembers) → ∀ (steps : Nat → JsonDecode_Step) (k : Nat) (g : Bool) (rest : List Nat)
      (ev : List Event) (L : Int), ms.wellFormed = true → k + ms.depth ≤ 31 → stopsNumber rest →
      L = ((ms.render ++ rest).length : Int) →
      steps k = JsonDecode_Step.JSON_DECODE_OBJECT_START →
      ∃ steps1 g1, Reaches cbs ⟨steps, (k : Int), g, some (ms.render ++ rest), L⟩ ev
          ⟨steps1, (k : Int), g1, some rest, (rest.length : Int)⟩
          (ev ++ emitted cbs ms.expected) ∧ ∀ j, j < k → steps1 j = steps j
  | JMembers.nil => by
    intro steps k g rest ev L _ _ _ hL _
    simp only [JMembers.render, List.nil_append] at hL ⊢
    subst hL
    refine ⟨steps, g, ?_, fun _ _ => rfl⟩
    simp only [JMembers.expected, emitted, List.filter_nil, List.append_nil]
    exact Reaches.refl _ _ _
  | JMembers.cons key v ms => by
    intro steps k g rest ev L hwf hd hrest hL hctx
    have hr : (JMembers.cons key v ms).render ++ rest =
        34 :: (key ++ 34 :: (58 :: (v.render ++ (ms.renderTail ++ rest)))) := by
      simp [JMembers.render]
    have he : (JMembers.cons key v ms).expected =
        [Event.objKey key key.length] ++ (v.expected ++ ms.expected) := by
      simp [JMembers.expected]
    rw [hr] at hL ⊢
    simp only [JMembers.wellFormed, Bool.and_eq_true] at hwf
    simp only [JMembers.depth] at hd
    have r0 := reaches_firstKey hcb steps k (by omega) g key hwf.1.1
      (58 :: (v.render ++ (ms.renderTail ++ rest))) ev L hL hctx
    have r0c := reaches_colon cbs
      (Function.update steps k JsonDecode_Step.JSON_DECODE_IN_OBJECT) k false
      (v.render ++ (ms.renderTail ++ rest)) (ev ++ emitted cbs [Event.objKey key key.length])
      _ rfl
    obtain ⟨steps1, g1, r1, p1⟩ := sim_value hcb v
      (Function.update steps k JsonDecode_Step.JSON_DECODE_IN_OBJECT) k false
      (ms.renderTail ++ rest) (ev ++ emitted cbs [Event.objKey key key.length]) _
      hwf.1.2 (by omega) (stopsNumber_members ms rest hrest) rfl
      (fun _ _ => Or.inr ⟨by simp, rfl⟩)
    obtain ⟨steps2, g2, r2, p2⟩ := sim_tail_members hcb ms steps1 k g1 rest
      (ev ++ emitted cbs [Event.objKey key key.length] ++ emitted cbs v.expected) _ hwf.2
      (by omega) hrest rfl (by rw [p1 k (le_refl k)]; simp)
    refine ⟨steps2, g2, ?_, ?_⟩
    · have hev : ev ++ emitted cbs (JMembers.cons key v ms).expected =
          ev ++ emitted cbs [Event.objKey key key.length] ++ emitted cbs v.expected ++
            emitted cbs ms.expected := by
        rw [he, emitted_append, emitted_append]
        simp only [List.append_assoc]
      rw [hev]
      exact r0.trans (r0c.trans (r1.trans r2))
    · intro j hj
      rw [p2 j (by omega), p1 j (by omega), Function.update_noteq (by omega)]

theorem sim_tail_members {cbs : Callbacks} (hcb : ∀ e, cbs.invoke e ≠ some false) :
    (ms : JMembers) → ∀ (steps : Nat → JsonDecode_Step) (k : Nat) (g : Bool) (rest : List Nat)
      (ev : List Event) (L : Int), ms.wellFormed = true → k + ms.depth ≤ 31 → stopsNumber rest →
      L = ((ms.renderTail ++ rest).length : Int) →
      steps k = JsonDecode_Step.JSON_DECODE_IN_OBJECT →
      ∃ steps1 g1, Reaches cbs ⟨steps, (k : Int), g, some (ms.renderTail ++ rest), L⟩ ev
          ⟨steps1, (k : Int), g1, some rest, (rest.length : Int)⟩
          (ev ++ emitted cbs ms.expected) ∧ ∀ j, j ≤ k → steps1 j = steps j
  | JMembers.nil => by
    intro steps k g rest ev L _ _ _ hL _
    simp only [JMembers.renderTail, List.nil_append] at hL ⊢
    subst hL
    refine ⟨steps, g, ?_, fun _ _ => rfl⟩
    simp only [JMembers.expected, emitted, List.filter_nil, List.append_nil]
    exact Reaches.refl _ _ _
  | JMembers.cons key v ms => by
    intro steps k g rest ev L hwf hd hrest hL hctx
    have hr : (JMembers.cons key v ms).renderTail ++ rest =
        44 :: 34 :: (key ++ 34 :: (58 :: (v.render ++ (ms.renderTail ++ rest)))) := by
      simp [JMembers.renderTail]
    have he : (JMembers.cons key v ms).expected =
        [Event.objKey key key.length] ++ (v.expected ++ ms.expected) := by
      simp [JMembers.expected]
    rw [hr] at hL ⊢
    simp only [JMembers.wellFormed, Bool.and_eq_true] at hwf
    simp only [JMembers.depth] at hd
    have rc := reaches_comma cbs steps k g
      (34 :: (key ++ 34 :: (58 :: (v.render ++ (ms.renderTail ++ rest))))) ev L hL
    have r0 := reaches_nextKey hcb steps k (by omega) key hwf.1.1
      (58 :: (v.render ++ (ms.renderTail ++ rest))) ev _ rfl hctx
    have r0c := reaches_colon cbs steps k false
      (v.render ++ (ms.renderTail ++ rest)) (ev ++ emitted cbs [Event.objKey key key.length])
      _ rfl
    obtain ⟨steps1, g1, r1, p1⟩ := sim_value hcb v steps k false
      (ms.renderTail ++ rest) (ev ++ emitted cbs [Event.objKey key key.length]) _
      hwf.1.2 (by omega) (stopsNumber_members ms rest hrest) rfl
      (fun _ _ => Or.inr ⟨hctx, rfl⟩)
    obtain ⟨steps2, g2, r2, p2⟩ := sim_tail_members hcb ms steps1 k g1 rest
      (ev ++ emitted cbs [Event.objKey key key.length] ++ emitted cbs v.expected) _ hwf.2
      (by omega) hrest rfl (by rw [p1 k (le_refl k)]; exact hctx)
    refine ⟨steps2, g2, ?_, ?_⟩
    · have hev : ev ++ emitted cbs (JMembers.cons key v ms).expected =
          ev ++ emitted cbs [Event.objKey key key.length] ++ emitted cbs v.expected ++
            emitted cbs ms.expected := by
        rw [he, emitted_append, emitted_append]
        simp only [List.append_assoc]
      rw [hev]
      exact rc.trans (r0.trans (r0c.trans (r1.trans r2)))
    · intro j hj
      rw [p2 j hj, p1 j hj]
end

end Json

namespace Json

end Json

/-! ## The claims -/

/-- C3. For every ASCII string `s` without NUL, `writePaddedString s` is `s`
followed by `k` NUL bytes with `1 ≤ k ≤ 4`; its length is a multiple of four,
is greater than the length of `s`, is the least such number, and is equal to
`paddedLength s`, the amount the decoder removes for the same string. -/
theorem C3_writePaddedString_shape (s : QString) (h : ∀ c ∈ s, 0 < c ∧ c < 128) :
    ∃ k, 1 ≤ k ∧ k ≤ 4 ∧ Osc.writePaddedString s = s ++ List.replicate k 0
      ∧ (Osc.writePaddedString s).length % 4 = 0
      ∧ s.length < (Osc.writePaddedString s).length
      ∧ (∀ n, n % 4 = 0 → s.length < n → (Osc.writePaddedString s).length ≤ n)
      ∧ (Osc.writePaddedString s).length = Osc.paddedLength s := by
  have hlat : ∀ c ∈ s, c < 256 := fun c hc => by have := (h c hc).2; omega
  refine ⟨4 - s.length % 4, by omega, by omega, ?_, ?_, ?_, ?_, ?_⟩
  · rw [Osc.writePaddedString_eq, Qt.toAscii_latin1 s hlat]
  · exact Osc.writePaddedString_length_mod s
  · rw [Osc.writePaddedString_length]; omega
  · intro n hn hlt
    rw [Osc.writePaddedString_length]; omega
  · rw [Osc.writePaddedString_length, Osc.paddedLength_eq]

/-- C3, at the string `abc`. -/
theorem C3_writePaddedString_shape_witness :
    (∀ c ∈ [97, 98, 99], 0 < c ∧ c < 128) ∧
    ∃ k, 1 ≤ k ∧ k ≤ 4 ∧ Osc.writePaddedString [97, 98, 99] = [97, 98, 99] ++ List.replicate k 0
      ∧ (Osc.writePaddedString [97, 98, 99]).length % 4 = 0
      ∧ [97, 98, 99].length < (Osc.writePaddedString [97, 98, 99]).length
      ∧ (∀ n, n % 4 = 0 → [97, 98, 99].length < n → (Osc.writePaddedString [97, 98, 99]).length ≤ n)
      ∧ (Osc.writePaddedString [97, 98, 99]).length = Osc.paddedLength [97, 98, 99] :=
  ⟨by decide, C3_writePaddedString_shape [97, 98, 99] (by decide)⟩

/-- C4. For a message whose arguments are Int32 or string values,
`toByteArray` is the padded address, the padded type tag (a comma, then one
character per argument in order), then the arguments in order with nothing
between them: an Int32 as four bytes big-endian two-complement, a string
through `writePaddedString`. -/
theorem C4_message_layout (m : OscMessage) (h : ∀ d ∈ m.data, d.isIntOrString) :
    m.toByteArray = Osc.writePaddedString m.addressPattern
      ++ Osc.writePaddedString (44 :: m.data.map layoutTagChar)
      ++ layoutArgs m.data
    ∧ (∀ d ∈ m.data, (∃ i, d = OscData.Int i ∧ layoutTagChar d = 105 ∧ (layoutArgBytes d).length = 4)
        ∨ (∃ s, d = OscData.String s ∧ layoutTagChar d = 115
            ∧ layoutArgBytes d = Osc.writePaddedString s)) := by
  constructor
  · rw [OscMessage.toByteArray_eq, argsBytes_eq_layoutArgs m.data h]
    have : m.data.map OscData.tagChar = m.data.map layoutTagChar :=
      List.map_congr_left (fun d _ => tagChar_eq_layoutTagChar d)
    rw [this]
  · intro d hd
    have hdd := h d hd
    cases d with
    | Int i => exact Or.inl ⟨i, rfl, rfl, rfl⟩
    | Float f => simp [OscData.isIntOrString] at hdd
    | String s => exact Or.inr ⟨s, rfl, rfl, rfl⟩
    | Blob b => simp [OscData.isIntOrString] at hdd

/-- C4, at the message `/a -2 "x"`. -/
theorem C4_message_layout_witness :
    (∀ d ∈ [OscData.Int (-2), OscData.String [120]], d.isIntOrString) ∧
    (OscMessage.mk [47, 97] [OscData.Int (-2), OscData.String [120]]).toByteArray
      = [47, 97, 0, 0, 44, 105, 115, 0, 255, 255, 255, 254, 120, 0, 0, 0] :=
  ⟨by decide,
   (C4_message_layout ⟨[47, 97], [OscData.Int (-2), OscData.String [120]]⟩ (by decide)).1.trans
     (by decide)⟩

/-- C6. A list of exactly one message is encoded as that message alone:
`createPacket [m]` is `m.toByteArray`, without bundle header, timetag or
length field. -/
theorem C6_bundle_collapse (m : OscMessage) : Osc.createPacket [m] = m.toByteArray := by
  simp [Osc.createPacket]

/-- C7. For a list of two or more messages (each encoding smaller than 2^31
bytes, the range of a `QByteArray` size), `createPacket` is the eight bytes of
the padded `#bundle`, then the eight bytes of the timetag, then for each
message in list order four big-endian bytes that hold the size of its
encoding followed by that encoding, and nothing else. -/
theorem C7_bundle_layout (msgs : List OscMessage) (h : 2 ≤ msgs.length)
    (hsize : ∀ m ∈ msgs, m.toByteArray.length < 2147483648) :
    Osc.createPacket msgs
      = Osc.writePaddedString Osc.bundleTag ++ Osc.writeTimetag 0 0 ++ Osc.bundleElements msgs
    ∧ (Osc.writePaddedString Osc.bundleTag).length = 8
    ∧ (Osc.writeTimetag 0 0).length = 8
    ∧ ∀ m ∈ msgs, (Qt.be32 m.toByteArray.length).length = 4
        ∧ (Qt.RStream.readUInt32 ⟨Qt.be32 m.toByteArray.length, true⟩).1 = m.toByteArray.length := by
  refine ⟨Osc.createPacket_bundle msgs h, by decide, by decide, ?_⟩
  intro m hm
  refine ⟨rfl, ?_⟩
  have hlt : m.toByteArray.length < 4294967296 := by have := hsize m hm; omega
  simp only [Qt.RStream.readUInt32, Qt.be32]
  exact Qt.fromBe32_be32 _ hlt

/-- C7, at the two messages `/a` and `/b "x"`. -/
theorem C7_bundle_layout_witness :
    (2 ≤ [OscMessage.mk [47, 97] [], OscMessage.mk [47, 98] [OscData.String [120]]].length
      ∧ ∀ m ∈ [OscMessage.mk [47, 97] [], OscMessage.mk [47, 98] [OscData.String [120]]],
          m.toByteArray.length < 2147483648)
    ∧ Osc.createPacket [⟨[47, 97], []⟩, ⟨[47, 98], [OscData.String [120]]⟩]
      = Osc.writePaddedString Osc.bundleTag ++ Osc.writeTimetag 0 0
          ++ Osc.bundleElements [⟨[47, 97], []⟩, ⟨[47, 98], [OscData.String [120]]⟩] :=
  ⟨by decide,
   (C7_bundle_layout [⟨[47, 97], []⟩, ⟨[47, 98], [OscData.String [120]]⟩] (by decide)
    (by decide)).1⟩

/-- C8, as the code has it. The empty list of messages gives the empty byte
array: no `#bundle` string and no timetag. -/
theorem C8_empty_list_gives_empty_packet : Osc.createPacket [] = [] := by
  rfl

/-- C8, refuted as stated. The packet for the empty list is not the padded
`#bundle` string followed by the timetag. -/
theorem C8_empty_list_no_wrapper :
    Osc.createPacket [] ≠ Osc.writePaddedString Osc.bundleTag ++ Osc.writeTimetag 0 0 := by
  decide

/-- C2, at the failing input. The message `/a` with the one-byte blob `01` is
encoded in 13 bytes, so the size check at the end of `toByteArray` is false
for it, and so is the one of `createPacket` on the list holding it. -/
theorem C2_padding_fails_on_blob :
    (OscMessage.mk [47, 97] [OscData.Blob [1]]).toByteArray.length = 13
    ∧ OscMessage.toByteArrayAssert ⟨[47, 97], [OscData.Blob [1]]⟩ = false
    ∧ Osc.createPacketAssert [⟨[47, 97], [OscData.Blob [1]]⟩] = false := by
  decide

/-- C5, at the failing input. The one-byte blob `01` of the message `/a` is
written as its length and its byte, with no NUL after it. -/
theorem C5_blob_not_padded :
    (OscMessage.mk [47, 97] [OscData.Blob [1]]).toByteArray
      = [47, 97, 0, 0, 44, 98, 0, 0, 0, 0, 0, 1, 1] := by
  decide

/-- C9. Bundle round trip in wire order: for two or more messages with Int32
and string arguments, each encoding to at most 16384 bytes, `processPacket`
on `createPacket msgs` returns the messages of `msgs`, as many and in the
same order. -/
theorem C9_bundle_round_trip (msgs : List OscMessage) (hlen : 2 ≤ msgs.length)
    (h : ∀ m ∈ msgs, m.constructible ∧ (∀ d ∈ m.data, d.isIntOrString)
      ∧ m.toByteArray.length ≤ 16384) :
    (Osc.processPacket (Osc.createPacket msgs)).map Osc.Decoded.msgs = some msgs
    ∧ ∀ out, (Osc.processPacket (Osc.createPacket msgs)).map Osc.Decoded.msgs = some out →
        out.length = msgs.length ∧ ∀ i, out.get? i = msgs.get? i := by
  have hr := Osc.receivePacket_createPacket msgs hlen (fun m hm => ⟨(h m hm).1, (h m hm).2.2⟩)
  have hp : (Osc.processPacket (Osc.createPacket msgs)).map Osc.Decoded.msgs = some msgs := by
    unfold Osc.processPacket
    rw [hr]
    rfl
  refine ⟨hp, ?_⟩
  intro out hout
  rw [hp] at hout
  cases hout
  exact ⟨rfl, fun _ => rfl⟩

/-- C9, at the two messages `/a 7` and `/b "x"`. -/
theorem C9_bundle_round_trip_witness :
    (2 ≤ [OscMessage.mk [47, 97] [OscData.Int 7],
          OscMessage.mk [47, 98] [OscData.String [120]]].length
      ∧ ∀ m ∈ [OscMessage.mk [47, 97] [OscData.Int 7],
          OscMessage.mk [47, 98] [OscData.String [120]]],
          m.constructible ∧ (∀ d ∈ m.data, d.isIntOrString) ∧ m.toByteArray.length ≤ 16384)
    ∧ (Osc.processPacket (Osc.createPacket
        [⟨[47, 97], [OscData.Int 7]⟩, ⟨[47, 98], [OscData.String [120]]⟩])).map Osc.Decoded.msgs
      = some [⟨[47, 97], [OscData.Int 7]⟩, ⟨[47, 98], [OscData.String [120]]⟩] :=
  ⟨by decide,
   (C9_bundle_round_trip [⟨[47, 97], [OscData.Int 7]⟩, ⟨[47, 98], [OscData.String [120]]⟩]
    (by decide) (by decide)).1⟩

/-- C10, at the failing input. On the packet `/a` NUL NUL, which holds an
address and nothing after it, `getTypeTag` reads index 0 of an empty buffer:
the decode ends with the bounds flag cleared (and no message). -/
theorem C10_getTypeTag_reads_empty_buffer :
    Osc.processPacket [47, 97, 0, 0] = some ⟨[], false⟩
    ∧ (Osc.getTypeTag []).inBounds = false := by
  decide

/-- C11, at the failing input. The packet `/a` NUL NUL `,s` NUL NUL `abc`
announces one string argument and holds no NUL after the type tag; the
decoder returns the message `/a "abc"` for it, from `receiveMessage` and from
`processPacket`. The same bytes announced as the first of two arguments are
rejected. -/
theorem C11_unterminated_last_string_accepted :
    Osc.receiveMessage [47, 97, 0, 0, 44, 115, 0, 0, 97, 98, 99]
      = ⟨some ⟨[47, 97], [OscData.String [97, 98, 99]]⟩, true⟩
    ∧ Osc.processPacket [47, 97, 0, 0, 44, 115, 0, 0, 97, 98, 99]
      = some ⟨[⟨[47, 97], [OscData.String [97, 98, 99]]⟩], true⟩
    ∧ Osc.receiveMessage [47, 97, 0, 0, 44, 115, 105, 0, 97, 98, 99] = ⟨none, true⟩ := by
  decide

/-- C12, as the code has it. A non-empty packet whose first byte is not a
slash and that does not start with `#bundle` adds no message to the output
list, and `receivePacket` returns true for it. -/
theorem C12_unrecognised_start_adds_nothing (pkt : QByteArray) (hne : pkt ≠ [])
    (hslash : pkt.head? ≠ some 47) (hbundle : Qt.startsWith pkt Osc.bundleTag = false) :
    Osc.receivePacket pkt = some ⟨true, [], true⟩ := by
  have h1 : Qt.startsWith pkt [47] = false := by
    cases pkt with
    | nil => exact absurd rfl hne
    | cons c cs =>
      have hc : ¬ c = 47 := fun e => hslash (by simp [e])
      have hc2 : ¬ 47 = c := fun e => hc e.symm
      simp [Qt.startsWith, List.isPrefixOf, hc2]
  unfold Osc.receivePacket
  rw [Osc.receivePacketFuel]
  simp [h1, hbundle]

/-- C12, at the packet `hi`. -/
theorem C12_unrecognised_start_adds_nothing_witness :
    ([104, 105] ≠ [] ∧ [104, 105].head? ≠ some 47
      ∧ Qt.startsWith [104, 105] Osc.bundleTag = false)
    ∧ Osc.receivePacket [104, 105] = some ⟨true, [], true⟩ :=
  ⟨by decide, C12_unrecognised_start_adds_nothing [104, 105] (by decide) (by decide) (by decide)⟩

/-- C12, refuted as stated. For the packet `hi`, which is not empty, does not
start with a slash and does not start with `#bundle`, `receivePacket` does not
return false. -/
theorem C12_unrecognised_start_returns_true :
    [104, 105] ≠ [] ∧ Qt.startsWith [104, 105] [47] = false
    ∧ Qt.startsWith [104, 105] Osc.bundleTag = false
    ∧ (Osc.receivePacket [104, 105]).map Osc.PacketResult.ok ≠ some false := by
  decide

/-- C13, as the code has it. When no comma occurs anywhere in the bytes that
follow the padded address, `receiveMessage` returns no message. -/
theorem C13_no_comma_no_message (msg : QByteArray)
    (h : 44 ∉ Qt.removeFront msg (Osc.paddedLength (Qt.fromAscii msg))) :
    (Osc.receiveMessage msg).msg = none := by
  have htag : (Osc.getTypeTag
      (Qt.removeFront msg (Osc.paddedLength (Qt.fromAscii msg)))).tag = [] := by
    unfold Osc.getTypeTag
    simp only [Osc.getTypeTagLoop_no_comma _ h]
    rfl
  unfold Osc.receiveMessage
  simp only [htag]
  rfl

/-- C13, at the packet `/a` NUL NUL `xxxx` `i` NUL NUL NUL. -/
theorem C13_no_comma_no_message_witness :
    44 ∉ Qt.removeFront [47, 97, 0, 0, 120, 120, 120, 120, 105, 0, 0, 0]
          (Osc.paddedLength (Qt.fromAscii [47, 97, 0, 0, 120, 120, 120, 120, 105, 0, 0, 0]))
    ∧ (Osc.receiveMessage [47, 97, 0, 0, 120, 120, 120, 120, 105, 0, 0, 0]).msg = none :=
  ⟨by decide, C13_no_comma_no_message _ (by decide)⟩

/-- C13, refuted as stated. In the packet `/a` NUL NUL `xxxx` `,` NUL NUL NUL
the bytes after the padded address begin with `x`, not with a comma, and
`receiveMessage` returns the message `/a`: the bytes before the later comma
are skipped. -/
theorem C13_later_comma_is_accepted :
    (Qt.removeFront [47, 97, 0, 0, 120, 120, 120, 120, 44, 0, 0, 0]
        (Osc.paddedLength (Qt.fromAscii [47, 97, 0, 0, 120, 120, 120, 120, 44, 0, 0, 0]))).head?
      = some 120
    ∧ (Osc.receiveMessage [47, 97, 0, 0, 120, 120, 120, 120, 44, 0, 0, 0]).msg
      = some ⟨[47, 97], []⟩ := by
  decide

/-- C14. When the type tag of a message packet holds, after its first
character, a character other than `i`, `f`, `s` and `b`, `receiveMessage`
returns no message, wherever that character stands and whatever data bytes
follow. -/
theorem C14_unknown_tag_rejected (msg : QByteArray)
    (h : ∃ c ∈ (Osc.getTypeTag
          (Qt.removeFront msg (Osc.paddedLength (Qt.fromAscii msg)))).tag.drop 1,
        c ≠ 105 ∧ c ≠ 102 ∧ c ≠ 115 ∧ c ≠ 98) :
    (Osc.receiveMessage msg).msg = none := by
  obtain ⟨c, hc, h105, h102, h115, h98⟩ := h
  unfold Osc.receiveMessage
  simp only
  split
  · rfl
  · obtain ⟨new, e1, e2, e3⟩ := Osc.extractDataLoop_shape
      ((Osc.getTypeTag (Qt.removeFront msg (Osc.paddedLength (Qt.fromAscii msg)))).tag.drop 1)
      (Qt.RStream.openOn
        (Osc.getTypeTag (Qt.removeFront msg (Osc.paddedLength (Qt.fromAscii msg)))).rest) []
    have hne : new.length ≠ ((Osc.getTypeTag
        (Qt.removeFront msg (Osc.paddedLength (Qt.fromAscii msg)))).tag.drop 1).length := by
      intro hlen
      have hmap := e3 hlen
      rw [← hmap] at hc
      obtain ⟨d, _, hd⟩ := List.mem_map.mp hc
      cases d <;> simp [OscData.tagChar] at hd <;> omega
    have hlen2 : (Osc.extractData
        (Osc.getTypeTag (Qt.removeFront msg (Osc.paddedLength (Qt.fromAscii msg)))).tag
        (Osc.getTypeTag (Qt.removeFront msg (Osc.paddedLength (Qt.fromAscii msg)))).rest
        []).2.length ≠ (Osc.getTypeTag
          (Qt.removeFront msg (Osc.paddedLength (Qt.fromAscii msg)))).tag.length - 1 := by
      unfold Osc.extractData
      rw [e1]
      simp only [List.nil_append, List.length_drop] at hne ⊢
      exact hne
    simp [hlen2]

/-- C14, at the packet `/a` NUL NUL `,ix` NUL followed by eight data bytes. -/
theorem C14_unknown_tag_rejected_witness :
    (∃ c ∈ (Osc.getTypeTag (Qt.removeFront
              [47, 97, 0, 0, 44, 105, 120, 0, 0, 0, 0, 1, 0, 0, 0, 2]
              (Osc.paddedLength (Qt.fromAscii
                [47, 97, 0, 0, 44, 105, 120, 0, 0, 0, 0, 1, 0, 0, 0, 2])))).tag.drop 1,
        c ≠ 105 ∧ c ≠ 102 ∧ c ≠ 115 ∧ c ≠ 98)
    ∧ (Osc.receiveMessage [47, 97, 0, 0, 44, 105, 120, 0, 0, 0, 0, 1, 0, 0, 0, 2]).msg = none :=
  ⟨⟨120, by decide, by decide⟩,
   C14_unknown_tag_rejected _ ⟨120, by decide, by decide⟩⟩

/-- C15, at the failing input. Every message `receiveMessage` returns has
exactly (type tag length - 1) arguments, and its k-th argument has the
variant named by the k-th character after the comma; a packet whose data ends
after the bytes of only some of the announced arguments, or inside an Int32,
Float32 or blob argument, yields no message. But the packet `/a` NUL NUL
`,is` NUL `00 00 00 07` `ab`, whose data ends inside the announced string,
before its NUL, yields the message `/a 7 "ab"`. -/
theorem C15_cut_last_string_is_returned :
    (∀ (msg : QByteArray) (m : OscMessage), (Osc.receiveMessage msg).msg = some m →
      m.data.length
          = (Osc.getTypeTag
              (Qt.removeFront msg (Osc.paddedLength (Qt.fromAscii msg)))).tag.length - 1
        ∧ m.data.map OscData.tagChar
          = (Osc.getTypeTag
              (Qt.removeFront msg (Osc.paddedLength (Qt.fromAscii msg)))).tag.drop 1)
    ∧ (∀ (addr : QString) (pre post : List OscData),
        (∀ c ∈ addr, 0 < c ∧ c < 256) → (∀ d ∈ pre, d.wellFormed) → post ≠ [] →
        (Osc.receiveMessage (Osc.writePaddedString addr
            ++ Osc.writePaddedString (44 :: (pre ++ post).map OscData.tagChar)
            ++ OscData.argsBytes pre)).msg = none)
    ∧ (∀ (addr : QString) (pre post : List OscData) (d : OscData) (part suffix : QByteArray),
        (∀ c ∈ addr, 0 < c ∧ c < 256) → (∀ x ∈ pre, x.wellFormed) → d.wellFormed →
        (∀ s, d ≠ OscData.String s) → suffix ≠ [] → part ++ suffix = d.argBytes →
        (Osc.receiveMessage (Osc.writePaddedString addr
            ++ Osc.writePaddedString (44 :: (pre ++ d :: post).map OscData.tagChar)
            ++ (OscData.argsBytes pre ++ part))).msg = none)
    ∧ (Osc.receiveMessage [47, 97, 0, 0, 44, 105, 115, 0, 0, 0, 0, 7, 97, 98]).msg
        = some ⟨[47, 97], [OscData.Int 7, OscData.String [97, 98]]⟩ := by
  refine ⟨?_, ?_, ?_, by decide⟩
  · intro msg m h
    unfold Osc.receiveMessage at h
    simp only at h
    split at h
    · cases h
    · split at h
      · cases h
      · rename_i hcheck
        simp only [Option.some.injEq] at h
        subst h
        simp only [Bool.or_eq_true, Bool.not_eq_true', decide_eq_true_eq, not_or,
          Decidable.not_not] at hcheck
        refine ⟨hcheck.2, ?_⟩
        obtain ⟨new, e1, _, e3⟩ := Osc.extractDataLoop_shape
          ((Osc.getTypeTag (Qt.removeFront msg (Osc.paddedLength (Qt.fromAscii msg)))).tag.drop 1)
          (Qt.RStream.openOn
            (Osc.getTypeTag (Qt.removeFront msg (Osc.paddedLength (Qt.fromAscii msg)))).rest) []
        have hlen := hcheck.2
        unfold Osc.extractData at hlen ⊢
        rw [e1] at hlen ⊢
        simp only [List.nil_append] at hlen ⊢
        exact e3 (by simp only [List.length_drop]; exact hlen)
  · intro addr pre post haddr hpre hpost
    rw [Osc.receiveMessage_short_data addr pre post haddr hpre hpost]
  · intro addr pre post d part suffix haddr hpre hd hns hsuf hpart
    rw [Osc.receiveMessage_truncated_arg addr pre post d part suffix haddr hpre hd hns hsuf hpart]

/-- C15, at the packet `/a` NUL NUL `,is` NUL `00 00 00 01` `xy` NUL NUL, which
decodes to `/a 1 "xy"`, at the same packet cut after the int, and at the
packet `/a` NUL NUL `,i` NUL NUL `00 00` cut inside the int. -/
theorem C15_cut_last_string_is_returned_witness :
    ((Osc.receiveMessage
        [47, 97, 0, 0, 44, 105, 115, 0, 0, 0, 0, 1, 120, 121, 0, 0]).msg
        = some ⟨[47, 97], [OscData.Int 1, OscData.String [120, 121]]⟩
      ∧ [OscData.Int 1, OscData.String [120, 121]].length = 3 - 1
      ∧ [OscData.Int 1, OscData.String [120, 121]].map OscData.tagChar = [105, 115])
    ∧ (Osc.receiveMessage (Osc.writePaddedString [47, 97]
            ++ Osc.writePaddedString (44 :: ([OscData.Int 1] ++ [OscData.String [120, 121]]).map
                OscData.tagChar)
            ++ OscData.argsBytes [OscData.Int 1])).msg = none
    ∧ (Osc.receiveMessage (Osc.writePaddedString [47, 97]
            ++ Osc.writePaddedString (44 :: ([] ++ OscData.Int 1 :: []).map OscData.tagChar)
            ++ (OscData.argsBytes [] ++ [0, 0]))).msg = none :=
  ⟨⟨by decide, by decide,
    (C15_cut_last_string_is_returned.1
      [47, 97, 0, 0, 44, 105, 115, 0, 0, 0, 0, 1, 120, 121, 0, 0]
      ⟨[47, 97], [OscData.Int 1, OscData.String [120, 121]]⟩ (by decide)).2.trans (by decide)⟩,
   C15_cut_last_string_is_returned.2.1 [47, 97] [OscData.Int 1] [OscData.String [120, 121]]
     (by decide) (by decide) (by decide),
   C15_cut_last_string_is_returned.2.2.1 [47, 97] [] [] (OscData.Int 1) [0, 0] [0, 1]
     (by decide) (by decide) (by decide) (by intro s; exact OscData.noConfusion)
     (by decide) (by decide)⟩

/-- C16, as the code has it. In a bundle packet whose elements are valid
messages up to an element whose length field is 0 (or negative as a 32-bit
int), greater than 16384, or greater than the number of bytes that remain,
`receivePacket` returns false and decodes nothing after that element; the
messages of the elements before it stay in the output list, and
`processPacket` returns exactly those. -/
theorem C16_bad_length_keeps_earlier_messages (tt : QByteArray) (pre : List OscMessage)
    (b0 b1 b2 b3 : Nat) (rest : QByteArray) (htt : tt.length = 8)
    (hpre : ∀ m ∈ pre, m.constructible ∧ m.toByteArray.length ≤ 16384)
    (hbad : Qt.fromBe32 b0 b1 b2 b3 = 0 ∨ 16384 < Qt.fromBe32 b0 b1 b2 b3
      ∨ rest.length < Qt.fromBe32 b0 b1 b2 b3) :
    Osc.receivePacket (Osc.writePaddedString Osc.bundleTag ++ tt
        ++ Osc.bundleElements pre ++ b0 :: b1 :: b2 :: b3 :: rest)
      = some ⟨false, pre, true⟩
    ∧ Osc.processPacket (Osc.writePaddedString Osc.bundleTag ++ tt
        ++ Osc.bundleElements pre ++ b0 :: b1 :: b2 :: b3 :: rest)
      = some ⟨pre, true⟩ := by
  have h := Osc.receivePacket_bad_element tt pre b0 b1 b2 b3 rest htt hpre hbad
  refine ⟨h, ?_⟩
  unfold Osc.processPacket
  rw [h]
  rfl

/-- C16, at the bundle that holds the message `/a`, then an element of
announced length 0, then the message `/b`. -/
theorem C16_bad_length_keeps_earlier_messages_witness :
    (([0, 0, 0, 0, 0, 0, 0, 0] : QByteArray).length = 8
      ∧ (∀ m ∈ [OscMessage.mk [47, 97] []], m.constructible ∧ m.toByteArray.length ≤ 16384)
      ∧ (Qt.fromBe32 0 0 0 0 = 0 ∨ 16384 < Qt.fromBe32 0 0 0 0
          ∨ ([0, 0, 0, 8, 47, 98, 0, 0, 44, 0, 0, 0] : QByteArray).length < Qt.fromBe32 0 0 0 0))
    ∧ Osc.processPacket (Osc.writePaddedString Osc.bundleTag ++ [0, 0, 0, 0, 0, 0, 0, 0]
        ++ Osc.bundleElements [OscMessage.mk [47, 97] []]
        ++ 0 :: 0 :: 0 :: 0 :: [0, 0, 0, 8, 47, 98, 0, 0, 44, 0, 0, 0])
      = some ⟨[OscMessage.mk [47, 97] []], true⟩ :=
  ⟨by decide,
   (C16_bad_length_keeps_earlier_messages [0, 0, 0, 0, 0, 0, 0, 0] [OscMessage.mk [47, 97] []]
      0 0 0 0 [0, 0, 0, 8, 47, 98, 0, 0, 44, 0, 0, 0] (by decide) (by decide) (by decide)).2⟩

/-- C16, refuted as stated. The bundle that holds the valid message `/a`
followed by an element of announced length 0 makes `receivePacket` return
false, and `processPacket` still returns the message `/a`, not an empty
list. -/
theorem C16_earlier_messages_are_returned :
    Osc.receivePacket ([35, 98, 117, 110, 100, 108, 101, 0, 0, 0, 0, 0, 0, 0, 0, 0]
        ++ [0, 0, 0, 8, 47, 97, 0, 0, 44, 0, 0, 0] ++ [0, 0, 0, 0])
      = some ⟨false, [⟨[47, 97], []⟩], true⟩
    ∧ (Osc.processPacket ([35, 98, 117, 110, 100, 108, 101, 0, 0, 0, 0, 0, 0, 0, 0, 0]
        ++ [0, 0, 0, 8, 47, 97, 0, 0, 44, 0, 0, 0] ++ [0, 0, 0, 0])).map Osc.Decoded.msgs
      ≠ some [] := by
  decide

/-- C17. Autosend change detection: for a channel `i` in 0..7 whose
subscription bit is set, one run of `analoginOscAutosender` creates no message
with the address of `i` and leaves `analoginAutosendVals[i]` as it was when
the sampled value is equal to it; when the sampled value differs, the run
creates exactly one message with the address `/analogin/<i>/value`, whose
single argument is the sampled value as an int, and stores the sampled value
in `analoginAutosendVals[i]`. -/
theorem C17_autosend_change_detection (sample : Nat → Int) (ch : Nat) (st : Analogin.State)
    (i : Nat) (hi : i < 8) (hbit : st.analoginAutosendChannels.testBit i = true) :
    Analogin.autosendAddress i
        = [47, 97, 110, 97, 108, 111, 103, 105, 110, 47, 48 + i, 47, 118, 97, 108, 117, 101]
    ∧ (sample i = st.analoginAutosendVals i →
        (Analogin.analoginOscAutosender sample ch st).2.filter
            (fun c => decide (c.address = Analogin.autosendAddress i)) = []
        ∧ (Analogin.analoginOscAutosender sample ch st).1.analoginAutosendVals i
            = st.analoginAutosendVals i)
    ∧ (sample i ≠ st.analoginAutosendVals i →
        (Analogin.analoginOscAutosender sample ch st).2.filter
            (fun c => decide (c.address = Analogin.autosendAddress i))
          = [⟨ch, Analogin.autosendAddress i, [⟨Analogin.OscType.INT, sample i⟩]⟩]
        ∧ (Analogin.analoginOscAutosender sample ch st).1.analoginAutosendVals i = sample i) := by
  have hne : st.analoginAutosendChannels &&& (1 <<< i) ≠ 0 :=
    (Analogin.and_one_shiftLeft_ne_zero_iff _ _).mpr hbit
  obtain ⟨e1, e2⟩ := Analogin.autosender_spec sample ch st i hi
  refine ⟨Analogin.autosendAddress_small i (by omega), ?_, ?_⟩
  · intro hs
    have h2 : ¬ st.analoginAutosendVals i ≠ sample i := fun h => h hs.symm
    rw [e1, e2]
    simp [hne, hs]
  · intro hs
    have h2 : st.analoginAutosendVals i ≠ sample i := fun h => hs h.symm
    rw [e1, e2]
    simp [hne, h2]

/-- C17, at channel 2 with the stored value 100: a run that samples 100, then
a run that samples 101. -/
theorem C17_autosend_change_detection_witness :
    (2 < 8 ∧ Nat.testBit 0xDF04 2 = true)
    ∧ ((Analogin.analoginOscAutosender (fun _ => 100) 0 ⟨fun _ => 100, 0xDF04, 0xDF04⟩).2.filter
            (fun c => decide (c.address = Analogin.autosendAddress 2)) = []
        ∧ (Analogin.analoginOscAutosender (fun _ => 100) 0
            ⟨fun _ => 100, 0xDF04, 0xDF04⟩).1.analoginAutosendVals 2 = 100)
    ∧ ((Analogin.analoginOscAutosender (fun _ => 101) 0
          (Analogin.analoginOscAutosender (fun _ => 100) 0 ⟨fun _ => 100, 0xDF04, 0xDF04⟩).1).2.filter
            (fun c => decide (c.address = Analogin.autosendAddress 2))
          = [⟨0, Analogin.autosendAddress 2, [⟨Analogin.OscType.INT, 101⟩]⟩]
        ∧ (Analogin.analoginOscAutosender (fun _ => 101) 0
          (Analogin.analoginOscAutosender (fun _ => 100) 0
            ⟨fun _ => 100, 0xDF04, 0xDF04⟩).1).1.analoginAutosendVals 2 = 101) :=
  ⟨by decide,
   (C17_autosend_change_detection (fun _ => 100) 0 ⟨fun _ => 100, 0xDF04, 0xDF04⟩ 2
      (by decide) (by decide)).2.1 rfl,
   (C17_autosend_change_detection (fun _ => 101) 0
      (Analogin.analoginOscAutosender (fun _ => 100) 0 ⟨fun _ => 100, 0xDF04, 0xDF04⟩).1 2
      (by decide) (by decide)).2.2 (by decide)⟩

/-- C18. Persistence default: when the 16-bit word read from the store has a
high byte other than the sentinel `0xDF`, after `analoginAutoSendInit` no
channel 0..7 has its subscription bit set. -/
theorem C18_persistence_default (st : Analogin.State) (hv : st.eeprom < 65536)
    (hhi : st.eeprom / 256 ≠ 0xDF) (i : Nat) (hi : i < 8) :
    (Analogin.analoginAutoSendInit st).analoginAutosendChannels.testBit i = false
    ∧ Analogin.subscribed (Analogin.analoginAutoSendInit st) i = false := by
  have hc : (Analogin.analoginAutoSendInit st).analoginAutosendChannels = 57088 := by
    rw [Analogin.init_channels, Nat.mod_eq_of_lt hv, if_neg hhi]
  have hb : Nat.testBit 57088 i = false := by
    interval_cases i <;> decide
  refine ⟨by rw [hc]; exact hb, ?_⟩
  unfold Analogin.subscribed
  rw [hc, (Analogin.and_one_shiftLeft_eq_zero_iff 57088 i).mpr hb]
  rfl

/-- C18, at the stored word `0xFFFF` of an erased store, channel 3. -/
theorem C18_persistence_default_witness :
    ((65535 : Nat) < 65536 ∧ 65535 / 256 ≠ 0xDF ∧ 3 < 8)
    ∧ (Analogin.analoginAutoSendInit ⟨fun _ => 0, 0, 65535⟩).analoginAutosendChannels.testBit 3
        = false
    ∧ Analogin.subscribed (Analogin.analoginAutoSendInit ⟨fun _ => 0, 0, 65535⟩) 3 = false :=
  ⟨by decide,
   C18_persistence_default ⟨fun _ => 0, 0, 65535⟩ (by decide) (by decide) 3 (by decide)⟩

/-- C19. Subscription toggle: for a channel `idx` in 0..7 and any 16-bit mask,
`analoginAutosendHandler` called with one argument sets bit `idx` when the
argument is non-zero and clears it when it is 0, leaves every other bit as it
was, writes the new mask to the store and creates no reply; a following call
with no argument creates exactly one reply, at the address it was called
with, carrying the int 1 when the bit is set and 0 when it is clear, and
leaves mask, store and values as they are. -/
theorem C19_subscription_toggle (ch : Nat) (address : List Nat) (idx : Nat)
    (d d2 : Nat → Analogin.OscData) (st : Analogin.State) (hidx : idx < 8)
    (hmask : st.analoginAutosendChannels < 65536) :
    (Analogin.analoginAutosendHandler ch address idx d 1 st).1.analoginAutosendChannels.testBit idx
        = decide ((d 0).i ≠ 0)
    ∧ (∀ j, j ≠ idx →
        (Analogin.analoginAutosendHandler ch address idx d 1 st).1.analoginAutosendChannels.testBit j
          = st.analoginAutosendChannels.testBit j)
    ∧ (Analogin.analoginAutosendHandler ch address idx d 1 st).1.eeprom
        = (Analogin.analoginAutosendHandler ch address idx d 1 st).1.analoginAutosendChannels
    ∧ (Analogin.analoginAutosendHandler ch address idx d 1 st).2 = []
    ∧ (Analogin.analoginAutosendHandler ch address idx d2 0
          (Analogin.analoginAutosendHandler ch address idx d 1 st).1).2
        = [⟨ch, address, [⟨Analogin.OscType.INT, if (d 0).i ≠ 0 then 1 else 0⟩]⟩]
    ∧ (Analogin.analoginAutosendHandler ch address idx d2 0
          (Analogin.analoginAutosendHandler ch address idx d 1 st).1).1
        = (Analogin.analoginAutosendHandler ch address idx d 1 st).1 := by
  have hbit := Analogin.handler_one_testBit ch address idx d st hmask hidx
  have hidxbit := hbit idx
  rw [if_pos rfl] at hidxbit
  refine ⟨hidxbit, ?_, (Analogin.handler_one_channels ch address idx d st).2.1,
    (Analogin.handler_one_channels ch address idx d st).2.2.2, ?_, ?_⟩
  · intro j hj
    rw [hbit j, if_neg (fun e => hj e.symm)]
  · by_cases hv : (d 0).i ≠ 0
    · have ht : (Analogin.analoginAutosendHandler ch address idx d 1
          st).1.analoginAutosendChannels &&& (1 <<< idx) ≠ 0 :=
        (Analogin.and_one_shiftLeft_ne_zero_iff _ _).mpr (by rw [hidxbit]; simp [hv])
      rw [Analogin.handler_zero ch address idx d2, if_pos ht, if_pos hv]
    · have ht : ¬ ((Analogin.analoginAutosendHandler ch address idx d 1
          st).1.analoginAutosendChannels &&& (1 <<< idx) ≠ 0) := by
        rw [Analogin.and_one_shiftLeft_ne_zero_iff, hidxbit]
        simp [hv]
      rw [Analogin.handler_zero ch address idx d2, if_neg ht, if_neg hv]
  · rw [Analogin.handler_zero ch address idx d2]

/-- C19, at the mask `0xDF04`: channel 3 switched on with the argument 1. -/
theorem C19_subscription_toggle_witness :
    (3 < 8 ∧ (0xDF04 : Nat) < 65536)
    ∧ (Analogin.analoginAutosendHandler 0 [47, 120] 3 (fun _ => ⟨Analogin.OscType.INT, 1⟩) 1
        ⟨fun _ => 0, 0xDF04, 0⟩).1.analoginAutosendChannels.testBit 3 = decide ((1 : Int) ≠ 0)
    ∧ (Analogin.analoginAutosendHandler 0 [47, 120] 3 (fun _ => ⟨Analogin.OscType.INT, 1⟩) 1
        ⟨fun _ => 0, 0xDF04, 0⟩).1.eeprom = 0xDF0C :=
  ⟨by decide,
   (C19_subscription_toggle 0 [47, 120] 3 (fun _ => ⟨Analogin.OscType.INT, 1⟩)
      (fun _ => ⟨Analogin.OscType.INT, 0⟩) ⟨fun _ => 0, 0xDF04, 0⟩ (by decide) (by decide)).1,
   (C19_subscription_toggle 0 [47, 120] 3 (fun _ => ⟨Analogin.OscType.INT, 1⟩)
      (fun _ => ⟨Analogin.OscType.INT, 0⟩) ⟨fun _ => 0, 0xDF04, 0⟩ (by decide)
      (by decide)).2.2.1.trans (by decide)⟩

/-- C20. Sentinel invariant and restart round trip: after
`analoginAutoSendInit` the high byte of the mask is `0xDF`; a toggle through
`analoginAutosendHandler` on a channel 0..7 keeps it so; hence after any
non-empty sequence of such toggles the word last written to the store, read
back by `analoginAutoSendInit` after a restart, gives the same mask, and so
the same subscription bit for every channel. -/
theorem C20_sentinel_and_restart :
    (∀ st : Analogin.State,
      Analogin.highByte (Analogin.analoginAutoSendInit st).analoginAutosendChannels = 0xDF
      ∧ (Analogin.analoginAutoSendInit st).analoginAutosendChannels < 65536)
    ∧ (∀ (st : Analogin.State) (idx : Nat) (v : Int), idx < 8 →
        st.analoginAutosendChannels < 65536 →
        Analogin.highByte st.analoginAutosendChannels = 0xDF →
        Analogin.highByte (Analogin.toggle st (idx, v)).analoginAutosendChannels = 0xDF
        ∧ (Analogin.toggle st (idx, v)).analoginAutosendChannels < 65536)
    ∧ (∀ (st restart : Analogin.State) (reqs : List (Nat × Int)),
        (∀ r ∈ reqs, r.1 < 8) → reqs ≠ [] →
        restart.eeprom = (reqs.foldl Analogin.toggle (Analogin.analoginAutoSendInit st)).eeprom →
        (Analogin.analoginAutoSendInit restart).analoginAutosendChannels
            = (reqs.foldl Analogin.toggle
                (Analogin.analoginAutoSendInit st)).analoginAutosendChannels
        ∧ ∀ i, i < 8 → Analogin.subscribed (Analogin.analoginAutoSendInit restart) i
            = Analogin.subscribed
                (reqs.foldl Analogin.toggle (Analogin.analoginAutoSendInit st)) i) := by
  refine ⟨?_, ?_, ?_⟩
  · intro st
    obtain ⟨h1, h2⟩ := Analogin.init_inv st
    refine ⟨?_, h1⟩
    rw [Analogin.highByte_eq, h2]
  · intro st idx v hidx hlt hhi
    rw [Analogin.highByte_eq] at hhi
    have hdiv : st.analoginAutosendChannels / 256 = 223 := by omega
    have h1 : (Analogin.toggle st (idx, v)).analoginAutosendChannels < 65536 := by
      rw [Analogin.toggle_eq]; exact Analogin.handler_one_lt _ _ _ _ _
    have h2 : (Analogin.toggle st (idx, v)).analoginAutosendChannels / 256 = 223 := by
      rw [Analogin.toggle_eq, Analogin.handler_one_high _ _ _ _ _ hlt hidx]; exact hdiv
    refine ⟨?_, h1⟩
    rw [Analogin.highByte_eq, h2]
  · intro st restart reqs hreq hne hrestart
    obtain ⟨h1, h2⟩ := Analogin.init_inv st
    obtain ⟨e1, e2, e3⟩ := Analogin.foldl_toggle_inv reqs hreq _ h1 h2
    have hsaved := e3 (Or.inr hne)
    have hch := Analogin.init_of_saved restart _ (hrestart.trans hsaved) e1 e2
    refine ⟨hch, ?_⟩
    intro i _
    unfold Analogin.subscribed
    rw [hch]

/-- C20, at an erased store: channels 2 and 5 are switched on, channel 2 is
switched off again, and the board restarts with the word left in the store. -/
theorem C20_sentinel_and_restart_witness :
    (Analogin.analoginAutoSendInit
        ⟨fun _ => 0, 0,
          ([(2, 1), (5, 1), (2, 0)].foldl Analogin.toggle
            (Analogin.analoginAutoSendInit ⟨fun _ => 0, 0, 65535⟩)).eeprom⟩).analoginAutosendChannels
      = ([(2, 1), (5, 1), (2, 0)].foldl Analogin.toggle
            (Analogin.analoginAutoSendInit ⟨fun _ => 0, 0, 65535⟩)).analoginAutosendChannels
    ∧ ([(2, 1), (5, 1), (2, 0)].foldl Analogin.toggle
            (Analogin.analoginAutoSendInit ⟨fun _ => 0, 0, 65535⟩)).analoginAutosendChannels
      = 0xDF20 :=
  ⟨(C20_sentinel_and_restart.2.2 ⟨fun _ => 0, 0, 65535⟩ _ [(2, 1), (5, 1), (2, 0)]
      (by decide) (by decide) rfl).1,
   by decide⟩

/-- C21. Read/write asymmetry: for a channel `idx` in 0..7 and any address,
`analoginOscHandler` called with zero arguments creates exactly one reply,
whose address is the address it was called with and whose single argument is
the int value read from channel `idx`; called with one or more arguments it
creates no reply. -/
theorem C21_read_write_asymmetry (sample : Nat → Int) (ch : Nat) (address : List Nat)
    (idx : Nat) (d : Nat → Analogin.OscData) (datalen : Nat) (hidx : idx < 8) :
    Analogin.analoginOscHandler sample ch address idx d 0
        = [⟨ch, address, [⟨Analogin.OscType.INT, sample idx⟩]⟩]
    ∧ (1 ≤ datalen → Analogin.analoginOscHandler sample ch address idx d datalen = []) := by
  have _ := hidx
  refine ⟨rfl, ?_⟩
  intro h
  have hne : ¬ datalen = 0 := by omega
  simp [Analogin.analoginOscHandler, hne]

/-- C21, at channel 5 with the address `/analogin/5/value` and the sampled
value 512: no argument, then one argument. -/
theorem C21_read_write_asymmetry_witness :
    (5 < 8)
    ∧ Analogin.analoginOscHandler (fun _ => 512) 0 (Analogin.autosendAddress 5) 5
          (fun _ => ⟨Analogin.OscType.INT, 7⟩) 0
        = [⟨0, Analogin.autosendAddress 5, [⟨Analogin.OscType.INT, 512⟩]⟩]
    ∧ Analogin.analoginOscHandler (fun _ => 512) 0 (Analogin.autosendAddress 5) 5
          (fun _ => ⟨Analogin.OscType.INT, 7⟩) 1 = [] :=
  ⟨by decide,
   (C21_read_write_asymmetry (fun _ => 512) 0 (Analogin.autosendAddress 5) 5
      (fun _ => ⟨Analogin.OscType.INT, 7⟩) 1 (by decide)).1,
   (C21_read_write_asymmetry (fun _ => 512) 0 (Analogin.autosendAddress 5) 5
      (fun _ => ⟨Analogin.OscType.INT, 7⟩) 1 (by decide)).2 (by decide)⟩

/-- C25, at the failing inputs. With the pin as one stored bit, `ledValue`
after `ledSetValue(on)` returns the opposite of `on` for both values: after
the LED was turned on, `ledValue() == ON` is false, and after it was turned
off it is true. -/
theorem C25_ledValue_is_inverted :
    (∀ (pin : Led.Pin) (setOn : Bool), Led.ledValue (Led.ledSetValue pin setOn) = !setOn)
    ∧ (Led.ledValue (Led.ledSetValue ⟨false⟩ true) == Led.ON) = false
    ∧ (Led.ledValue (Led.ledSetValue ⟨false⟩ false) == Led.ON) = true := by
  refine ⟨fun _ _ => rfl, by decide, by decide⟩

/-- C26, at the failing input. Whatever the number conversions are, as long as
`toInt` rejects the text `-x`, the command `/a -x` gives the message `/a`
with no argument at all: the token `-x` is dropped, not kept as a string. A
command that does not start with a slash gives no message and an empty
packet. -/
theorem C26_minus_token_is_dropped (toFloat : QString → Option Nat)
    (toInt : QString → Option Int) (h : toInt [45, 120] = none) :
    Osc.createMessage toFloat toInt [47, 97, 32, 45, 120] = some ⟨[47, 97], []⟩
    ∧ Osc.createMessage toFloat toInt [97, 32, 49] = none
    ∧ Osc.createPacketText toFloat toInt [97, 32, 49] = [] := by
  refine ⟨?_, by simp [Osc.createMessage, Qt.startsWith, List.isPrefixOf],
    by simp [Osc.createPacketText, Osc.createMessage, Qt.startsWith, List.isPrefixOf]⟩
  have hs : Osc.splitSpace [47, 97, 32, 45, 120] = [[47, 97], [45, 120]] := by decide
  have hstart : Qt.startsWith [47, 97, 32, 45, 120] [47] = true := by decide
  have hq : Qt.startsWith [45, 120] [34] = false := by decide
  have hm : Qt.startsWith [45, 120] [45] = true := by decide
  have hdot : ([45, 120] : QString).contains 46 = false := by decide
  simp [Osc.createMessage, hs, hstart, Osc.createMessageLoop, hq, hm, hdot, h]

/-- C26, with the decimal reading of `toInt`. -/
theorem C26_minus_token_is_dropped_witness :
    Osc.toIntDecimal [45, 120] = none
    ∧ Osc.createMessage (fun _ => none) Osc.toIntDecimal [47, 97, 32, 45, 120]
        = some ⟨[47, 97], []⟩ :=
  ⟨by decide, (C26_minus_token_is_dropped (fun _ => none) Osc.toIntDecimal (by decide)).1⟩

/-- C30. One call of `Stepper_IRQCallback` moves `position` by exactly one
toward `positionRequested` when the two differ and leaves it when they are
equal, never passing the target; it clears `timerRunning` exactly when
`position` is equal to `positionRequested` after the step, and keeps it
otherwise. Hence, with `positionRequested` fixed, after
|positionRequested - position| calls `position` is equal to
`positionRequested`, and `timerRunning` is false (when no call is needed,
it is false in the state `Stepper_SetDetails` leaves). -/
theorem C30_stepper_converges (s : Stepper.StepperControl) :
    (s.position < s.positionRequested →
        (Stepper.Stepper_IRQCallback s).position = s.position + 1
        ∧ (Stepper.Stepper_IRQCallback s).position ≤ s.positionRequested)
    ∧ (s.position > s.positionRequested →
        (Stepper.Stepper_IRQCallback s).position = s.position - 1
        ∧ (Stepper.Stepper_IRQCallback s).position ≥ s.positionRequested)
    ∧ (s.position = s.positionRequested →
        (Stepper.Stepper_IRQCallback s).position = s.position)
    ∧ (Stepper.Stepper_IRQCallback s).positionRequested = s.positionRequested
    ∧ ((Stepper.Stepper_IRQCallback s).position = s.positionRequested →
        (Stepper.Stepper_IRQCallback s).timerRunning = false)
    ∧ ((Stepper.Stepper_IRQCallback s).position ≠ s.positionRequested →
        (Stepper.Stepper_IRQCallback s).timerRunning = s.timerRunning)
    ∧ (Stepper.callbacks (s.positionRequested - s.position).natAbs s).position
        = s.positionRequested
    ∧ (1 ≤ (s.positionRequested - s.position).natAbs →
        (Stepper.callbacks (s.positionRequested - s.position).natAbs s).timerRunning = false)
    ∧ (Stepper.callbacks (s.positionRequested - s.position).natAbs
          (Stepper.Stepper_SetDetails s)).position = s.positionRequested
    ∧ (Stepper.callbacks (s.positionRequested - s.position).natAbs
          (Stepper.Stepper_SetDetails s)).timerRunning = false := by
  have hp := Stepper.irq_position s
  have ht := Stepper.irq_timerRunning s
  obtain ⟨c1, c2⟩ := Stepper.callbacks_converge _ s rfl
  obtain ⟨d1, d2, d3⟩ := Stepper.setDetails_fields s
  have hd : ((Stepper.Stepper_SetDetails s).positionRequested
      - (Stepper.Stepper_SetDetails s).position).natAbs
      = (s.positionRequested - s.position).natAbs := by rw [d1, d2]
  obtain ⟨f1, f2⟩ := Stepper.callbacks_converge _ (Stepper.Stepper_SetDetails s) hd
  refine ⟨?_, ?_, ?_, Stepper.irq_positionRequested s, ?_, ?_, c1, ?_, ?_, ?_⟩
  · intro h
    rw [hp, if_pos h]
    exact ⟨rfl, by omega⟩
  · intro h
    have h1 : ¬ s.position < s.positionRequested := by omega
    rw [hp, if_neg h1, if_pos h]
    exact ⟨rfl, by omega⟩
  · intro h
    have h1 : ¬ s.position < s.positionRequested := by omega
    have h2 : ¬ s.position > s.positionRequested := by omega
    rw [hp, if_neg h1, if_neg h2]
  · intro h
    rw [ht, if_pos h]
  · intro h
    rw [ht, if_neg h]
  · intro h
    exact c2 (Or.inl h)
  · rw [f1, d2]
  · apply f2
    by_cases hn : 1 ≤ (s.positionRequested - s.position).natAbs
    · exact Or.inl hn
    · right
      apply d3
      omega

/-- C30, at a stepper at position 0 asked to go to 3 and one at position 5
asked to go to 3. -/
theorem C30_stepper_converges_witness :
    (Stepper.callbacks 3 ⟨false, false, 1, 3, 0, true, []⟩).position = 3
    ∧ (Stepper.callbacks 3 ⟨false, false, 1, 3, 0, true, []⟩).timerRunning = false
    ∧ (Stepper.Stepper_IRQCallback ⟨true, false, 1, 3, 5, true, []⟩).position = 4 :=
  ⟨(C30_stepper_converges ⟨false, false, 1, 3, 0, true, []⟩).2.2.2.2.2.2.1,
   (C30_stepper_converges ⟨false, false, 1, 3, 0, true, []⟩).2.2.2.2.2.2.2.1 (by decide),
   ((C30_stepper_converges ⟨true, false, 1, 3, 5, true, []⟩).2.1 (by decide)).1⟩

/-- C30, the counterexample: a stepper that is at its requested position
with `timerRunning` set. The distance is 0, so no call is made, and
`timerRunning` is still set; one call would clear it. -/
theorem C30_no_call_leaves_timerRunning :
    (Stepper.callbacks ((3 : Int) - 3).natAbs ⟨false, false, 1, 3, 3, true, []⟩).position = 3
    ∧ (Stepper.callbacks ((3 : Int) - 3).natAbs
        ⟨false, false, 1, 3, 3, true, []⟩).timerRunning = true
    ∧ (Stepper.Stepper_IRQCallback ⟨false, false, 1, 3, 3, true, []⟩).timerRunning = false := by
  decide

/-- C27. Decode terminates: for every byte sequence `receivePacket` returns a
result, the number of nested calls and loop iterations staying below the
packet length plus one; a bundle element handed to the recursive call is at
least four bytes shorter than what was left of the packet; and there is no
nesting limit of its own: a message wrapped in any number `n` of bundles is
decoded as long as the wrapped sizes stay within the element size limit. -/
theorem C27_decode_terminates :
    (∀ pkt : QByteArray, ∃ r, Osc.receivePacket pkt = some r)
    ∧ (∀ (fuel : Nat) (pkt : QByteArray), pkt.length < fuel →
        ∃ r, Osc.receivePacketFuel fuel pkt = some r)
    ∧ (∀ s : Qt.RStream, (s.readByteArray).1 = []
        ∨ (s.readByteArray).1.length + 4 ≤ s.rest.length)
    ∧ (∀ (m : OscMessage) (n : Nat), m.constructible →
        m.toByteArray.length + 20 * n ≤ 16384 →
        Osc.receivePacket (Osc.nestBundle n m.toByteArray) = some ⟨true, [m], true⟩) := by
  refine ⟨?_, ?_, ?_, ?_⟩
  · intro pkt
    exact (Osc.fuel_sufficient (pkt.length + 1)).1 pkt (Nat.lt_succ_self _)
  · intro fuel pkt h
    exact (Osc.fuel_sufficient fuel).1 pkt h
  · intro s
    rcases Qt.readByteArray_length s with h | h
    · exact Or.inl h
    · right; omega
  · intro m n hm hsize
    unfold Osc.receivePacket
    apply Osc.receivePacketFuel_nestBundle m hm n hsize
    rw [Osc.nestBundle_length]
    omega

/-- C27, at the message `/a` wrapped in 40 bundles. -/
theorem C27_decode_terminates_witness :
    ((OscMessage.mk [47, 97] []).constructible
      ∧ (OscMessage.mk [47, 97] []).toByteArray.length + 20 * 40 ≤ 16384)
    ∧ Osc.receivePacket (Osc.nestBundle 40 (OscMessage.mk [47, 97] []).toByteArray)
        = some ⟨true, [OscMessage.mk [47, 97] []], true⟩ :=
  ⟨by decide, C27_decode_terminates.2.2.2 ⟨[47, 97], []⟩ 40 (by decide) (by decide)⟩

/-- C22. JSON encoder separators: after `JsonEncode_Init`, for a non-empty
list of (key, value) string pairs without quote characters, the calls
`ObjectOpen`, then `JsonEncode_String(key)` and `JsonEncode_String(value)`
for each pair in order, then `ObjectClose`, with enough room, write exactly an
opening brace, the pairs as `"key":"value"` joined by commas, and a closing
brace; no call returns NULL, and `remaining` has dropped by exactly the
number of bytes written. -/
theorem C22_encoder_separators (state : Json.JsonEncode_State)
    (pairs : List (List Nat × List Nat)) (remaining : Int) (hne : pairs ≠ [])
    (hquote : ∀ kv ∈ pairs, 34 ∉ kv.1 ∧ 34 ∉ kv.2)
    (hroom : ((([123] : List Nat) ++ Json.renderPairs pairs ++ [125]).length : Int)
      ≤ remaining) :
    (Json.encode state remaining
        ([Json.Call.ObjectOpen] ++ Json.pairCalls pairs ++ [Json.Call.ObjectClose])).buf
      = [123] ++ Json.renderPairs pairs ++ [125]
    ∧ (Json.encode state remaining
        ([Json.Call.ObjectOpen] ++ Json.pairCalls pairs ++ [Json.Call.ObjectClose])).remaining
      = remaining - ((([123] : List Nat) ++ Json.renderPairs pairs ++ [125]).length : Int)
    ∧ (Json.encode state remaining
        ([Json.Call.ObjectOpen] ++ Json.pairCalls pairs ++ [Json.Call.ObjectClose])).gotNull
      = false
    ∧ (Json.encode state remaining
        ([Json.Call.ObjectOpen] ++ Json.pairCalls pairs ++ [Json.Call.ObjectClose])).inBounds
      = true := by
  have _ := hquote
  simp only [List.length_append, List.length_cons, List.length_nil] at hroom
  push_cast at hroom
  obtain ⟨o1, o2, o3, o4, o5⟩ := Json.start_objectOpen state remaining (by omega)
  obtain ⟨p1, p2, p3, p4, p5⟩ := Json.foldl_pairCalls pairs hne
    ((Json.Session.start state remaining).call Json.Call.ObjectOpen)
    Json.JsonEncode_Step.JSON_OBJ_START [] (Or.inl ⟨rfl, rfl⟩) o1 o4 o5
    (by rw [o3]; simp only [List.nil_append]; omega)
  obtain ⟨c1, c2, c3, c4, _⟩ := Json.call_objectClose _ p1 p4 p5
    (by rw [p3, o3]; simp only [List.nil_append]; omega)
  have hfold : Json.encode state remaining
        ([Json.Call.ObjectOpen] ++ Json.pairCalls pairs ++ [Json.Call.ObjectClose])
      = ((Json.pairCalls pairs).foldl Json.Session.call
          ((Json.Session.start state remaining).call Json.Call.ObjectOpen)).call
            Json.Call.ObjectClose := by
    simp [Json.encode, List.foldl_append]
  rw [hfold]
  refine ⟨?_, ?_, c3, c4⟩
  · rw [c1, p2, o2]; simp
  · rw [c2, p3, o3]
    simp only [List.length_append, List.length_cons, List.length_nil, List.nil_append]
    push_cast
    omega

/-- C22, at the pairs `("a", "x")` and `("b", "y")` with 64 bytes of room. -/
theorem C22_encoder_separators_witness :
    (([([97], [120]), ([98], [121])] : List (List Nat × List Nat)) ≠ []
      ∧ (∀ kv ∈ ([([97], [120]), ([98], [121])] : List (List Nat × List Nat)),
          34 ∉ kv.1 ∧ 34 ∉ kv.2)
      ∧ ((([123] : List Nat) ++ Json.renderPairs [([97], [120]), ([98], [121])]
          ++ [125]).length : Int) ≤ 64)
    ∧ (Json.encode ⟨fun _ => Json.JsonEncode_Step.JSON_IN_ARRAY, 5⟩ 64
        ([Json.Call.ObjectOpen] ++ Json.pairCalls [([97], [120]), ([98], [121])]
          ++ [Json.Call.ObjectClose])).buf
      = [123, 34, 97, 34, 58, 34, 120, 34, 44, 34, 98, 34, 58, 34, 121, 34, 125] :=
  ⟨by decide,
   (C22_encoder_separators ⟨fun _ => Json.JsonEncode_Step.JSON_IN_ARRAY, 5⟩
      [([97], [120]), ([98], [121])] 64 (by decide) (by decide) (by decide)).1.trans
     (by decide)⟩

/-- C23, at the failing input. The documented sequence with the key `hello`
writes `{"hello":234}` for the value 234, in 13 bytes; for the value 12345 it
writes `{"hello":1234}`: the text of the int is cut after four characters,
and 14 bytes are counted where the complete text has 15. -/
theorem C23_int_is_cut_to_four_characters :
    (Json.encode ⟨fun _ => Json.JsonEncode_Step.JSON_START, 0⟩ 256
        [Json.Call.ObjectOpen, Json.Call.String [104, 101, 108, 108, 111],
          Json.Call.IntValue 234, Json.Call.ObjectClose]).buf
      = [123, 34, 104, 101, 108, 108, 111, 34, 58, 50, 51, 52, 125]
    ∧ (Json.encode ⟨fun _ => Json.JsonEncode_Step.JSON_START, 0⟩ 256
        [Json.Call.ObjectOpen, Json.Call.String [104, 101, 108, 108, 111],
          Json.Call.IntValue 12345, Json.Call.ObjectClose]).buf
      = [123, 34, 104, 101, 108, 108, 111, 34, 58, 49, 50, 51, 52, 125]
    ∧ (Json.encode ⟨fun _ => Json.JsonEncode_Step.JSON_START, 0⟩ 256
        [Json.Call.ObjectOpen, Json.Call.String [104, 101, 108, 108, 111],
          Json.Call.IntValue 12345, Json.Call.ObjectClose]).remaining = 256 - 14
    ∧ Json.decimalInt 12345 = [49, 50, 51, 52, 53]
    ∧ (Json.encode ⟨fun _ => Json.JsonEncode_Step.JSON_START, 0⟩ 256
        [Json.Call.ObjectOpen, Json.Call.String [104, 101, 108, 108, 111],
          Json.Call.IntValue (-1234), Json.Call.ObjectClose]).buf
      = [123, 34, 104, 101, 108, 108, 111, 34, 58, 45, 49, 50, 51, 125] := by
  decide

/-- C28, at the failing input. After `JsonEncode_Init`, 31 calls of
`JsonEncode_ArrayOpen` stay inside `steps`; the 32nd call finds the depth 31,
raises it to 32, which passes the test against `JSON_MAX_DEPTH`, and writes
`steps[32]`, one past the last entry: it returns a buffer position, not NULL.
A `JsonEncode_ObjectClose` right after `JsonEncode_Init` reads `steps[-1]`. -/
theorem C28_nesting_32_writes_past_steps :
    (Json.encode ⟨fun _ => Json.JsonEncode_Step.JSON_START, 0⟩ 256
        (List.replicate 31 Json.Call.ArrayOpen)).inBounds = true
    ∧ (Json.encode ⟨fun _ => Json.JsonEncode_Step.JSON_START, 0⟩ 256
        (List.replicate 31 Json.Call.ArrayOpen)).state.depth = 31
    ∧ (Json.JsonEncode_ArrayOpen
        (Json.encode ⟨fun _ => Json.JsonEncode_Step.JSON_START, 0⟩ 256
          (List.replicate 31 Json.Call.ArrayOpen)).state 225).inBounds = false
    ∧ (Json.JsonEncode_ArrayOpen
        (Json.encode ⟨fun _ => Json.JsonEncode_Step.JSON_START, 0⟩ 256
          (List.replicate 31 Json.Call.ArrayOpen)).state 225).ret = some 1
    ∧ (Json.JsonEncode_ArrayOpen
        (Json.encode ⟨fun _ => Json.JsonEncode_Step.JSON_START, 0⟩ 256
          (List.replicate 31 Json.Call.ArrayOpen)).state 225).state.depth = 32
    ∧ (Json.encode ⟨fun _ => Json.JsonEncode_Step.JSON_START, 0⟩ 256
        (List.replicate 32 Json.Call.ObjectOpen)).inBounds = false
    ∧ (Json.encode ⟨fun _ => Json.JsonEncode_Step.JSON_START, 0⟩ 256
        [Json.Call.ObjectClose]).inBounds = false := by
  decide

/-- C29: a space between tokens is passed without being counted. On `[1]`
with len 3 `JsonDecode` returns true; on `[ 1]` with len 4 it makes the same
three calls, then has the whole text behind it with `state->len` still 1,
reads the terminator and returns false. -/
theorem C29_space_is_not_counted (state : Json.JsonDecode_State) :
    (Json.JsonDecode Json.Callbacks.allTrue (Json.JsonDecode_Init state) [91, 49, 93] 3).map
        (fun r => (r.ok, r.events, r.state.p, r.state.len)) =
      some (true, [Json.Event.startArray, Json.Event.int 1, Json.Event.endArray],
        some [], 0) ∧
    (Json.JsonDecode Json.Callbacks.allTrue (Json.JsonDecode_Init state) [91, 32, 49, 93]
        4).map (fun r => (r.ok, r.events, r.state.p, r.state.len)) =
      some (false, [Json.Event.startArray, Json.Event.int 1, Json.Event.endArray],
        some [], 1) :=
  ⟨rfl, rfl⟩
